import Mathlib

/-!
Verification of the Simple language pipeline: a shallow embedding of the
parser, semantic analyzer, tree-walking interpreter, SML compiler and the
Simpletron virtual machine, together with theorems about the claims of the
specification.

Conventions of the embedding:
* Python `dict`s keyed by line numbers are represented as association lists
  `List (Nat × Stmt)` in insertion order; `sorted(keys)` becomes an insertion
  sort by key.
* Python sets of symbol names followed by `sorted(...)` become `eraseDups`
  followed by an insertion sort in lexicographic code-point order (`lexLe`),
  which is how Python compares strings.
* Python exceptions become `Except` values whose error constructors carry the
  data interpolated into the exception message at the corresponding raise
  site.
* Machine integers are `Int`/`Nat` (Python integers are unbounded; the
  [-9999, 9999] range checks of the simulator are explicit in the code and
  are translated explicitly).
-/

deriving instance DecidableEq for Except

namespace Simple

/-- Expression nodes of the AST (`meu_ast.py`: `Number`, `Variable`,
`BinaryOp`). -/
inductive Expr where
  | num (value : Int)
  | var (name : String)
  | binop (left : Expr) (op : String) (right : Expr)
deriving DecidableEq, Repr

/-- Statement nodes of the AST (`meu_ast.py`).  The source line number a
statement was declared on is the key of the association list in `Program`,
so it is not repeated inside the node. -/
inductive Stmt where
  | rem
  | input (var : String)
  | print (var : String)
  | letStmt (var : String) (expr : Expr)
  | goto (target : Nat)
  | ifGoto (left : Expr) (op : String) (right : Expr) (target : Nat)
  | endStmt
deriving DecidableEq, Repr

/-- A program: the `lines` mapping from line number to statement
(`meu_ast.py`: `Program`), as an association list in insertion order. -/
structure Program where
  lines : List (Nat × Stmt)
deriving DecidableEq, Repr

/-! ### String ordering and helpers (Python semantics) -/

/-- Lexicographic comparison of char lists by code point; this is exactly how
Python orders strings in `sorted(...)`. -/
def lexLe : List Char → List Char → Bool
  | [], _ => true
  | _ :: _, [] => false
  | a :: as, b :: bs =>
    if a.toNat < b.toNat then true
    else if b.toNat < a.toNat then false
    else lexLe as bs

/-- Python string `<=`. -/
def strLe (a b : String) : Bool := lexLe a.data b.data

/-- `sorted` over a list of Python strings. -/
def sortStrings (l : List String) : List String :=
  List.insertionSort (fun a b => strLe a b = true) l

/-- `sorted(d.keys())` rendered on the association list: a stable sort by
key. -/
def sortLines (l : List (Nat × Stmt)) : List (Nat × Stmt) :=
  List.insertionSort (fun a b => a.1 ≤ b.1) l

/-- Python `s.split("_")` specialised to the single-character separator used
by the compiler. -/
def splitUnderscoreAux : List Char → List Char → List String
  | [], cur => [String.mk cur.reverse]
  | c :: rest, cur =>
    if c = '_' then String.mk cur.reverse :: splitUnderscoreAux rest []
    else splitUnderscoreAux rest (c :: cur)

def splitUnderscore (s : String) : List String := splitUnderscoreAux s.data []

/-- Python `int(s)` on the substrings produced by the constant-symbol parsing
(an optional sign followed by decimal digits); failure is `none`
(Python raises `ValueError`). -/
def parseDigits (l : List Char) : Option Nat :=
  if l = [] then none
  else if l.all (fun c => c.isDigit) then
    some (l.foldl (fun acc c => acc * 10 + (c.toNat - 48)) 0)
  else none

def parseInt (s : String) : Option Int :=
  match s.data with
  | [] => none
  | c :: rest =>
    if c = '-' then (parseDigits rest).map (fun n => -(n : Int))
    else (parseDigits (c :: rest)).map (fun n => (n : Int))

/-- Decimal rendering of a natural number (the digits of Python's
`f"{value}"`); the fuel argument makes the recursion structural, `n + 1` is
always enough. -/
def natToCharsAux : Nat → Nat → List Char
  | 0, _ => []
  | fuel + 1, n =>
    if n < 10 then [Nat.digitChar n]
    else natToCharsAux fuel (n / 10) ++ [Nat.digitChar (n % 10)]

def natToChars (n : Nat) : List Char := natToCharsAux (n + 1) n

/-- Decimal rendering of a Python integer (`f"{value}"`). -/
def intToStr (v : Int) : String :=
  if v < 0 then String.mk ('-' :: natToChars (-v).toNat)
  else String.mk (natToChars v.toNat)

/-! ### SML opcodes (`sml_compiler.py` top of file, `simpletron_simulator.py`
`__init__`) -/

def READ : Nat := 10
def WRITE : Nat := 11
def LOAD : Nat := 20
def STORE : Nat := 21
def ADD : Nat := 30
def SUBTRACT : Nat := 31
def DIVIDE : Nat := 32
def MULTIPLY : Nat := 33
def BRANCH : Nat := 40
def BRANCHNEG : Nat := 41
def BRANCHZERO : Nat := 42
def HALT : Nat := 43

/-! ### SML compiler (`sml_compiler.py`) -/

/-- Operand of a symbolic instruction: either a symbol name (resolved through
the symbol table) or a Python integer (line numbers on branches, immediates
otherwise). -/
inductive SymOperand where
  | sym (s : String)
  | num (n : Nat)
deriving DecidableEq, Repr

/-- One entry of `symbolic_code`: an `(opcode, operand)` pair. -/
abbrev SymInstr := Nat × SymOperand

/-- Compilation failures, one constructor per raise site of
`sml_compiler.py`, carrying the data of the exception message. -/
inductive CompileErr where
  | typeErr
  | unsupportedOp (op : String)
  | unsupportedRelOp (op : String)
  | unknownStmtKind
  | outOfMemory (codeSize symbolCount : Nat)
  | badConst (name : String)
  | undefinedSymbol (name : String)
  | badGotoTarget (line : Nat)
deriving DecidableEq, Repr

/-- The synthetic symbol name of a numeric literal
(`f"__const_{node.value}"`). -/
def constSym (v : Int) : String := "__const_" ++ intToStr v

/-- `SMLCompiler._get_operand_symbol`. -/
def getOperandSymbol : Expr → Except CompileErr String
  | .var n => .ok n
  | .num v => .ok (constSym v)
  | .binop _ _ _ => .error .typeErr

/-- The arithmetic `op_map` of `_generate_code_for_statement`; note that `%`
maps to `MULTIPLY` in the source. -/
def opMap (op : String) : Except CompileErr Nat :=
  if op = "+" then .ok ADD
  else if op = "-" then .ok SUBTRACT
  else if op = "*" then .ok MULTIPLY
  else if op = "/" then .ok DIVIDE
  else if op = "%" then .ok MULTIPLY
  else .error (.unsupportedOp op)

/-- `SMLCompiler._generate_code_for_statement`: the symbolic instructions
emitted for one statement.  `codeLen` is `len(self.symbolic_code)` at entry;
the `!=`, `>=`, `<=` lowerings compute `next_instr = len + 2` after two
emissions, i.e. `codeLen + 4`. -/
def genStmt (codeLen : Nat) : Stmt → Except CompileErr (List SymInstr)
  | .rem => .ok []
  | .input v => .ok [(READ, .sym v)]
  | .print v => .ok [(WRITE, .sym v)]
  | .endStmt => .ok [(HALT, .num 0)]
  | .goto t => .ok [(BRANCH, .num t)]
  | .letStmt v e =>
    match e with
    | .num _ => do
      let s ← getOperandSymbol e
      .ok [(LOAD, .sym s), (STORE, .sym v)]
    | .var _ => do
      let s ← getOperandSymbol e
      .ok [(LOAD, .sym s), (STORE, .sym v)]
    | .binop l op r => do
      let ls ← getOperandSymbol l
      let rs ← getOperandSymbol r
      let opc ← opMap op
      .ok [(LOAD, .sym ls), (opc, .sym rs), (STORE, .sym v)]
  | .ifGoto l op r t => do
    let ls ← getOperandSymbol l
    let rs ← getOperandSymbol r
    if op = "==" then
      .ok [(LOAD, .sym ls), (SUBTRACT, .sym rs), (BRANCHZERO, .num t)]
    else if op = "<" then
      .ok [(LOAD, .sym ls), (SUBTRACT, .sym rs), (BRANCHNEG, .num t)]
    else if op = ">" then
      .ok [(LOAD, .sym rs), (SUBTRACT, .sym ls), (BRANCHNEG, .num t)]
    else if op = "!=" then
      .ok [(LOAD, .sym ls), (SUBTRACT, .sym rs),
           (BRANCHZERO, .num (codeLen + 4)), (BRANCH, .num t)]
    else if op = ">=" then
      .ok [(LOAD, .sym ls), (SUBTRACT, .sym rs),
           (BRANCHNEG, .num (codeLen + 4)), (BRANCH, .num t)]
    else if op = "<=" then
      .ok [(LOAD, .sym rs), (SUBTRACT, .sym ls),
           (BRANCHNEG, .num (codeLen + 4)), (BRANCH, .num t)]
    else .error (.unsupportedRelOp op)

/-- First pass of `SMLCompiler.compile`: walk the sorted lines, record
`line_location_map[line] = len(symbolic_code)` and append the statement's
code. -/
def emitAll : List (Nat × Stmt) → List SymInstr → List (Nat × Nat) →
    Except CompileErr (List SymInstr × List (Nat × Nat))
  | [], code, locs => .ok (code, locs)
  | (ln, st) :: rest, code, locs => do
    let instrs ← genStmt code.length st
    emitAll rest (code ++ instrs) (locs ++ [(ln, code.length)])

/-- `SMLCompiler._discover_symbols` on an expression node. -/
def discoverExpr : Expr → List String
  | .num v => [constSym v]
  | .var n => [n]
  | .binop l _ r => discoverExpr l ++ discoverExpr r

/-- `SMLCompiler._discover_symbols` on a statement node. -/
def discoverStmt : Stmt → List String
  | .input v => [v]
  | .print v => [v]
  | .letStmt v e => v :: discoverExpr e
  | .ifGoto l _ r _ => discoverExpr l ++ discoverExpr r
  | _ => []

/-- Deduplication keeping first occurrences (the effect of accumulating the
discovered names into a Python `set`), with the already-seen names as the
second argument. -/
def dedupAux [BEq α] : List α → List α → List α
  | [], _ => []
  | x :: xs, seen =>
    if seen.contains x then dedupAux xs seen
    else x :: dedupAux xs (x :: seen)

def pyDedup [BEq α] (l : List α) : List α := dedupAux l []

/-- The sorted set of discovered symbols (`sorted(symbols_needed)`). -/
def programSymbols (p : Program) : List String :=
  sortStrings (pyDedup ((p.lines.map (fun x => discoverStmt x.2)).flatten))

/-- The symbol table: each discovered symbol in sorted order is assigned the
next address, starting at `data_start = code_size` and incrementing
`data_pointer` per symbol. -/
def symbolTable (codeSize : Nat) : List String → List (String × Nat)
  | [] => []
  | s :: rest => (s, codeSize) :: symbolTable (codeSize + 1) rest

/-- The initial contents of a data cell: constants' cells are preloaded by
parsing the integer after the last underscore of the symbol name (with the
source's broken rescue path for a negative parse); every other cell keeps the
initial 0. -/
def dataCell (s : String) : Except CompileErr Int :=
  if List.isPrefixOf "__const_".data s.data then
    let parts := splitUnderscore s
    match parseInt (parts.getLastD "") with
    | none => .error (.badConst s)
    | some v =>
      if v < 0 then
        match parseInt ((parts.getD (parts.length - 2) "") ++ (parts.getLastD "")) with
        | none => .error (.badConst s)
        | some w => .ok w
      else .ok v
  else .ok 0

/-- Final patch of one symbolic instruction (`compile`, last loop): symbol
operands resolve through the symbol table; integer operands on the three
branch opcodes resolve through `line_location_map`; other integer operands
are immediates.  The final word is `opcode * 100 + operand`. -/
def resolveInstr (symTab : List (String × Nat)) (locs : List (Nat × Nat)) :
    SymInstr → Except CompileErr Int
  | (opc, .sym s) =>
    match symTab.lookup s with
    | none => .error (.undefinedSymbol s)
    | some a => .ok ((opc * 100 + a : Nat) : Int)
  | (opc, .num n) =>
    if opc = BRANCH ∨ opc = BRANCHNEG ∨ opc = BRANCHZERO then
      match locs.lookup n with
      | none => .error (.badGotoTarget n)
      | some a => .ok ((opc * 100 + a : Nat) : Int)
    else .ok ((opc * 100 + n : Nat) : Int)

/-- An exception-aborting `for` loop collecting one result per element, as
the source's final loops do. -/
def exMapM (f : α → Except ε β) : List α → Except ε (List β)
  | [] => .ok []
  | x :: xs => do
    let y ← f x
    let ys ← exMapM f xs
    .ok (y :: ys)

/-- `SMLCompiler.compile`.  The result list has exactly
`total_memory_needed = code_size + len(symbols)` entries (the source builds
`final_code = [0] * total_memory_needed`): instruction words first, then the
data cells. -/
def compile (p : Program) : Except CompileErr (List Int) := do
  let (code, locs) ← emitAll (sortLines p.lines) [] []
  let codeSize := code.length
  let syms := programSymbols p
  let total := codeSize + syms.length
  if total > 100 then .error (.outOfMemory codeSize syms.length)
  else do
    let symTab := symbolTable codeSize syms
    let dataCells ← exMapM dataCell syms
    let instrs ← exMapM (resolveInstr symTab locs) code
    .ok (instrs ++ dataCells)

/-! ### Simpletron virtual machine (`simpletron_simulator.py`) -/

/-- Machine state: `memory`, `accumulator`, `instruction_counter`, the input
stream and the output buffer (one entry per `WRITE`-emitted line). -/
structure VMState where
  memory : List Int
  accumulator : Int
  instructionCounter : Nat
  inputs : List Int
  output : List Int
deriving DecidableEq, Repr

/-- Simulator failures, one constructor per raise site, carrying the
exception message's data. -/
inductive VMErr where
  | inputError
  | unknownInstr (opcode : Int) (addr : Nat)
  | divByZero (addr : Nat)
  | overflow (addr : Nat)
deriving DecidableEq, Repr

/-- `Simpletron.__init__`: load the code and pad the memory to 100 words. -/
def mkVM (smlCode : List Int) (inputs : List Int) : VMState :=
  { memory := smlCode ++ List.replicate (100 - smlCode.length) 0
    accumulator := 0
    instructionCounter := 0
    inputs := inputs
    output := [] }

/-- `Simpletron._execute_instruction` and the opcode methods: run one decoded
instruction.  Arithmetic opcodes mutate the accumulator and then fail with
overflow when it leaves [-9999, 9999] (`_check_accumulator_overflow`); the
failure reports the not-yet-incremented instruction counter. -/
def vmExec (s : VMState) (opc : Int) (operand : Nat) : Except VMErr VMState :=
  if opc = (READ : Nat) then
    match s.inputs with
    | [] => .error .inputError
    | v :: rest =>
      if -9999 ≤ v ∧ v ≤ 9999 then
        .ok { s with memory := s.memory.set operand v, inputs := rest,
                     instructionCounter := s.instructionCounter + 1 }
      else .error .inputError
  else if opc = (WRITE : Nat) then
    .ok { s with output := s.output ++ [s.memory.getD operand 0],
                 instructionCounter := s.instructionCounter + 1 }
  else if opc = (LOAD : Nat) then
    .ok { s with accumulator := s.memory.getD operand 0,
                 instructionCounter := s.instructionCounter + 1 }
  else if opc = (STORE : Nat) then
    .ok { s with memory := s.memory.set operand s.accumulator,
                 instructionCounter := s.instructionCounter + 1 }
  else if opc = (ADD : Nat) then
    let acc := s.accumulator + s.memory.getD operand 0
    if acc < -9999 ∨ 9999 < acc then .error (.overflow s.instructionCounter)
    else .ok { s with accumulator := acc,
                      instructionCounter := s.instructionCounter + 1 }
  else if opc = (SUBTRACT : Nat) then
    let acc := s.accumulator - s.memory.getD operand 0
    if acc < -9999 ∨ 9999 < acc then .error (.overflow s.instructionCounter)
    else .ok { s with accumulator := acc,
                      instructionCounter := s.instructionCounter + 1 }
  else if opc = (DIVIDE : Nat) then
    let divisor := s.memory.getD operand 0
    if divisor = 0 then .error (.divByZero s.instructionCounter)
    else .ok { s with accumulator := Int.fdiv s.accumulator divisor,
                      instructionCounter := s.instructionCounter + 1 }
  else if opc = (MULTIPLY : Nat) then
    let acc := s.accumulator * s.memory.getD operand 0
    if acc < -9999 ∨ 9999 < acc then .error (.overflow s.instructionCounter)
    else .ok { s with accumulator := acc,
                      instructionCounter := s.instructionCounter + 1 }
  else if opc = (BRANCH : Nat) then
    .ok { s with instructionCounter := operand }
  else if opc = (BRANCHNEG : Nat) then
    if s.accumulator < 0 then .ok { s with instructionCounter := operand }
    else .ok { s with instructionCounter := s.instructionCounter + 1 }
  else if opc = (BRANCHZERO : Nat) then
    if s.accumulator = 0 then .ok { s with instructionCounter := operand }
    else .ok { s with instructionCounter := s.instructionCounter + 1 }
  else .error (.unknownInstr opc s.instructionCounter)

/-- `Simpletron.run`: fetch/decode/execute until `HALT` is decoded or the
instruction counter runs past the end of memory; both terminations return the
output buffer.  Decoding uses Python's floor division and modulo.  `none`
means the fuel ran out with the loop still running. -/
def vmRun : Nat → VMState → Option (Except VMErr (List Int))
  | fuel, s =>
    if s.instructionCounter < s.memory.length then
      let w := s.memory.getD s.instructionCounter 0
      let opc := Int.fdiv w 100
      let operand := (Int.fmod w 100).toNat
      if opc = (HALT : Nat) then some (.ok s.output)
      else
        match fuel with
        | 0 => none
        | fuel' + 1 =>
          match vmExec s opc operand with
          | .error e => some (.error e)
          | .ok s' => vmRun fuel' s'
    else some (.ok s.output)

/-! ### Tree-walking interpreter (`interpreter.py`) -/

/-- Interpreter failures, one constructor per raise site of `interpreter.py`
(plus `missingLine` for the dict lookup `program.lines[line_num]`, which
cannot fail when the line list is well formed). -/
inductive IErr where
  | badInput
  | divByZero
  | unknownOperator (op : String)
  | badExprKind
  | unknownRelOp (op : String)
  | gotoMissing (target line : Nat)
  | ifGotoMissing (target line : Nat)
  | unknownStmtKind (line : Nat)
  | missingLine (line : Nat)
deriving DecidableEq, Repr

/-- The variable store: a dict from name to value, absent names read as 0
(`_get_variable` uses `.get(name, 0)`). -/
def getVar (vars : List (String × Int)) (n : String) : Int :=
  (vars.lookup n).getD 0

/-- `_set_variable`: dict update. -/
def setVar (vars : List (String × Int)) (n : String) (v : Int) :
    List (String × Int) :=
  (n, v) :: vars.filter (fun p => p.1 ≠ n)

/-- `Interpreter._evaluate_expr`: signed integer arithmetic with Python's
floor division / floor modulo and a runtime error on a zero right operand. -/
def evalExpr (vars : List (String × Int)) : Expr → Except IErr Int
  | .num v => .ok v
  | .var n => .ok (getVar vars n)
  | .binop l op r => do
    let lv ← evalExpr vars l
    let rv ← evalExpr vars r
    if op = "+" then .ok (lv + rv)
    else if op = "-" then .ok (lv - rv)
    else if op = "*" then .ok (lv * rv)
    else if op = "/" then
      if rv = 0 then .error .divByZero else .ok (Int.fdiv lv rv)
    else if op = "%" then
      if rv = 0 then .error .divByZero else .ok (Int.fmod lv rv)
    else if op = "=" then .ok rv
    else .error (.unknownOperator op)

/-- `Interpreter._evaluate_condition`. -/
def evalCond (vars : List (String × Int)) (l : Expr) (op : String) (r : Expr) :
    Except IErr Bool := do
  let lv ← evalExpr vars l
  let rv ← evalExpr vars r
  if op = "==" then .ok (decide (lv = rv))
  else if op = "!=" then .ok (decide (lv ≠ rv))
  else if op = ">" then .ok (decide (lv > rv))
  else if op = ">=" then .ok (decide (lv ≥ rv))
  else if op = "<" then .ok (decide (lv < rv))
  else if op = "<=" then .ok (decide (lv ≤ rv))
  else .error (.unknownRelOp op)

/-- Interpreter state: variable store, program counter (an index into the
sorted list of line numbers), input stream and output list. -/
structure IState where
  vars : List (String × Int)
  pc : Nat
  inputs : List Int
  output : List Int
deriving DecidableEq, Repr

/-- `self.line_numbers = sorted(program.lines.keys())`. -/
def lineNumbers (p : Program) : List Nat :=
  List.insertionSort (fun a b => a ≤ b) (p.lines.map Prod.fst)

/-- The initial interpreter state. -/
def mkIState (inputs : List Int) : IState :=
  { vars := [], pc := 0, inputs := inputs, output := [] }

/-- The outcome of one iteration of the `while` loop in `Interpreter.run`. -/
inductive StepRes where
  | next (s : IState)
  | halted (s : IState)
  | offEnd (s : IState)
  | fail (e : IErr)
deriving DecidableEq, Repr

/-- One iteration of `Interpreter.run`'s loop: look up the statement at the
current pc and dispatch on its kind.  `halted` is the `End` break, `offEnd`
is the loop condition `pc < len(line_numbers)` turning false. -/
def interpStep (p : Program) (s : IState) : StepRes :=
  match (lineNumbers p)[s.pc]? with
  | none => .offEnd s
  | some ln =>
    match p.lines.lookup ln with
    | none => .fail (.missingLine ln)
    | some stmt =>
      match stmt with
      | .input v =>
        match s.inputs with
        | [] => .fail .badInput
        | x :: rest =>
          .next { s with vars := setVar s.vars v x, inputs := rest,
                         pc := s.pc + 1 }
      | .print v =>
        .next { s with output := s.output ++ [getVar s.vars v], pc := s.pc + 1 }
      | .letStmt v e =>
        match evalExpr s.vars e with
        | .error er => .fail er
        | .ok val => .next { s with vars := setVar s.vars v val, pc := s.pc + 1 }
      | .goto t =>
        if t ∈ lineNumbers p then
          .next { s with pc := (lineNumbers p).indexOf t }
        else .fail (.gotoMissing t ln)
      | .ifGoto l op r t =>
        match evalCond s.vars l op r with
        | .error er => .fail er
        | .ok b =>
          if b then
            if t ∈ lineNumbers p then
              .next { s with pc := (lineNumbers p).indexOf t }
            else .fail (.ifGotoMissing t ln)
          else .next { s with pc := s.pc + 1 }
      | .endStmt => .halted s
      | .rem => .next { s with pc := s.pc + 1 }

/-- `Interpreter.run`: iterate `interpStep`; reaching `End` or running past
the last line returns the output produced so far.  `none` means the fuel ran
out with the loop still running. -/
def interpRun (p : Program) : Nat → IState → Option (Except IErr (List Int))
  | fuel, s =>
    match interpStep p s with
    | .halted s' => some (.ok s'.output)
    | .offEnd s' => some (.ok s'.output)
    | .fail e => some (.error e)
    | .next s' =>
      match fuel with
      | 0 => none
      | fuel' + 1 => interpRun p fuel' s'

/-! ### Token-level recursive-descent parsing (`parser.py`) -/

/-- The token kinds of `lexer.py`'s `TokenType`. -/
inductive TokenType where
  | lineNumber
  | remKw
  | inputKw
  | letKw
  | printKw
  | gotoKw
  | ifKw
  | endKw
  | id
  | number
  | opArith
  | opRel
  | gotoKeyword
  | newline
  | eof
deriving DecidableEq, Repr

/-- A token: kind, numeric payload (LINE_NUMBER/NUMBER), string payload
(ID and operator lexemes) and 1-indexed position. -/
structure Token where
  type : TokenType
  nval : Nat
  sval : String
  line : Nat
  column : Nat
deriving DecidableEq, Repr

/-- Parse failures, one constructor per raise site of `parser.py`, carrying
the data of the exception message.  `fuelOut` is the embedding's fuel
exhaustion; it is unreachable for the fuel `parseProgram` passes. -/
inductive ParseErr where
  | expectedType (t : TokenType) (line column : Nat)
  | expectedValue (v : String) (line column : Nat)
  | complexExpr (line column : Nat)
  | badOperand (line column : Nat)
  | unexpectedEOF
  | expectedLineNumber (line column : Nat)
  | lineNotIncreasing (got previous : Nat) (line column : Nat)
  | duplicateLine (n line column : Nat)
  | badCommand (line column : Nat)
  | fuelOut
deriving DecidableEq, Repr

/-- `Parser.expect(token_type)`: check the head token's kind and consume
it. -/
def expectType (t : TokenType) : List Token → Except ParseErr (Token × List Token)
  | [] => .error (.expectedType t 0 0)
  | tok :: rest =>
    if tok.type = t then .ok (tok, rest)
    else .error (.expectedType t tok.line tok.column)

/-- `Parser.expect(token_type, value)`: additionally check the token's
lexeme. -/
def expectTypeVal (t : TokenType) (v : String) :
    List Token → Except ParseErr (Token × List Token)
  | [] => .error (.expectedType t 0 0)
  | tok :: rest =>
    if tok.type = t then
      if tok.sval = v then .ok (tok, rest)
      else .error (.expectedValue v tok.line tok.column)
    else .error (.expectedType t tok.line tok.column)

/-- `Parser.parse_operand`: a NUMBER or an ID. -/
def parseOperand : List Token → Except ParseErr (Expr × List Token)
  | [] => .error .unexpectedEOF
  | tok :: rest =>
    if tok.type = .number then .ok (.num (tok.nval : Int), rest)
    else if tok.type = .id then .ok (.var tok.sval, rest)
    else .error (.badOperand tok.line tok.column)

/-- Is the head token an arithmetic operator (`+ - * / %`)? -/
def headIsArith : List Token → Bool
  | tok :: _ =>
    tok.type = .opArith ∧
      (tok.sval = "+" ∨ tok.sval = "-" ∨ tok.sval = "*" ∨ tok.sval = "/" ∨
        tok.sval = "%")
  | [] => false

/-- `Parser.parse_simple_expression`: at most one binary operation; unary `-`
lowers to `BinaryOp(Number(0), '-', operand)`; unary `+` is dropped; a second
arithmetic operator is the "expressão muito complexa" error. -/
def parseSimpleExpr (toks : List Token) : Except ParseErr (Expr × List Token) :=
  match toks with
  | tok :: rest =>
    if tok.type = .opArith ∧ tok.sval = "-" then do
      let (operand, r) ← parseOperand rest
      .ok (.binop (.num 0) "-" operand, r)
    else if tok.type = .opArith ∧ tok.sval = "+" then
      parseOperand rest
    else do
      let (left, r1) ← parseOperand toks
      if headIsArith r1 then
        match r1 with
        | optok :: r2 => do
          let (right, r3) ← parseOperand r2
          if headIsArith r3 then
            match r3 with
            | t2 :: _ => .error (.complexExpr t2.line t2.column)
            | [] => .error .unexpectedEOF
          else .ok (.binop left optok.sval right, r3)
        | [] => .error .unexpectedEOF
      else .ok (left, r1)
  | [] => parseOperand []

/-- `Parser.parse_statement`: dispatch on the head token's keyword kind. -/
def parseStatement : List Token → Except ParseErr (Stmt × List Token)
  | [] => .error .unexpectedEOF
  | tok :: rest =>
    if tok.type = .remKw then .ok (.rem, rest)
    else if tok.type = .inputKw then do
      let (idTok, r) ← expectType .id rest
      .ok (.input idTok.sval, r)
    else if tok.type = .printKw then do
      let (idTok, r) ← expectType .id rest
      .ok (.print idTok.sval, r)
    else if tok.type = .letKw then do
      let (idTok, r1) ← expectType .id rest
      let (_, r2) ← expectTypeVal .opArith "=" r1
      let (e, r3) ← parseSimpleExpr r2
      .ok (.letStmt idTok.sval e, r3)
    else if tok.type = .gotoKw then do
      let (numTok, r) ← expectType .number rest
      .ok (.goto numTok.nval, r)
    else if tok.type = .ifKw then do
      let (l, r1) ← parseSimpleExpr rest
      let (opTok, r2) ← expectType .opRel r1
      let (r, r3) ← parseSimpleExpr r2
      let (_, r4) ← expectTypeVal .gotoKeyword "goto" r3
      let (numTok, r5) ← expectType .number r4
      .ok (.ifGoto l opTok.sval r numTok.nval, r5)
    else if tok.type = .endKw then .ok (.endStmt, rest)
    else .error (.badCommand tok.line tok.column)

/-- The loop body of `Parser.parse_program`: consume a LINE_NUMBER (strictly
greater than the previous one and not yet used), parse its statement, skip
NEWLINEs, and continue. -/
def parseProgramGo : Nat → Nat → List (Nat × Stmt) → List Token →
    Except ParseErr (List (Nat × Stmt))
  | _, _, acc, [] => .ok acc
  | fuel, prev, acc, tok :: rest =>
    if tok.type = .eof then .ok acc
    else
      match fuel with
      | 0 => .error .fuelOut
      | fuel' + 1 =>
        if tok.type = .lineNumber then
          if tok.nval ≤ prev then
            .error (.lineNotIncreasing tok.nval prev tok.line tok.column)
          else if (acc.lookup tok.nval).isSome then
            .error (.duplicateLine tok.nval tok.line tok.column)
          else do
            let (st, r1) ← parseStatement rest
            let r2 := r1.dropWhile (fun t => t.type = .newline)
            parseProgramGo fuel' tok.nval (acc ++ [(tok.nval, st)]) r2
        else .error (.expectedLineNumber tok.line tok.column)

/-- `Parser.parse_program`.  Every loop iteration consumes at least the
LINE_NUMBER token, so `tokens.length` is enough fuel. -/
def parseProgram (tokens : List Token) : Except ParseErr Program :=
  (parseProgramGo tokens.length 0 [] tokens).map Program.mk

/-! ### Semantic analyzer (`parser.py`: `SemanticAnalyzer`) -/

/-- `self.valid_line_numbers = set(program.lines.keys())`. -/
def validLineNumbers (p : Program) : List Nat := p.lines.map Prod.fst

/-- `SemanticAnalyzer._check_goto_target`: append an error entry when the
target is not a defined line.  An entry `(line, target)` stands for the
message `f"Linha {line}: Destino de goto {target} não existe"`. -/
def checkGotoTarget (valid : List Nat) (target currentLine : Nat)
    (errors : List (Nat × Nat)) : List (Nat × Nat) :=
  if target ∈ valid then errors else errors ++ [(currentLine, target)]

/-- The statement iteration of `SemanticAnalyzer.analyze`, threading the
`self.errors` accumulator. -/
def analyzeGo (valid : List Nat) : List (Nat × Stmt) → List (Nat × Nat) →
    List (Nat × Nat)
  | [], errors => errors
  | (ln, st) :: rest, errors =>
    match st with
    | .goto t => analyzeGo valid rest (checkGotoTarget valid t ln errors)
    | .ifGoto _ _ _ t => analyzeGo valid rest (checkGotoTarget valid t ln errors)
    | _ => analyzeGo valid rest errors

/-- `SemanticAnalyzer.analyze`: collect every offending target, then raise a
single `SemanticError` carrying all of them (joined with newlines in the
source). -/
def analyze (p : Program) : Except (List (Nat × Nat)) Unit :=
  let errors := analyzeGo (validLineNumbers p) p.lines []
  if errors = [] then .ok () else .error errors

/-! ### Specification-side predicates used to state the claims -/

/-- The branch target of a statement, when it has one. -/
def stmtTarget : Stmt → Option Nat
  | .goto t => some t
  | .ifGoto _ _ _ t => some t
  | _ => none

/-- The list of all offending `(source line, target)` pairs of a program, in
statement order: the declarative counterpart of the analyzer's error
accumulator. -/
def offendingTargets (p : Program) : List (Nat × Nat) :=
  p.lines.filterMap (fun x =>
    match stmtTarget x.2 with
    | some t => if t ∈ validLineNumbers p then none else some (x.1, t)
    | none => none)

/-- Does a symbol name carry the synthetic constant tag? -/
def isConstStr (s : String) : Bool := List.isPrefixOf "__const_".data s.data

/-- A well-formed variable name never collides with a synthetic constant
symbol (spec §3: variable names are single lowercase letters, while constant
tags start with the eight characters `__const_`). -/
def varNameOk (n : String) : Bool := !(isConstStr n)

/-- A leaf operand (`Number` or well-named `Variable`). -/
def leafVarOk : Expr → Bool
  | .num _ => true
  | .var n => varNameOk n
  | .binop _ _ _ => false

/-- The statement forms covered by the restricted-equivalence claim: leaf
operands, arithmetic limited to `+ - * /`, comparisons limited to the three
operators whose lowering does not use the broken fall-through resolution
(see the C2 analysis), and spec-conforming variable names. -/
def stmtRestricted : Stmt → Bool
  | .rem => true
  | .input v => varNameOk v
  | .print v => varNameOk v
  | .letStmt v e =>
    varNameOk v &&
      (match e with
       | .num _ => true
       | .var n => varNameOk n
       | .binop l op r =>
         leafVarOk l && leafVarOk r &&
           ((op = "+") || (op = "-") || (op = "*") || (op = "/")))
  | .goto _ => true
  | .ifGoto l op r _ =>
    leafVarOk l && leafVarOk r && ((op = "==") || (op = "<") || (op = ">"))
  | .endStmt => true

/-- Every statement of the program is in the restricted fragment. -/
def programRestricted (p : Program) : Bool :=
  p.lines.all (fun x => stmtRestricted x.2)

/-- Is a value inside the Simpletron word range? -/
def boundedVal (v : Int) : Bool := decide (-9999 ≤ v ∧ v ≤ 9999)

/-- The "stays within [-9999, 9999]" side condition of the equivalence
claim, for the step the interpreter is about to take: inputs read by READ,
results of `+ - *` (checked by the machine after ADD/SUBTRACT/MULTIPLY), and
the difference the compiled comparison leaves in the accumulator. -/
def stepBounded (p : Program) (s : IState) : Bool :=
  match (lineNumbers p)[s.pc]? with
  | none => true
  | some ln =>
    match p.lines.lookup ln with
    | none => true
    | some stmt =>
      match stmt with
      | .input _ =>
        match s.inputs with
        | [] => true
        | x :: _ => boundedVal x
      | .letStmt _ (.binop l op r) =>
        if op = "+" ∨ op = "-" ∨ op = "*" then
          match evalExpr s.vars (.binop l op r) with
          | .ok v => boundedVal v
          | .error _ => true
        else true
      | .ifGoto l op r _ =>
        match evalExpr s.vars l, evalExpr s.vars r with
        | .ok lv, .ok rv =>
          if op = ">" then boundedVal (rv - lv) else boundedVal (lv - rv)
        | _, _ => true
      | _ => true

/-- The interpreter run from `s`, within `fuel` steps, reaches an
`EndStatement` (rather than failing or running past the last line) and every
step satisfies `stepBounded`: the hypothesis of the restricted-equivalence
claim, as a decidable predicate on the trace. -/
def checkedRun (p : Program) : Nat → IState → Bool
  | fuel, s =>
    stepBounded p s &&
      (match interpStep p s with
       | .halted _ => true
       | .offEnd _ => false
       | .fail _ => false
       | .next s' =>
         match fuel with
         | 0 => false
         | fuel' + 1 => checkedRun p fuel' s')

/-- The code address at which the `i`-th sorted line's instructions start,
given the per-line instruction segments. -/
def offsetOf (segs : List (List SymInstr)) (i : Nat) : Nat :=
  ((segs.take i).flatten).length

/-- The simulation relation of the restricted-equivalence proof: machine
memory is 100 words; the unconsumed inputs and produced outputs agree; the
code region still holds the image's instruction words; each variable's cell
holds the interpreter's value for it; each constant's cell still holds its
preloaded image value. -/
def Rel (codeSize : Nat) (symTab : List (String × Nat)) (image : List Int)
    (ist : IState) (vst : VMState) : Prop :=
  vst.memory.length = 100 ∧
  vst.inputs = ist.inputs ∧
  vst.output = ist.output ∧
  (∀ i, i < codeSize → vst.memory.getD i 0 = image.getD i 0) ∧
  (∀ s a, symTab.lookup s = some a → isConstStr s = false →
    vst.memory.getD a 0 = getVar ist.vars s) ∧
  (∀ s a, symTab.lookup s = some a → isConstStr s = true →
    vst.memory.getD a 0 = image.getD a 0)

instance : IsTotal (Nat × Stmt) (fun a b => a.1 ≤ b.1) :=
  ⟨fun a b => Nat.le_total a.1 b.1⟩

instance : IsTrans (Nat × Stmt) (fun a b => a.1 ≤ b.1) :=
  ⟨fun _ _ _ h1 h2 => Nat.le_trans h1 h2⟩

end Simple

namespace Simple

/-! Sanity checks of the compiler embedding (mirroring hand-computed runs of
the Python source). -/

example :
    compile ⟨[(10, .input "a"), (20, .print "a"), (30, .endStmt)]⟩ =
      .ok [1003, 1103, 4300, 0] := by decide

example :
    compile ⟨[(10, .letStmt "c" (.binop (.var "a") "+" (.num 5))),
              (20, .print "c"), (30, .endStmt)]⟩ =
      .ok [2006, 3005, 2107, 1107, 4300, 5, 0, 0] := by decide

example : compile ⟨[(10, .endStmt)]⟩ = .ok [4300] := by decide

example :
    compile ⟨[(10, .ifGoto (.var "a") "!=" (.var "b") 30),
              (20, .endStmt), (30, .endStmt)]⟩ =
      .error (.badGotoTarget 4) := by decide

example : vmRun 10 (mkVM [1003, 1103, 4300, 0] [7]) = some (.ok [7]) := by
  decide

example :
    interpRun ⟨[(10, .input "a"), (20, .print "a"), (30, .endStmt)]⟩ 10
      (mkIState [7]) = some (.ok [7]) := by decide

example :
    interpRun ⟨[(10, .input "a"), (20, .input "b"),
                (30, .letStmt "c" (.binop (.var "a") "+" (.var "b"))),
                (40, .print "c"), (50, .endStmt)]⟩ 10
      (mkIState [3, 4]) = some (.ok [7]) := by decide

/-! ### Arithmetic helper lemmas -/

/-- Floor division is invariant under negating both operands. -/
theorem fdiv_neg_neg : ∀ (a b : Int), Int.fdiv (-a) (-b) = Int.fdiv a b := by
  intro a b
  rcases a with m | m <;> rcases b with n | n
  · rcases m with _ | m <;> rcases n with _ | n <;> first | rfl | simp
  · rcases m with _ | m <;> rfl
  · rcases n with _ | n <;> first | rfl | simp
  · rfl

/-- For a positive divisor, `Int.fdiv` is the floor of the rational
quotient. -/
theorem fdiv_eq_ratFloor_of_pos (a b : Int) (hb : 0 < b) :
    a.fdiv b = ⌊(a : ℚ) / (b : ℚ)⌋ := by
  symm
  rw [Int.floor_eq_iff]
  have hmod₀ : 0 ≤ a.fmod b := Int.fmod_nonneg' a hb
  have hmodlt : a.fmod b < b := Int.fmod_lt_of_pos a hb
  have hdecomp : b * a.fdiv b + a.fmod b = a := Int.fdiv_add_fmod a b
  have hbq : (0 : ℚ) < (b : ℚ) := by exact_mod_cast hb
  constructor
  · rw [le_div_iff₀ hbq]
    have h : (a.fdiv b) * b ≤ a := by nlinarith [hmod₀, hdecomp]
    exact_mod_cast h
  · rw [div_lt_iff₀ hbq]
    have h : a < (a.fdiv b + 1) * b := by nlinarith [hmodlt, hdecomp]
    exact_mod_cast h

/-- For any nonzero divisor, `Int.fdiv` is the floor of the rational
quotient (Python's `//`). -/
theorem fdiv_eq_ratFloor (a b : Int) (hb : b ≠ 0) :
    a.fdiv b = ⌊(a : ℚ) / (b : ℚ)⌋ := by
  rcases lt_or_gt_of_ne hb with hneg | hpos
  · have h := fdiv_eq_ratFloor_of_pos (-a) (-b) (by omega)
    rw [fdiv_neg_neg] at h
    rw [h]
    congr 1
    push_cast
    rw [neg_div_neg_eq]
  · exact fdiv_eq_ratFloor_of_pos a b hpos

end Simple

namespace Simple

/-! ### The claims -/

/-- Claim C4: for every `LetStatement` whose expression is
`BinaryOp(l, '%', r)` (with compilable leaf operands `l`, `r`), the compiler
emits `LOAD l; MULTIPLY r; STORE v` — `%` is lowered with the `MULTIPLY`
opcode, not a remainder computation. -/
theorem claim_C4 (codeLen : Nat) (v : String) (l r : Expr) (ls rs : String)
    (hl : getOperandSymbol l = .ok ls) (hr : getOperandSymbol r = .ok rs) :
    genStmt codeLen (.letStmt v (.binop l "%" r)) =
      .ok [(LOAD, .sym ls), (MULTIPLY, .sym rs), (STORE, .sym v)] := by
  simp [genStmt, hl, hr, opMap, bind, Except.bind]

/-- Witness for C4 at a concrete statement `let c = a % b`. -/
theorem claim_C4_witness :
    genStmt 0 (.letStmt "c" (.binop (.var "a") "%" (.var "b"))) =
      .ok [(LOAD, .sym "a"), (MULTIPLY, .sym "b"), (STORE, .sym "c")] :=
  claim_C4 0 "c" (.var "a") (.var "b") "a" "b" rfl rfl

/-- Claim C5: interpreter division yields the floor of the rational
quotient, modulo yields the floor-division remainder, and a zero right
operand is a runtime error for both. -/
theorem claim_C5 (vars : List (String × Int)) (a b : Int) :
    (b ≠ 0 →
      evalExpr vars (.binop (.num a) "/" (.num b)) = .ok ⌊(a : ℚ) / (b : ℚ)⌋ ∧
      evalExpr vars (.binop (.num a) "%" (.num b)) =
        .ok (a - b * ⌊(a : ℚ) / (b : ℚ)⌋)) ∧
    (b = 0 →
      evalExpr vars (.binop (.num a) "/" (.num b)) = .error .divByZero ∧
      evalExpr vars (.binop (.num a) "%" (.num b)) = .error .divByZero) := by
  have hdiv : evalExpr vars (.binop (.num a) "/" (.num b)) =
      if b = 0 then .error .divByZero else .ok (Int.fdiv a b) := by
    simp [evalExpr, bind, Except.bind]
  have hmod : evalExpr vars (.binop (.num a) "%" (.num b)) =
      if b = 0 then .error .divByZero else .ok (Int.fmod a b) := by
    simp [evalExpr, bind, Except.bind]
  constructor
  · intro hb
    rw [hdiv, hmod, if_neg hb, if_neg hb, fdiv_eq_ratFloor a b hb]
    exact ⟨rfl, by rw [← fdiv_eq_ratFloor a b hb, Int.fmod_def]⟩
  · intro hb
    rw [hdiv, hmod, if_pos hb, if_pos hb]
    exact ⟨rfl, rfl⟩

/-- Witness for C5 at `a = -7`, `b = 2` and at `b = 0`. -/
theorem claim_C5_witness :
    evalExpr [] (.binop (.num (-7)) "/" (.num 2)) = .ok ⌊((-7 : Int) : ℚ) / ((2 : Int) : ℚ)⌋ ∧
    evalExpr [] (.binop (.num (-7)) "%" (.num 0)) = .error .divByZero :=
  ⟨((claim_C5 [] (-7) 2).1 (by decide)).1, ((claim_C5 [] (-7) 0).2 rfl).2⟩

/-- Claim C6: after an `ADD`, `SUBTRACT` or `MULTIPLY` step succeeds the
accumulator lies in [-9999, 9999]; when the step fails the error is the
overflow error at that address, and the run loop stops immediately with that
error. -/
theorem claim_C6 (s : VMState) (opc : Int) (operand : Nat)
    (h : opc = 30 ∨ opc = 31 ∨ opc = 33) :
    (∀ s', vmExec s opc operand = .ok s' →
      -9999 ≤ s'.accumulator ∧ s'.accumulator ≤ 9999) ∧
    (∀ e, vmExec s opc operand = .error e →
      e = .overflow s.instructionCounter) ∧
    (∀ e fuel, s.instructionCounter < s.memory.length →
      Int.fdiv (s.memory.getD s.instructionCounter 0) 100 = opc →
      (Int.fmod (s.memory.getD s.instructionCounter 0) 100).toNat = operand →
      vmExec s opc operand = .error e →
      vmRun (fuel + 1) s = some (.error e)) := by
  have hrun : ∀ e fuel, s.instructionCounter < s.memory.length →
      Int.fdiv (s.memory.getD s.instructionCounter 0) 100 = opc →
      (Int.fmod (s.memory.getD s.instructionCounter 0) 100).toNat = operand →
      vmExec s opc operand = .error e →
      vmRun (fuel + 1) s = some (.error e) := by
    intro e fuel hic hdec hdec2 hexec
    have hne : ¬ opc = ((HALT : Nat) : Int) := by
      rcases h with h | h | h <;> simp [h, HALT]
    rw [vmRun]
    simp only [hic, if_true, hdec, hdec2, if_neg hne, hexec]
  refine ⟨?_, ?_, hrun⟩
  · intro s' hx
    rcases h with h | h | h <;> subst h <;>
    · simp only [vmExec, READ, WRITE, LOAD, STORE, ADD, SUBTRACT, DIVIDE,
        MULTIPLY, BRANCH, BRANCHNEG, BRANCHZERO, HALT] at hx
      norm_num at hx
      split at hx
      · exact absurd hx (by simp)
      · injection hx with h'
        subst h'
        dsimp only
        omega
  · intro e hx
    rcases h with h | h | h <;> subst h <;>
    · simp only [vmExec, READ, WRITE, LOAD, STORE, ADD, SUBTRACT, DIVIDE,
        MULTIPLY, BRANCH, BRANCHNEG, BRANCHZERO, HALT] at hx
      norm_num at hx
      split at hx
      · injection hx with h'
        subst h'
        rfl
      · exact absurd hx (by simp)

/-- Witness for C6: a concrete `ADD` overflow at address 0 stops the run
with the overflow error. -/
theorem claim_C6_witness :
    vmRun 1 { memory := [3001, 9000], accumulator := 5000,
              instructionCounter := 0, inputs := [], output := [] } =
      some (.error (.overflow 0)) :=
  (claim_C6 { memory := [3001, 9000], accumulator := 5000,
              instructionCounter := 0, inputs := [], output := [] }
      30 1 (Or.inl rfl)).2.2 (.overflow 0) 0 (by decide) (by decide) (by decide)
    (by decide)

/-- Claim C9: when the instruction counter reaches 100 (the end of memory)
without a decoded HALT, `run()` terminates normally and returns the output
produced so far, raising no error. -/
theorem claim_C9 (s : VMState) (hlen : s.memory.length = 100)
    (h : 100 ≤ s.instructionCounter) :
    ∀ fuel, vmRun fuel s = some (.ok s.output) := by
  intro fuel
  rw [vmRun, if_neg (by omega)]

/-- Witness for C9 at a concrete machine state with the counter at 100. -/
theorem claim_C9_witness :
    vmRun 0 { memory := List.replicate 100 0, accumulator := 0,
              instructionCounter := 100, inputs := [], output := [] } =
      some (.ok []) :=
  claim_C9 _ (by simp) (le_refl 100) 0

/-- Counterexample to claim C1 as stated: the program `10 print a` uses no
arithmetic operator at all and every value of its execution is 0, yet the
interpreter returns output [0] while the Simpletron, after producing the 0,
runs into the data region and fails with an unknown-instruction error, so
the two output streams differ. -/
theorem claim_C1_counterexample :
    programRestricted ⟨[(10, .print "a")]⟩ = true ∧
    interpRun ⟨[(10, .print "a")]⟩ 2 (mkIState []) = some (.ok [0]) ∧
    compile ⟨[(10, .print "a")]⟩ = .ok [1101, 0] ∧
    vmRun 2 (mkVM [1101, 0] []) = some (.error (.unknownInstr 0 1)) := by
  decide

/-- Claim C2 evaluation: the fall-through operand `next_instr` computed as a
machine address by `_generate_code_for_statement` is resolved through
`line_location_map` by `compile`'s final pass as though it were a source
line number.  In the first program (lines 1–6) the fall-through address 4 is
looked up as line 4 and becomes address 0, so the image word at the
statement's third cell is 4200 instead of the 4204 the spec requires; in the
second program there is no line 4, so compilation fails outright. -/
theorem claim_C2_codebug :
    compile ⟨[(1, .rem), (2, .rem), (3, .rem),
              (4, .ifGoto (.var "a") "!=" (.var "b") 6),
              (5, .rem), (6, .endStmt)]⟩ =
      .ok [2005, 3106, 4200, 4004, 4300, 0, 0] ∧
    compile ⟨[(10, .ifGoto (.var "a") "!=" (.var "b") 30),
              (20, .endStmt), (30, .endStmt)]⟩ =
      .error (.badGotoTarget 4) := by
  decide

/-- Counterexample to claim C3 as stated: the compiler's output for
`10 end` is the single word [4300], not an array of exactly 100 words
(the padding to 100 happens in `Simpletron.__init__`). -/
theorem claim_C3_counterexample :
    compile ⟨[(10, .endStmt)]⟩ = .ok [4300] ∧
    ([4300] : List Int).length ≠ 100 := by
  decide

/-! ### Decimal rendering and the constant-symbol round trip -/

theorem natToCharsAux_fuel : ∀ f₁ f₂ n, n < f₁ → n < f₂ →
    natToCharsAux f₁ n = natToCharsAux f₂ n := by
  intro f₁
  induction f₁ with
  | zero => intro f₂ n h; omega
  | succ f ih =>
    intro f₂ n h₁ h₂
    match f₂ with
    | 0 => omega
    | f₂' + 1 =>
      rw [natToCharsAux, natToCharsAux]
      split
      · rfl
      · have hlt : n / 10 < n := Nat.div_lt_self (by omega) (by omega)
        rw [ih f₂' (n / 10) (by omega) (by omega)]

/-- The unfolding equation of `natToChars` without the fuel. -/
theorem natToChars_eq (n : Nat) :
    natToChars n = if n < 10 then [Nat.digitChar n]
      else natToChars (n / 10) ++ [Nat.digitChar (n % 10)] := by
  rw [natToChars, natToCharsAux]
  split
  · rfl
  · have hlt : n / 10 < n := Nat.div_lt_self (by omega) (by omega)
    rw [natToCharsAux_fuel n (n / 10 + 1) (n / 10) (by omega) (by omega)]
    rfl

theorem digitChar_isDigit (d : Nat) (h : d < 10) :
    (Nat.digitChar d).isDigit = true := by
  interval_cases d <;> decide

theorem digitChar_toNat (d : Nat) (h : d < 10) :
    (Nat.digitChar d).toNat - 48 = d := by
  interval_cases d <;> decide

theorem natToChars_ne_nil (n : Nat) : natToChars n ≠ [] := by
  rw [natToChars_eq]
  split
  · simp
  · simp

theorem natToChars_all_digits (n : Nat) :
    ∀ c ∈ natToChars n, c.isDigit = true := by
  induction n using Nat.strong_induction_on with
  | _ n ih =>
    rw [natToChars_eq]
    split
    · intro c hc
      rw [List.mem_singleton] at hc
      subst hc
      exact digitChar_isDigit n (by omega)
    · intro c hc
      rcases List.mem_append.mp hc with hc | hc
      · exact ih (n / 10) (Nat.div_lt_self (by omega) (by omega)) c hc
      · rw [List.mem_singleton] at hc
        subst hc
        exact digitChar_isDigit _ (Nat.mod_lt _ (by omega))

theorem foldl_natToChars (n : Nat) : ∀ a : Nat,
    (natToChars n).foldl (fun acc c => acc * 10 + (c.toNat - 48)) a =
      a * 10 ^ (natToChars n).length + n := by
  induction n using Nat.strong_induction_on with
  | _ n ih =>
    intro a
    rw [natToChars_eq]
    split
    · simp [List.foldl, digitChar_toNat n (by omega)]
    · have hlt : n / 10 < n := Nat.div_lt_self (by omega) (by omega)
      rw [List.foldl_append, ih (n / 10) hlt a]
      simp only [List.foldl, List.length_append, List.length_singleton]
      rw [digitChar_toNat (n % 10) (Nat.mod_lt _ (by omega))]
      have h1 : (a * 10 ^ (natToChars (n / 10)).length + n / 10) * 10 +
          n % 10 = a * (10 ^ (natToChars (n / 10)).length * 10) +
            (n / 10 * 10 + n % 10) := by ring
      rw [h1, pow_succ]
      congr 1
      omega

theorem parseDigits_eq_of_digits (l : List Char) (hne : l ≠ [])
    (hall : l.all (fun c => c.isDigit) = true) :
    parseDigits l = some (l.foldl (fun acc c => acc * 10 + (c.toNat - 48)) 0) := by
  rw [parseDigits, if_neg hne, if_pos hall]

theorem parseDigits_natToChars (n : Nat) :
    parseDigits (natToChars n) = some n := by
  rw [parseDigits_eq_of_digits _ (natToChars_ne_nil n)
    (List.all_eq_true.mpr (natToChars_all_digits n))]
  rw [foldl_natToChars n 0]
  simp

theorem isDigit_ne_minus (c : Char) (h : c.isDigit = true) : c ≠ '-' := by
  intro hc
  rw [hc] at h
  exact absurd h (by decide)

theorem isDigit_ne_underscore (c : Char) (h : c.isDigit = true) : c ≠ '_' := by
  intro hc
  rw [hc] at h
  exact absurd h (by decide)

theorem parseInt_natToChars (n : Nat) :
    parseInt (String.mk (natToChars n)) = some (n : Int) := by
  rw [parseInt]
  cases hne : natToChars n with
  | nil => exact absurd hne (natToChars_ne_nil n)
  | cons c cs =>
    have hdig : c.isDigit = true :=
      natToChars_all_digits n c (by rw [hne]; exact List.mem_cons_self c cs)
    simp only []
    rw [if_neg (isDigit_ne_minus c hdig), ← hne, parseDigits_natToChars n]
    rfl

theorem parseInt_neg_natToChars (m : Nat) :
    parseInt (String.mk ('-' :: natToChars m)) = some (-(m : Int)) := by
  have h : parseInt (String.mk ('-' :: natToChars m)) =
      (parseDigits (natToChars m)).map (fun n => -(n : Int)) := rfl
  rw [h, parseDigits_natToChars m]
  rfl

/-- Splitting after the literal `__const_` prefix. -/
theorem splitUnderscoreAux_prefixConst (l : List Char) :
    splitUnderscoreAux ("__const_".data ++ l) [] =
      "" :: "" :: "const" :: splitUnderscoreAux l [] := rfl

theorem splitUnderscoreAux_no_us : ∀ (l : List Char),
    (∀ c ∈ l, c ≠ '_') → ∀ cur,
    splitUnderscoreAux l cur = [String.mk (cur.reverse ++ l)] := by
  intro l
  induction l with
  | nil => intro _ cur; simp [splitUnderscoreAux]
  | cons c cs ih =>
    intro h cur
    rw [splitUnderscoreAux, if_neg (h c (List.mem_cons_self c cs))]
    rw [ih (fun x hx => h x (List.mem_cons_of_mem c hx)) (c :: cur)]
    simp

theorem data_constSym (v : Int) :
    (constSym v).data = "__const_".data ++ (intToStr v).data := by
  rw [constSym, String.data_append]

theorem isPrefixOf_self_append (l₁ l₂ : List Char) :
    List.isPrefixOf l₁ (l₁ ++ l₂) = true := by
  rw [List.isPrefixOf_iff_prefix]
  exact List.prefix_append l₁ l₂

theorem isConstStr_constSym (v : Int) : isConstStr (constSym v) = true := by
  rw [isConstStr, data_constSym]
  exact isPrefixOf_self_append _ _

/-- Evaluation of `dataCell` on a symbol splitting as
`["", "", "const", d]`. -/
theorem dataCell_of_split (s d : String)
    (hpref : List.isPrefixOf "__const_".data s.data = true)
    (hsplit : splitUnderscore s = ["", "", "const", d]) :
    dataCell s =
      match parseInt d with
      | none => .error (.badConst s)
      | some v =>
        if v < 0 then
          match parseInt ("const" ++ d) with
          | none => .error (.badConst s)
          | some w => .ok w
        else .ok v := by
  rw [dataCell, if_pos hpref, hsplit]
  rfl

/-- `dataCell` preloads a nonnegative literal's cell with its value. -/
theorem dataCell_constSym (v : Int) (h : 0 ≤ v) :
    dataCell (constSym v) = .ok v := by
  have hstr : intToStr v = String.mk (natToChars v.toNat) := by
    rw [intToStr, if_neg (by omega)]
  have hsplit : splitUnderscore (constSym v) =
      ["", "", "const", String.mk (natToChars v.toNat)] := by
    rw [splitUnderscore, data_constSym, hstr]
    rw [splitUnderscoreAux_prefixConst]
    rw [splitUnderscoreAux_no_us _
      (fun c hc => isDigit_ne_underscore c (natToChars_all_digits v.toNat c hc)) []]
    rfl
  have hpref : List.isPrefixOf "__const_".data (constSym v).data = true := by
    rw [← isConstStr]
    exact isConstStr_constSym v
  rw [dataCell_of_split _ _ hpref hsplit, parseInt_natToChars]
  simp only []
  rw [if_neg (by omega)]
  congr 1
  omega

/-- `dataCell` rejects a negative literal's symbol (the source's rescue path
parses `"const" + "-n"`, which is not an integer). -/
theorem dataCell_constSym_neg (v : Int) (h : v < 0) :
    dataCell (constSym v) = .error (.badConst (constSym v)) := by
  have hstr : intToStr v = String.mk ('-' :: natToChars (-v).toNat) := by
    rw [intToStr, if_pos h]
  have hnous : ∀ c ∈ '-' :: natToChars (-v).toNat, c ≠ '_' := by
    intro c hc
    rcases List.mem_cons.mp hc with hc | hc
    · subst hc; decide
    · exact isDigit_ne_underscore c (natToChars_all_digits _ c hc)
  have hsplit : splitUnderscore (constSym v) =
      ["", "", "const", String.mk ('-' :: natToChars (-v).toNat)] := by
    rw [splitUnderscore, data_constSym, hstr]
    rw [splitUnderscoreAux_prefixConst]
    rw [splitUnderscoreAux_no_us _ hnous []]
    rfl
  have hpref : List.isPrefixOf "__const_".data (constSym v).data = true := by
    rw [← isConstStr]
    exact isConstStr_constSym v
  have hcat : parseInt ("const" ++ String.mk ('-' :: natToChars (-v).toNat)) =
      none := by
    have hdata : ("const" ++ String.mk ('-' :: natToChars (-v).toNat)).data =
        'c' :: ("onst".data ++ '-' :: natToChars (-v).toNat) := rfl
    rw [parseInt, hdata]
    simp only []
    rw [if_neg (by decide)]
    have hnd : parseDigits ('c' :: ("onst".data ++ '-' :: natToChars (-v).toNat)) =
        none := by
      rw [parseDigits, if_neg (by simp), if_neg]
      intro hall
      rw [List.all_eq_true] at hall
      have hthis := hall 'c' (List.mem_cons_self _ _)
      exact absurd hthis (by decide)
    rw [hnd]
    rfl
  rw [dataCell_of_split _ _ hpref hsplit, parseInt_neg_natToChars]
  simp only []
  rw [if_pos (by omega), hcat]

/-- Inversion: a constant symbol's preloaded cell holds exactly the
literal's (necessarily nonnegative) value. -/
theorem dataCell_constSym_inv (v w : Int)
    (h : dataCell (constSym v) = .ok w) : w = v ∧ 0 ≤ v := by
  by_cases hv : 0 ≤ v
  · rw [dataCell_constSym v hv] at h
    injection h with h'
    exact ⟨h'.symm, hv⟩
  · rw [dataCell_constSym_neg v (by omega)] at h
    exact Except.noConfusion h

/-- A spec-conforming variable name's cell is initialized to zero. -/
theorem dataCell_var (s : String) (h : varNameOk s = true) :
    dataCell s = .ok 0 := by
  rw [varNameOk, isConstStr, Bool.not_eq_true'] at h
  rw [dataCell, if_neg]
  simp [h]

/-! ### Structure of a successful compilation (C3) -/

/-- A successful `exMapM` has one result per input, each produced by `f` at
the corresponding position. -/
theorem exMapM_ok {α β ε : Type} (f : α → Except ε β) (d₁ : α) (d₂ : β) :
    ∀ (l : List α) (ys : List β), exMapM f l = .ok ys →
      ys.length = l.length ∧
      ∀ i, i < l.length → f (l.getD i d₁) = .ok (ys.getD i d₂) := by
  intro l
  induction l with
  | nil =>
    intro ys h
    rw [exMapM] at h
    injection h with h'
    subst h'
    refine ⟨rfl, ?_⟩
    intro i hi
    simp at hi
  | cons x xs ih =>
    intro ys h
    rw [exMapM] at h
    cases hfx : f x with
    | error e =>
      simp only [hfx, bind, Except.bind] at h
      exact Except.noConfusion h
    | ok y =>
      simp only [hfx, bind, Except.bind] at h
      cases hrest : exMapM f xs with
      | error e =>
        simp only [hrest] at h
        exact Except.noConfusion h
      | ok ys' =>
        simp only [hrest] at h
        injection h with h'
        subst h'
        obtain ⟨hlen, hget⟩ := ih ys' hrest
        refine ⟨by simp [hlen], ?_⟩
        intro i hi
        cases i with
        | zero => simpa using hfx
        | succ j =>
          simp only [List.getD_cons_succ]
          exact hget j (by simpa using hi)

/-- Decomposition of a successful `compile`: the emission pass, the data
cells and the patched instructions, with the memory bound. -/
theorem compile_ok_parts (p : Program) (out : List Int)
    (h : compile p = .ok out) :
    ∃ code locs instrs dataCells,
      emitAll (sortLines p.lines) [] [] = .ok (code, locs) ∧
      exMapM dataCell (programSymbols p) = .ok dataCells ∧
      exMapM (resolveInstr (symbolTable code.length (programSymbols p)) locs)
        code = .ok instrs ∧
      out = instrs ++ dataCells ∧
      code.length + (programSymbols p).length ≤ 100 := by
  unfold compile at h
  cases he : emitAll (sortLines p.lines) [] [] with
  | error e =>
    simp only [he, bind, Except.bind] at h
    exact Except.noConfusion h
  | ok pr =>
    obtain ⟨code, locs⟩ := pr
    simp only [he, bind, Except.bind] at h
    split at h
    · exact absurd h (by simp)
    · cases hdc : exMapM dataCell (programSymbols p) with
      | error e =>
        simp only [hdc, bind, Except.bind] at h
        exact Except.noConfusion h
      | ok dataCells =>
        simp only [hdc, bind, Except.bind] at h
        cases hin : exMapM
            (resolveInstr (symbolTable code.length (programSymbols p)) locs)
            code with
        | error e =>
          simp only [hin] at h
          exact Except.noConfusion h
        | ok instrs =>
          simp only [hin] at h
          injection h with h'
          exact ⟨code, locs, instrs, dataCells, rfl, rfl, hin, h'.symm,
            by omega⟩

/-- Claim C3 (amended): a successful compilation returns an array of exactly
`code_size + symbol_count` words — at most 100, but not padded to 100 (the
padding happens when the simulator loads the image) — whose positions
`0..code_size-1` hold the patched instruction words and positions
`code_size..data_end-1` hold the data cells (constants preloaded, variables
zero). -/
theorem claim_C3_amended (p : Program) (out : List Int)
    (h : compile p = .ok out) :
    ∃ code locs, emitAll (sortLines p.lines) [] [] = .ok (code, locs) ∧
      out.length = code.length + (programSymbols p).length ∧
      out.length ≤ 100 ∧
      (∀ i, i < code.length →
        resolveInstr (symbolTable code.length (programSymbols p)) locs
          (code.getD i (0, .num 0)) = .ok (out.getD i 0)) ∧
      (∀ j, j < (programSymbols p).length →
        dataCell ((programSymbols p).getD j "") =
          .ok (out.getD (code.length + j) 0)) := by
  obtain ⟨code, locs, instrs, dataCells, he, hdc, hin, hout, hle⟩ :=
    compile_ok_parts p out h
  obtain ⟨hlen1, hget1⟩ := exMapM_ok _ (0, SymOperand.num 0) 0 code instrs hin
  obtain ⟨hlen2, hget2⟩ := exMapM_ok _ "" 0 (programSymbols p) dataCells hdc
  subst hout
  have hlen : (instrs ++ dataCells).length =
      code.length + (programSymbols p).length := by
    simp [hlen1, hlen2]
  refine ⟨code, locs, he, hlen, by omega, ?_, ?_⟩
  · intro i hi
    rw [List.getD_append _ _ _ _ (by omega)]
    exact hget1 i hi
  · intro j hj
    rw [List.getD_append_right _ _ _ _ (by omega)]
    have hidx : code.length + j - instrs.length = j := by omega
    rw [hidx]
    exact hget2 j hj

/-- Witness for the amended C3 at the concrete program
`10 input a / 20 print a / 30 end`, whose image is the four words
`[1003, 1103, 4300, 0]`. -/
theorem claim_C3_amended_witness :
    ∃ code locs,
      emitAll (sortLines (Program.mk
        [(10, Stmt.input "a"), (20, Stmt.print "a"), (30, Stmt.endStmt)]).lines)
        [] [] = .ok (code, locs) ∧
      ([1003, 1103, 4300, 0] : List Int).length =
        code.length + (programSymbols ⟨[(10, Stmt.input "a"),
          (20, Stmt.print "a"), (30, Stmt.endStmt)]⟩).length ∧
      ([1003, 1103, 4300, 0] : List Int).length ≤ 100 ∧
      (∀ i, i < code.length →
        resolveInstr (symbolTable code.length (programSymbols
            ⟨[(10, Stmt.input "a"), (20, Stmt.print "a"),
              (30, Stmt.endStmt)]⟩)) locs
          (code.getD i (0, .num 0)) =
          .ok (([1003, 1103, 4300, 0] : List Int).getD i 0)) ∧
      (∀ j, j < (programSymbols ⟨[(10, Stmt.input "a"), (20, Stmt.print "a"),
          (30, Stmt.endStmt)]⟩).length →
        dataCell ((programSymbols ⟨[(10, Stmt.input "a"), (20, Stmt.print "a"),
            (30, Stmt.endStmt)]⟩).getD j "") =
          .ok (([1003, 1103, 4300, 0] : List Int).getD (code.length + j) 0)) :=
  claim_C3_amended
    ⟨[(10, Stmt.input "a"), (20, Stmt.print "a"), (30, Stmt.endStmt)]⟩
    [1003, 1103, 4300, 0] (by decide)

/-! ### Code layout of the emission pass (C1 support) -/

theorem offsetOf_zero (segs : List (List SymInstr)) : offsetOf segs 0 = 0 := by
  simp [offsetOf]

theorem offsetOf_cons (x : List SymInstr) (segs : List (List SymInstr))
    (i : Nat) : offsetOf (x :: segs) (i + 1) = x.length + offsetOf segs i := by
  simp [offsetOf]

theorem offsetOf_succ (segs : List (List SymInstr)) (i : Nat)
    (h : i < segs.length) :
    offsetOf segs (i + 1) = offsetOf segs i + (segs.getD i []).length := by
  induction segs generalizing i with
  | nil => simp at h
  | cons x segs ih =>
    cases i with
    | zero => simp [offsetOf_cons, offsetOf_zero]
    | succ i =>
      rw [offsetOf_cons, ih i (by simpa using h), offsetOf_cons]
      simp [Nat.add_assoc]

theorem offsetOf_le_flatten (segs : List (List SymInstr)) (i : Nat) :
    offsetOf segs i ≤ segs.flatten.length := by
  conv_rhs => rw [← List.take_append_drop i segs]
  rw [List.flatten_append, List.length_append]
  exact Nat.le_add_right _ _

theorem offsetOf_mono (segs : List (List SymInstr)) {i j : Nat} (h : i ≤ j) :
    offsetOf segs i ≤ offsetOf segs j := by
  have h1 : List.take i (List.take j segs) = List.take i segs := by
    rw [List.take_take, Nat.min_eq_left h]
  have h2 : List.take i segs ++ List.drop i (List.take j segs) =
      List.take j segs := by
    rw [← h1]
    exact List.take_append_drop i (List.take j segs)
  rw [offsetOf, offsetOf, ← h2, List.flatten_append, List.length_append]
  exact Nat.le_add_right _ _

theorem offsetOf_length (segs : List (List SymInstr)) :
    offsetOf segs segs.length = segs.flatten.length := by
  simp [offsetOf]

theorem offsetOf_clamp (segs : List (List SymInstr)) (i : Nat)
    (h : segs.length ≤ i) : offsetOf segs i = segs.flatten.length := by
  rw [offsetOf, List.take_of_length_le h]

/-- Indexing the flattened code at a segment's offset. -/
theorem flatten_getD (segs : List (List SymInstr)) (i j : Nat)
    (hi : i < segs.length) (hj : j < (segs.getD i []).length) (d : SymInstr) :
    segs.flatten.getD (offsetOf segs i + j) d = (segs.getD i []).getD j d := by
  induction segs generalizing i with
  | nil => simp at hi
  | cons x segs ih =>
    cases i with
    | zero =>
      rw [offsetOf_zero, List.flatten_cons]
      simp only [List.getD_cons_zero] at hj ⊢
      rw [Nat.zero_add, List.getD_append _ _ _ _ hj]
    | succ i =>
      rw [offsetOf_cons, List.flatten_cons]
      simp only [List.getD_cons_succ] at hj ⊢
      rw [Nat.add_assoc, List.getD_append_right _ _ _ _ (Nat.le_add_right _ _),
        Nat.add_sub_cancel_left]
      exact ih i (by simpa using hi) hj

/-- Characterization of a successful emission pass: per-line instruction
segments, their offsets, and the recorded line locations. -/
theorem emitAll_ok : ∀ (lines : List (Nat × Stmt)) (code₀ : List SymInstr)
    (locs₀ : List (Nat × Nat)) code locs,
    emitAll lines code₀ locs₀ = .ok (code, locs) →
    ∃ segs : List (List SymInstr),
      segs.length = lines.length ∧
      code = code₀ ++ segs.flatten ∧
      locs = locs₀ ++ (List.range lines.length).map
        (fun i => ((lines.getD i (0, .rem)).1, code₀.length + offsetOf segs i)) ∧
      (∀ i, i < lines.length →
        genStmt (code₀.length + offsetOf segs i) (lines.getD i (0, .rem)).2 =
          .ok (segs.getD i [])) := by
  intro lines
  induction lines with
  | nil =>
    intro code₀ locs₀ code locs h
    rw [emitAll] at h
    injection h with h'
    injection h' with h1 h2
    refine ⟨[], rfl, by simp [← h1], by simp [← h2], ?_⟩
    intro i hi
    simp at hi
  | cons hd rest ih =>
    obtain ⟨ln, st⟩ := hd
    intro code₀ locs₀ code locs h
    rw [emitAll] at h
    cases hgen : genStmt code₀.length st with
    | error e =>
      simp only [hgen, bind, Except.bind] at h
      exact Except.noConfusion h
    | ok instrs =>
      simp only [hgen, bind, Except.bind] at h
      obtain ⟨segs', hlen, hcode, hlocs, hpt⟩ := ih _ _ _ _ h
      refine ⟨instrs :: segs', by simp [hlen], ?_, ?_, ?_⟩
      · rw [hcode, List.flatten_cons, List.append_assoc]
      · rw [hlocs]
        have hrange : (List.range (rest.length + 1)).map
            (fun i => ((((ln, st) :: rest).getD i (0, Stmt.rem)).1,
              code₀.length + offsetOf (instrs :: segs') i)) =
            (ln, code₀.length) :: (List.range rest.length).map
              (fun i => ((rest.getD i (0, Stmt.rem)).1,
                (code₀ ++ instrs).length + offsetOf segs' i)) := by
          rw [List.range_succ_eq_map, List.map_cons, List.map_map]
          refine List.cons_eq_cons.mpr ⟨by simp [offsetOf_zero], ?_⟩
          apply List.map_congr_left
          intro i hi
          simp [offsetOf_cons, List.length_append, Nat.add_assoc]
        rw [List.length_cons, hrange]
        simp [List.append_assoc]
      · intro i hi
        cases i with
        | zero =>
          simp only [List.getD_cons_zero, offsetOf_zero, Nat.add_zero]
          exact hgen
        | succ i =>
          simp only [List.getD_cons_succ, offsetOf_cons]
          rw [← Nat.add_assoc, ← List.length_append]
          exact hpt i (by simpa using hi)

/-! ### Symbols, the symbol table and line lookups (C1 support) -/

theorem mem_dedupAux [BEq α] [LawfulBEq α] : ∀ (l seen : List α) (x : α),
    x ∈ dedupAux l seen ↔ x ∈ l ∧ x ∉ seen := by
  intro l
  induction l with
  | nil => intro seen x; simp [dedupAux]
  | cons y ys ih =>
    intro seen x
    rw [dedupAux]
    by_cases hc : seen.contains y = true
    · rw [if_pos hc]
      have hy : y ∈ seen := List.elem_iff.mp hc
      rw [ih]
      constructor
      · rintro ⟨h1, h2⟩
        exact ⟨List.mem_cons_of_mem y h1, h2⟩
      · rintro ⟨h1, h2⟩
        rcases List.mem_cons.mp h1 with h1 | h1
        · rw [h1] at h2
          exact absurd hy h2
        · exact ⟨h1, h2⟩
    · rw [if_neg hc]
      have hy : y ∉ seen := fun hm => hc (List.elem_iff.mpr hm)
      rw [List.mem_cons, ih]
      constructor
      · rintro (h1 | ⟨h1, h2⟩)
        · refine ⟨?_, ?_⟩
          · rw [h1]; exact List.mem_cons_self y ys
          · rw [h1]; exact hy
        · refine ⟨List.mem_cons_of_mem y h1, fun hmem => h2 ?_⟩
          exact List.mem_cons_of_mem y hmem
      · rintro ⟨h1, h2⟩
        rcases List.mem_cons.mp h1 with h1 | h1
        · exact Or.inl h1
        · by_cases hxy : x = y
          · exact Or.inl hxy
          · refine Or.inr ⟨h1, fun hmem => ?_⟩
            rcases List.mem_cons.mp hmem with h3 | h3
            · exact hxy h3
            · exact h2 h3

theorem nodup_dedupAux [BEq α] [LawfulBEq α] : ∀ (l seen : List α),
    (dedupAux l seen).Nodup := by
  intro l
  induction l with
  | nil => intro seen; simp [dedupAux]
  | cons y ys ih =>
    intro seen
    rw [dedupAux]
    split
    · exact ih seen
    · refine List.Nodup.cons ?_ (ih (y :: seen))
      intro hmem
      exact ((mem_dedupAux ys (y :: seen) y).mp hmem).2 (List.mem_cons_self y seen)

theorem mem_pyDedup [BEq α] [LawfulBEq α] (l : List α) (x : α) :
    x ∈ pyDedup l ↔ x ∈ l := by
  rw [pyDedup, mem_dedupAux]
  simp

theorem nodup_pyDedup [BEq α] [LawfulBEq α] (l : List α) :
    (pyDedup l).Nodup := nodup_dedupAux l []

theorem programSymbols_nodup (p : Program) : (programSymbols p).Nodup := by
  rw [programSymbols, sortStrings]
  exact (List.perm_insertionSort _ _).nodup_iff.mpr (nodup_pyDedup _)

theorem mem_programSymbols (p : Program) (s : String) :
    s ∈ programSymbols p ↔
      s ∈ (p.lines.map (fun x => discoverStmt x.2)).flatten := by
  rw [programSymbols, sortStrings, (List.perm_insertionSort _ _).mem_iff]
  exact mem_pyDedup _ s

/-- Every symbol a statement of the program discovers is in the program's
symbol list. -/
theorem discover_mem_programSymbols (p : Program) {ln : Nat} {st : Stmt}
    (hmem : (ln, st) ∈ p.lines) {s : String} (hs : s ∈ discoverStmt st) :
    s ∈ programSymbols p := by
  rw [mem_programSymbols, List.mem_flatten]
  exact ⟨discoverStmt st, List.mem_map.mpr ⟨(ln, st), hmem, rfl⟩, hs⟩

theorem symbolTable_lookup_getD : ∀ (syms : List String) (cs i : Nat),
    syms.Nodup → i < syms.length →
    (symbolTable cs syms).lookup (syms.getD i "") = some (cs + i) := by
  intro syms
  induction syms with
  | nil => intro cs i _ hi; simp at hi
  | cons s rest ih =>
    intro cs i hnd hi
    cases i with
    | zero =>
      rw [List.getD_cons_zero, symbolTable, List.lookup_cons]
      simp
    | succ i =>
      have hkey : rest.getD i "" ∈ rest := by
        rw [List.getD_eq_getElem _ _ (by simpa using hi)]
        exact List.getElem_mem _
      have hne : rest.getD i "" ≠ s := by
        intro hcontra
        have hnotin := (List.nodup_cons.mp hnd).1
        rw [← hcontra] at hnotin
        exact hnotin hkey
      have hbeq : (rest.getD i "" == s) = false := beq_eq_false_iff_ne.mpr hne
      rw [List.getD_cons_succ, symbolTable, List.lookup_cons]
      simp only [hbeq]
      rw [ih (cs + 1) i (List.nodup_cons.mp hnd).2 (by simpa using hi)]
      congr 1
      omega

theorem symbolTable_lookup_inv : ∀ (syms : List String) (cs : Nat)
    (s : String) (a : Nat), (symbolTable cs syms).lookup s = some a →
    ∃ i, i < syms.length ∧ syms.getD i "" = s ∧ a = cs + i := by
  intro syms
  induction syms with
  | nil => intro cs s a h; rw [symbolTable] at h; simp [List.lookup] at h
  | cons s₀ rest ih =>
    intro cs s a h
    rw [symbolTable, List.lookup_cons] at h
    by_cases hs : s = s₀
    · have hbeq : (s == s₀) = true := beq_iff_eq.mpr hs
      simp only [hbeq] at h
      injection h with h'
      exact ⟨0, by simp, by simp [hs], by omega⟩
    · have hbeq : (s == s₀) = false := beq_eq_false_iff_ne.mpr hs
      simp only [hbeq] at h
      obtain ⟨i, hi, hgd, ha⟩ := ih (cs + 1) s a h
      exact ⟨i + 1, by simpa using hi, by simpa using hgd, by omega⟩

theorem symbolTable_lookup_of_mem (syms : List String) (cs : Nat)
    (hnd : syms.Nodup) {s : String} (hs : s ∈ syms) :
    ∃ a, (symbolTable cs syms).lookup s = some a ∧ cs ≤ a ∧
      a < cs + syms.length := by
  obtain ⟨i, hi, hgd⟩ := List.mem_iff_getElem.mp hs
  have hgd' : syms.getD i "" = s := by
    rw [List.getD_eq_getElem _ _ hi, hgd]
  refine ⟨cs + i, ?_, by omega, by omega⟩
  rw [← hgd']
  exact symbolTable_lookup_getD syms cs i hnd hi

/-- Two distinct symbols never share a cell. -/
theorem symbolTable_inj (syms : List String) (cs : Nat) (hnd : syms.Nodup)
    {s₁ s₂ : String} {a₁ a₂ : Nat}
    (h₁ : (symbolTable cs syms).lookup s₁ = some a₁)
    (h₂ : (symbolTable cs syms).lookup s₂ = some a₂)
    (hne : s₁ ≠ s₂) : a₁ ≠ a₂ := by
  obtain ⟨i₁, hi₁, hg₁, ha₁⟩ := symbolTable_lookup_inv syms cs s₁ a₁ h₁
  obtain ⟨i₂, hi₂, hg₂, ha₂⟩ := symbolTable_lookup_inv syms cs s₂ a₂ h₂
  intro hcontra
  have hieq : i₁ = i₂ := by omega
  subst hieq
  rw [hg₁] at hg₂
  exact hne hg₂

/-- Looking a key up in the line-location list built by the emission
characterization. -/
theorem lookup_rangeMap : ∀ (K : List Nat) (v : Nat → Nat), K.Nodup →
    ∀ i, i < K.length →
    ((List.range K.length).map (fun j => (K.getD j 0, v j))).lookup
      (K.getD i 0) = some (v i) := by
  intro K
  induction K with
  | nil => intro v _ i hi; simp at hi
  | cons k K' ih =>
    intro v hnd i hi
    have hdec : (List.range (K'.length + 1)).map
        (fun j => ((k :: K').getD j 0, v j)) =
        (k, v 0) :: (List.range K'.length).map
          (fun j => (K'.getD j 0, v (j + 1))) := by
      rw [List.range_succ_eq_map, List.map_cons, List.map_map]
      refine List.cons_eq_cons.mpr ⟨rfl, ?_⟩
      apply List.map_congr_left
      intro a _
      simp
    rw [List.length_cons, hdec]
    cases i with
    | zero =>
      rw [List.getD_cons_zero, List.lookup_cons]
      simp
    | succ i =>
      have hkey : K'.getD i 0 ∈ K' := by
        rw [List.getD_eq_getElem _ _ (by simpa using hi)]
        exact List.getElem_mem _
      have hne : K'.getD i 0 ≠ k := by
        intro hcontra
        have hnotin := (List.nodup_cons.mp hnd).1
        rw [← hcontra] at hnotin
        exact hnotin hkey
      have hbeq : (K'.getD i 0 == k) = false := beq_eq_false_iff_ne.mpr hne
      rw [List.getD_cons_succ, List.lookup_cons]
      simp only [hbeq]
      exact ih (fun j => v (j + 1)) (List.nodup_cons.mp hnd).2 i
        (by simpa using hi)

/-- The interpreter's sorted line-number list is the key projection of the
compiler's sorted line list. -/
theorem lineNumbers_eq_keys_sortLines (p : Program) :
    lineNumbers p = (sortLines p.lines).map Prod.fst := by
  have hperm : List.Perm (lineNumbers p) ((sortLines p.lines).map Prod.fst) :=
    (List.perm_insertionSort _ _).trans
      ((List.perm_insertionSort _ _).map Prod.fst).symm
  have hs1 : List.Sorted (fun a b : Nat => a ≤ b) (lineNumbers p) :=
    List.sorted_insertionSort _ _
  have hs2 : List.Sorted (fun a b : Nat => a ≤ b)
      ((sortLines p.lines).map Prod.fst) :=
    List.Pairwise.map Prod.fst (fun a b h => h)
      (List.sorted_insertionSort _ _)
  exact List.eq_of_perm_of_sorted hperm hs1 hs2

/-- With unique keys, a member of the association list is what lookup
finds. -/
theorem lookup_of_mem_nodupKeys : ∀ {l : List (Nat × Stmt)},
    (l.map Prod.fst).Nodup → ∀ {k : Nat} {v : Stmt}, (k, v) ∈ l →
    l.lookup k = some v := by
  intro l
  induction l with
  | nil => intro _ k v h; simp at h
  | cons hd rest ih =>
    obtain ⟨k₀, v₀⟩ := hd
    intro hnd k v h
    rw [List.map_cons] at hnd
    have hnd' := List.nodup_cons.mp hnd
    rcases List.mem_cons.mp h with h | h
    · injection h with h1 h2
      subst h1; subst h2
      rw [List.lookup_cons]
      simp
    · have hk : k ∈ rest.map Prod.fst := List.mem_map.mpr ⟨(k, v), h, rfl⟩
      have hne : k ≠ k₀ := fun hcontra => hnd'.1 (hcontra ▸ hk)
      have hbeq : (k == k₀) = false := beq_eq_false_iff_ne.mpr hne
      rw [List.lookup_cons]
      simp only [hbeq]
      exact ih hnd'.2 h

/-! ### Machine-step helpers (C1 support) -/

theorem getD_set_self (l : List α) (i : Nat) (v d : α) (h : i < l.length) :
    (l.set i v).getD i d = v := by
  rw [List.getD_eq_getElem?_getD, List.getElem?_set_self h]
  rfl

theorem getD_set_ne (l : List α) (i j : Nat) (v d : α) (h : i ≠ j) :
    (l.set i v).getD j d = l.getD j d := by
  rw [List.getD_eq_getElem?_getD, List.getElem?_set_ne h,
    ← List.getD_eq_getElem?_getD]

theorem getVar_setVar_self (vars : List (String × Int)) (n : String)
    (v : Int) : getVar (setVar vars n v) n = v := by
  rw [getVar, setVar, List.lookup_cons]
  simp

theorem lookup_filter_ne (n m : String) (hne : m ≠ n) :
    ∀ vars : List (String × Int),
      (vars.filter (fun p => p.1 ≠ n)).lookup m = vars.lookup m := by
  intro vars
  induction vars with
  | nil => simp
  | cons hd rest ih =>
    obtain ⟨k, w⟩ := hd
    by_cases hk : k = n
    · rw [List.filter_cons_of_neg (by simp [hk])]
      rw [ih, List.lookup_cons]
      have hbeq : (m == k) = false := beq_eq_false_iff_ne.mpr (by rw [hk]; exact hne)
      simp only [hbeq]
    · rw [List.filter_cons_of_pos (by simp [hk])]
      rw [List.lookup_cons, List.lookup_cons]
      by_cases hm : m = k
      · have hbeq : (m == k) = true := beq_iff_eq.mpr hm
        simp only [hbeq]
      · have hbeq : (m == k) = false := beq_eq_false_iff_ne.mpr hm
        simp only [hbeq]
        exact ih

theorem getVar_setVar_ne (vars : List (String × Int)) (n m : String)
    (v : Int) (h : m ≠ n) : getVar (setVar vars n v) m = getVar vars m := by
  rw [getVar, setVar, List.lookup_cons]
  have hbeq : (m == n) = false := beq_eq_false_iff_ne.mpr h
  simp only [hbeq]
  rw [lookup_filter_ne n m h vars, getVar]

/-- Decoding an instruction word `opcode * 100 + operand` with a two-digit
operand. -/
theorem decode_word (a b : Nat) (hb : b ≤ 99) :
    Int.fdiv ((a * 100 + b : Nat) : Int) 100 = (a : Int) ∧
    (Int.fmod ((a * 100 + b : Nat) : Int) 100).toNat = b := by
  constructor
  · rw [Int.fdiv_eq_ediv _ (by omega)]
    push_cast
    omega
  · rw [Int.fmod_eq_emod _ (by omega)]
    push_cast
    omega

/-- One non-HALT machine step inside `run`. -/
theorem vmRun_step (s : VMState)
    (hic : s.instructionCounter < s.memory.length) (opc : Int) (operand : Nat)
    (hopc : Int.fdiv (s.memory.getD s.instructionCounter 0) 100 = opc)
    (hoperand : (Int.fmod (s.memory.getD s.instructionCounter 0) 100).toNat =
      operand)
    (hhalt : ¬ opc = ((HALT : Nat) : Int)) (s' : VMState)
    (hexec : vmExec s opc operand = .ok s') (fuel : Nat) :
    vmRun (fuel + 1) s = vmRun fuel s' := by
  rw [vmRun]
  simp only [hic, if_true, hopc, hoperand, if_neg hhalt, hexec]

/-- Decoding HALT stops `run` and returns the output, whatever the fuel. -/
theorem vmRun_halt (s : VMState)
    (hic : s.instructionCounter < s.memory.length)
    (hw : Int.fdiv (s.memory.getD s.instructionCounter 0) 100 =
      ((HALT : Nat) : Int)) (fuel : Nat) :
    vmRun fuel s = some (.ok s.output) := by
  rw [vmRun]
  simp only [hic, if_true, hw, if_pos rfl]

theorem vmExec_read (s : VMState) (operand : Nat) (x : Int) (rest : List Int)
    (hinp : s.inputs = x :: rest) (hx : -9999 ≤ x ∧ x ≤ 9999) :
    vmExec s 10 operand = .ok { s with
      memory := s.memory.set operand x,
      inputs := rest, instructionCounter := s.instructionCounter + 1 } := by
  show (match s.inputs with
    | [] => (.error .inputError : Except VMErr VMState)
    | v :: rest =>
      if -9999 ≤ v ∧ v ≤ 9999 then
        .ok { s with memory := s.memory.set operand v, inputs := rest,
                     instructionCounter := s.instructionCounter + 1 }
      else .error .inputError) = _
  rw [hinp]
  simp only []
  rw [if_pos hx]

theorem vmExec_write (s : VMState) (operand : Nat) :
    vmExec s 11 operand = .ok { s with
      output := s.output ++ [s.memory.getD operand 0],
      instructionCounter := s.instructionCounter + 1 } := rfl

theorem vmExec_load (s : VMState) (operand : Nat) :
    vmExec s 20 operand = .ok { s with
      accumulator := s.memory.getD operand 0,
      instructionCounter := s.instructionCounter + 1 } := rfl

theorem vmExec_store (s : VMState) (operand : Nat) :
    vmExec s 21 operand = .ok { s with
      memory := s.memory.set operand s.accumulator,
      instructionCounter := s.instructionCounter + 1 } := rfl

theorem vmExec_add (s : VMState) (operand : Nat)
    (h1 : ¬(s.accumulator + s.memory.getD operand 0 < -9999 ∨
        9999 < s.accumulator + s.memory.getD operand 0)) :
    vmExec s 30 operand = .ok { s with
      accumulator := s.accumulator + s.memory.getD operand 0,
      instructionCounter := s.instructionCounter + 1 } := by
  show (if s.accumulator + s.memory.getD operand 0 < -9999 ∨
      9999 < s.accumulator + s.memory.getD operand 0 then
      (.error (.overflow s.instructionCounter) : Except VMErr VMState)
    else .ok { s with
      accumulator := s.accumulator + s.memory.getD operand 0,
      instructionCounter := s.instructionCounter + 1 }) = _
  rw [if_neg h1]

theorem vmExec_subtract (s : VMState) (operand : Nat)
    (h1 : ¬(s.accumulator - s.memory.getD operand 0 < -9999 ∨
        9999 < s.accumulator - s.memory.getD operand 0)) :
    vmExec s 31 operand = .ok { s with
      accumulator := s.accumulator - s.memory.getD operand 0,
      instructionCounter := s.instructionCounter + 1 } := by
  show (if s.accumulator - s.memory.getD operand 0 < -9999 ∨
      9999 < s.accumulator - s.memory.getD operand 0 then
      (.error (.overflow s.instructionCounter) : Except VMErr VMState)
    else .ok { s with
      accumulator := s.accumulator - s.memory.getD operand 0,
      instructionCounter := s.instructionCounter + 1 }) = _
  rw [if_neg h1]

theorem vmExec_multiply (s : VMState) (operand : Nat)
    (h1 : ¬(s.accumulator * s.memory.getD operand 0 < -9999 ∨
        9999 < s.accumulator * s.memory.getD operand 0)) :
    vmExec s 33 operand = .ok { s with
      accumulator := s.accumulator * s.memory.getD operand 0,
      instructionCounter := s.instructionCounter + 1 } := by
  show (if s.accumulator * s.memory.getD operand 0 < -9999 ∨
      9999 < s.accumulator * s.memory.getD operand 0 then
      (.error (.overflow s.instructionCounter) : Except VMErr VMState)
    else .ok { s with
      accumulator := s.accumulator * s.memory.getD operand 0,
      instructionCounter := s.instructionCounter + 1 }) = _
  rw [if_neg h1]

theorem vmExec_divide (s : VMState) (operand : Nat)
    (h1 : ¬ s.memory.getD operand 0 = 0) :
    vmExec s 32 operand = .ok { s with
      accumulator := Int.fdiv s.accumulator (s.memory.getD operand 0),
      instructionCounter := s.instructionCounter + 1 } := by
  show (if s.memory.getD operand 0 = 0 then
      (.error (.divByZero s.instructionCounter) : Except VMErr VMState)
    else .ok { s with
      accumulator := Int.fdiv s.accumulator (s.memory.getD operand 0),
      instructionCounter := s.instructionCounter + 1 }) = _
  rw [if_neg h1]

theorem vmExec_branch (s : VMState) (operand : Nat) :
    vmExec s 40 operand =
      .ok { s with instructionCounter := operand } := rfl

theorem vmExec_branchneg (s : VMState) (operand : Nat) :
    vmExec s 41 operand =
      .ok (if s.accumulator < 0 then { s with instructionCounter := operand }
        else { s with instructionCounter := s.instructionCounter + 1 }) := by
  show (if s.accumulator < 0 then
      (.ok { s with instructionCounter := operand } : Except VMErr VMState)
    else .ok { s with instructionCounter := s.instructionCounter + 1 }) = _
  split <;> simp_all

theorem vmExec_branchzero (s : VMState) (operand : Nat) :
    vmExec s 42 operand =
      .ok (if s.accumulator = 0 then { s with instructionCounter := operand }
        else { s with instructionCounter := s.instructionCounter + 1 }) := by
  show (if s.accumulator = 0 then
      (.ok { s with instructionCounter := operand } : Except VMErr VMState)
    else .ok { s with instructionCounter := s.instructionCounter + 1 }) = _
  split <;> simp_all

/-! ### Locating statements and operands (C1 support) -/

theorem boundedVal_spec (v : Int) (h : boundedVal v = true) :
    -9999 ≤ v ∧ v ≤ 9999 := by
  rw [boundedVal] at h
  exact of_decide_eq_true h

/-- The statement the interpreter sees at position `i` is the `i`-th entry
of the compiler's sorted line list. -/
theorem stmt_at (p : Program) (hlinesnd : (p.lines.map Prod.fst).Nodup)
    (i : Nat) (hi : i < (sortLines p.lines).length) :
    (lineNumbers p)[i]? = some ((sortLines p.lines).getD i (0, .rem)).1 ∧
    p.lines.lookup ((sortLines p.lines).getD i (0, .rem)).1 =
      some ((sortLines p.lines).getD i (0, .rem)).2 := by
  constructor
  · rw [lineNumbers_eq_keys_sortLines]
    rw [List.getElem?_eq_getElem (by simpa using hi)]
    congr 1
    rw [List.getElem_map, ← List.getD_eq_getElem _ (0, Stmt.rem) hi]
  · have hmem : (sortLines p.lines).getD i (0, .rem) ∈ sortLines p.lines := by
      rw [List.getD_eq_getElem _ _ hi]
      exact List.getElem_mem _
    have hmem' : (sortLines p.lines).getD i (0, .rem) ∈ p.lines :=
      (List.perm_insertionSort _ p.lines).subset hmem
    exact lookup_of_mem_nodupKeys hlinesnd hmem'

/-- The key list of the compiler's sorted lines, elementwise. -/
theorem keys_getD (p : Program) (i : Nat)
    (hi : i < (sortLines p.lines).length) :
    ((sortLines p.lines).map Prod.fst).getD i 0 =
      ((sortLines p.lines).getD i (0, .rem)).1 := by
  rw [List.getD_eq_getElem _ _ (by simpa using hi), List.getElem_map,
    ← List.getD_eq_getElem _ (0, Stmt.rem) hi]

theorem resolveInstr_sym (symTab : List (String × Nat))
    (locs : List (Nat × Nat)) (opc : Nat) (s : String) (a : Nat)
    (h : symTab.lookup s = some a) :
    resolveInstr symTab locs (opc, .sym s) =
      .ok ((opc * 100 + a : Nat) : Int) := by
  rw [resolveInstr, h]

theorem resolveInstr_branch (symTab : List (String × Nat))
    (locs : List (Nat × Nat)) (opc : Nat) (n a : Nat)
    (hopc : opc = BRANCH ∨ opc = BRANCHNEG ∨ opc = BRANCHZERO)
    (h : locs.lookup n = some a) :
    resolveInstr symTab locs (opc, .num n) =
      .ok ((opc * 100 + a : Nat) : Int) := by
  rw [resolveInstr, if_pos hopc, h]

theorem resolveInstr_imm (symTab : List (String × Nat))
    (locs : List (Nat × Nat)) (opc : Nat) (n : Nat)
    (hopc : ¬(opc = BRANCH ∨ opc = BRANCHNEG ∨ opc = BRANCHZERO)) :
    resolveInstr symTab locs (opc, .num n) =
      .ok ((opc * 100 + n : Nat) : Int) := by
  rw [resolveInstr, if_neg hopc]

/-- Only `rem` compiles to no instructions. -/
theorem genStmt_nil : ∀ (base : Nat) (st : Stmt),
    genStmt base st = .ok [] → st = .rem := by
  intro base st h
  cases st with
  | rem => rfl
  | input v => exact absurd h (by simp [genStmt])
  | print v => exact absurd h (by simp [genStmt])
  | endStmt => exact absurd h (by simp [genStmt])
  | goto t => exact absurd h (by simp [genStmt])
  | letStmt v e =>
    cases e with
    | num k =>
      exact absurd h (by simp [genStmt, getOperandSymbol, bind, Except.bind])
    | var n =>
      exact absurd h (by simp [genStmt, getOperandSymbol, bind, Except.bind])
    | binop l op r =>
      simp only [genStmt, bind, Except.bind] at h
      cases hl : getOperandSymbol l with
      | error e => simp only [hl] at h; exact Except.noConfusion h
      | ok ls =>
        simp only [hl] at h
        cases hr : getOperandSymbol r with
        | error e => simp only [hr] at h; exact Except.noConfusion h
        | ok rs =>
          simp only [hr] at h
          cases hop : opMap op with
          | error e => simp only [hop] at h; exact Except.noConfusion h
          | ok opc => simp only [hop] at h; exact absurd h (by simp)
  | ifGoto l op r t =>
    simp only [genStmt, bind, Except.bind] at h
    cases hl : getOperandSymbol l with
    | error e => simp only [hl] at h; exact Except.noConfusion h
    | ok ls =>
      simp only [hl] at h
      cases hr : getOperandSymbol r with
      | error e => simp only [hr] at h; exact Except.noConfusion h
      | ok rs =>
        simp only [hr] at h
        by_cases c1 : op = "=="
        · rw [if_pos c1] at h; exact absurd h (by simp)
        rw [if_neg c1] at h
        by_cases c2 : op = "<"
        · rw [if_pos c2] at h; exact absurd h (by simp)
        rw [if_neg c2] at h
        by_cases c3 : op = ">"
        · rw [if_pos c3] at h; exact absurd h (by simp)
        rw [if_neg c3] at h
        by_cases c4 : op = "!="
        · rw [if_pos c4] at h; exact absurd h (by simp)
        rw [if_neg c4] at h
        by_cases c5 : op = ">="
        · rw [if_pos c5] at h; exact absurd h (by simp)
        rw [if_neg c5] at h
        by_cases c6 : op = "<="
        · rw [if_pos c6] at h; exact absurd h (by simp)
        · rw [if_neg c6] at h; exact absurd h (by simp)

/-- Under the simulation relation, the cell of a leaf operand's symbol holds
the interpreter's value for that leaf. -/
theorem leaf_value (syms : List String) (cs : Nat) (image : List Int)
    (himgdata : ∀ j, j < syms.length →
      dataCell (syms.getD j "") = .ok (image.getD (cs + j) 0))
    (ist : IState) (vst : VMState)
    (hrel : Rel cs (symbolTable cs syms) image ist vst)
    (e : Expr) (hleaf : leafVarOk e = true) (es : String)
    (hes : getOperandSymbol e = .ok es) (a : Nat)
    (ha : (symbolTable cs syms).lookup es = some a)
    (v : Int) (hev : evalExpr ist.vars e = .ok v) :
    vst.memory.getD a 0 = v := by
  obtain ⟨-, -, -, -, hvars, hconsts⟩ := hrel
  cases e with
  | binop l op r => exact absurd hleaf (by simp [leafVarOk])
  | var n =>
    have hes' : es = n := by
      rw [getOperandSymbol] at hes
      injection hes with h'
      exact h'.symm
    have hv : v = getVar ist.vars n := by
      rw [evalExpr] at hev
      injection hev with h'
      exact h'.symm
    have hnc : isConstStr n = false := by
      rw [leafVarOk, varNameOk, Bool.not_eq_true'] at hleaf
      exact hleaf
    rw [hes'] at ha
    rw [hv]
    exact hvars n a ha hnc
  | num k =>
    have hes' : es = constSym k := by
      rw [getOperandSymbol] at hes
      injection hes with h'
      exact h'.symm
    have hv : v = k := by
      rw [evalExpr] at hev
      injection hev with h'
      exact h'.symm
    rw [hes'] at ha
    rw [hv]
    have hmem : vst.memory.getD a 0 = image.getD a 0 :=
      hconsts _ a ha (isConstStr_constSym k)
    obtain ⟨i, hi, hgd, ha'⟩ := symbolTable_lookup_inv syms cs _ a ha
    have hdc := himgdata i hi
    rw [hgd] at hdc
    obtain ⟨hval, -⟩ := dataCell_constSym_inv k _ hdc
    rw [hmem, ha']
    exact hval

theorem offsetOf_next (segs : List (List SymInstr)) (i : Nat)
    (h : i < segs.length) (n : Nat) (hn : (segs.getD i []).length = n) :
    offsetOf segs (i + 1) = offsetOf segs i + n := by
  rw [offsetOf_succ segs i h, hn]

/-- A leaf operand always has an operand symbol, discovered by the symbol
walk. -/
theorem getOperandSymbol_leaf (e : Expr) (h : leafVarOk e = true) :
    ∃ s, getOperandSymbol e = .ok s ∧ s ∈ discoverExpr e := by
  cases e with
  | num k => exact ⟨constSym k, rfl, by simp [discoverExpr]⟩
  | var n => exact ⟨n, rfl, by simp [discoverExpr]⟩
  | binop l op r => exact absurd h (by simp [leafVarOk])

/-- A leaf operand always evaluates successfully. -/
theorem evalExpr_leaf (vars : List (String × Int)) (e : Expr)
    (h : leafVarOk e = true) : ∃ v, evalExpr vars e = .ok v := by
  cases e with
  | num k => exact ⟨k, rfl⟩
  | var n => exact ⟨getVar vars n, rfl⟩
  | binop l op r => exact absurd h (by simp [leafVarOk])

/-- Inversion of the interpreter's `End` break: the state is unchanged and
the current sorted line holds an `EndStatement`. -/
theorem interpStep_halted_inv (p : Program)
    (hlinesnd : (p.lines.map Prod.fst).Nodup) (ist s' : IState)
    (h : interpStep p ist = .halted s') :
    s' = ist ∧ ist.pc < (sortLines p.lines).length ∧
      ((sortLines p.lines).getD ist.pc (0, Stmt.rem)).2 = .endStmt := by
  cases hln : (lineNumbers p)[ist.pc]? with
  | none =>
    have hstep : interpStep p ist = .offEnd ist := by rw [interpStep, hln]
    rw [hstep] at h
    exact StepRes.noConfusion h
  | some ln =>
    have hpc : ist.pc < (sortLines p.lines).length := by
      by_contra hcon
      rw [List.getElem?_eq_none (by
        rw [lineNumbers_eq_keys_sortLines, List.length_map]; omega)] at hln
      exact Option.noConfusion hln
    obtain ⟨hlnK, hlook⟩ := stmt_at p hlinesnd ist.pc hpc
    have hlneq : ((sortLines p.lines).getD ist.pc (0, Stmt.rem)).1 = ln := by
      rw [hln] at hlnK
      injection hlnK with h'
      exact h'.symm
    rw [hlneq] at hlook
    cases hst : ((sortLines p.lines).getD ist.pc (0, Stmt.rem)).2 with
    | rem =>
      rw [hst] at hlook
      have hstep : interpStep p ist = .next { ist with pc := ist.pc + 1 } := by
        rw [interpStep]
        simp only [hln, hlook]
      rw [hstep] at h
      exact StepRes.noConfusion h
    | endStmt =>
      rw [hst] at hlook
      have hstep : interpStep p ist = .halted ist := by
        rw [interpStep]
        simp only [hln, hlook]
      rw [hstep] at h
      injection h with h'
      exact ⟨h'.symm, hpc, rfl⟩
    | input v =>
      rw [hst] at hlook
      cases hinp : ist.inputs with
      | nil =>
        have hstep : interpStep p ist = .fail .badInput := by
          rw [interpStep]
          simp only [hln, hlook, hinp]
        rw [hstep] at h
        exact StepRes.noConfusion h
      | cons x rest =>
        have hstep : interpStep p ist = .next { ist with
            vars := setVar ist.vars v x, inputs := rest, pc := ist.pc + 1 } := by
          rw [interpStep]
          simp only [hln, hlook, hinp]
        rw [hstep] at h
        exact StepRes.noConfusion h
    | print v =>
      rw [hst] at hlook
      have hstep : interpStep p ist = .next { ist with
          output := ist.output ++ [getVar ist.vars v], pc := ist.pc + 1 } := by
        rw [interpStep]
        simp only [hln, hlook]
      rw [hstep] at h
      exact StepRes.noConfusion h
    | letStmt v e =>
      rw [hst] at hlook
      cases hev : evalExpr ist.vars e with
      | error er =>
        have hstep : interpStep p ist = .fail er := by
          rw [interpStep]
          simp only [hln, hlook, hev]
        rw [hstep] at h
        exact StepRes.noConfusion h
      | ok val =>
        have hstep : interpStep p ist = .next { ist with
            vars := setVar ist.vars v val, pc := ist.pc + 1 } := by
          rw [interpStep]
          simp only [hln, hlook, hev]
        rw [hstep] at h
        exact StepRes.noConfusion h
    | goto t =>
      rw [hst] at hlook
      by_cases ht : t ∈ lineNumbers p
      · have hstep : interpStep p ist = .next { ist with
            pc := (lineNumbers p).indexOf t } := by
          rw [interpStep]
          simp only [hln, hlook]
          rw [if_pos ht]
        rw [hstep] at h
        exact StepRes.noConfusion h
      · have hstep : interpStep p ist = .fail (.gotoMissing t ln) := by
          rw [interpStep]
          simp only [hln, hlook]
          rw [if_neg ht]
        rw [hstep] at h
        exact StepRes.noConfusion h
    | ifGoto l op r t =>
      rw [hst] at hlook
      cases hev : evalCond ist.vars l op r with
      | error er =>
        have hstep : interpStep p ist = .fail er := by
          rw [interpStep]
          simp only [hln, hlook, hev]
        rw [hstep] at h
        exact StepRes.noConfusion h
      | ok b =>
        cases b with
        | false =>
          have hstep : interpStep p ist =
              .next { ist with pc := ist.pc + 1 } := by
            rw [interpStep]
            simp only [hln, hlook, hev]
            rfl
          rw [hstep] at h
          exact StepRes.noConfusion h
        | true =>
          by_cases ht : t ∈ lineNumbers p
          · have hstep : interpStep p ist = .next { ist with
                pc := (lineNumbers p).indexOf t } := by
              rw [interpStep]
              simp only [hln, hlook, hev]
              rw [if_pos trivial, if_pos ht]
            rw [hstep] at h
            exact StepRes.noConfusion h
          · have hstep : interpStep p ist = .fail (.ifGotoMissing t ln) := by
              rw [interpStep]
              simp only [hln, hlook, hev]
              rw [if_pos trivial, if_neg ht]
            rw [hstep] at h
            exact StepRes.noConfusion h

/-- A checked run with no fuel left must be at an `End` statement. -/
theorem checkedRun_zero (p : Program) (ist : IState)
    (hchk : checkedRun p 0 ist = true) :
    ∃ s', interpStep p ist = .halted s' ∧
      interpRun p 0 ist = some (.ok s'.output) := by
  rw [checkedRun] at hchk
  cases hstep : interpStep p ist with
  | halted s' => exact ⟨s', rfl, by rw [interpRun, hstep]⟩
  | offEnd s' => rw [hstep] at hchk; simp at hchk
  | fail e => rw [hstep] at hchk; simp at hchk
  | next s' => rw [hstep] at hchk; simp at hchk

/-- If every sorted line from the current position on is a comment, the run
cannot reach an `End` statement, so it is not a checked run. -/
theorem remTail_not_checked (p : Program)
    (hlinesnd : (p.lines.map Prod.fst).Nodup) :
    ∀ (fuel : Nat) (s : IState),
    (∀ j, s.pc ≤ j → j < (sortLines p.lines).length →
      ((sortLines p.lines).getD j (0, Stmt.rem)).2 = .rem) →
    checkedRun p fuel s = false := by
  intro fuel
  induction fuel with
  | zero =>
    intro s hrem
    rw [checkedRun]
    cases hln : (lineNumbers p)[s.pc]? with
    | none =>
      have hstep : interpStep p s = .offEnd s := by rw [interpStep, hln]
      rw [hstep, Bool.and_eq_false_iff]
      exact Or.inr rfl
    | some ln =>
      have hpc : s.pc < (sortLines p.lines).length := by
        by_contra hcon
        rw [List.getElem?_eq_none (by
          rw [lineNumbers_eq_keys_sortLines, List.length_map]; omega)] at hln
        exact Option.noConfusion hln
      obtain ⟨hlnK, hlook⟩ := stmt_at p hlinesnd s.pc hpc
      have hlneq : ((sortLines p.lines).getD s.pc (0, Stmt.rem)).1 = ln := by
        rw [hln] at hlnK
        injection hlnK with h'
        exact h'.symm
      rw [hlneq, hrem s.pc (Nat.le_refl _) hpc] at hlook
      have hstep : interpStep p s = .next { s with pc := s.pc + 1 } := by
        rw [interpStep]
        simp only [hln, hlook]
      rw [hstep, Bool.and_eq_false_iff]
      exact Or.inr rfl
  | succ f ih =>
    intro s hrem
    rw [checkedRun]
    cases hln : (lineNumbers p)[s.pc]? with
    | none =>
      have hstep : interpStep p s = .offEnd s := by rw [interpStep, hln]
      rw [hstep, Bool.and_eq_false_iff]
      exact Or.inr rfl
    | some ln =>
      have hpc : s.pc < (sortLines p.lines).length := by
        by_contra hcon
        rw [List.getElem?_eq_none (by
          rw [lineNumbers_eq_keys_sortLines, List.length_map]; omega)] at hln
        exact Option.noConfusion hln
      obtain ⟨hlnK, hlook⟩ := stmt_at p hlinesnd s.pc hpc
      have hlneq : ((sortLines p.lines).getD s.pc (0, Stmt.rem)).1 = ln := by
        rw [hln] at hlnK
        injection hlnK with h'
        exact h'.symm
      rw [hlneq, hrem s.pc (Nat.le_refl _) hpc] at hlook
      have hstep : interpStep p s = .next { s with pc := s.pc + 1 } := by
        rw [interpStep]
        simp only [hln, hlook]
      rw [hstep, Bool.and_eq_false_iff]
      refine Or.inr ?_
      refine ih { s with pc := s.pc + 1 } (fun j hj hjl => ?_)
      have hj' : s.pc + 1 ≤ j := hj
      exact hrem j (by omega) hjl

/-- When the interpreter sits on an `End` statement, the machine sits on the
corresponding `HALT` word and stops with the same output, whatever the
fuel. -/
theorem sim_halt (p : Program) (segs : List (List SymInstr))
    (locs : List (Nat × Nat)) (image : List Int)
    (hsegslen : segs.length = (sortLines p.lines).length)
    (hgen : ∀ i, i < (sortLines p.lines).length →
      genStmt (offsetOf segs i) ((sortLines p.lines).getD i (0, .rem)).2 =
        .ok (segs.getD i []))
    (htotal : segs.flatten.length ≤ 100)
    (himgcode : ∀ i, i < segs.flatten.length →
      resolveInstr (symbolTable segs.flatten.length (programSymbols p)) locs
        (segs.flatten.getD i (0, .num 0)) = .ok (image.getD i 0))
    (ist : IState) (vst : VMState)
    (hrel : Rel segs.flatten.length
      (symbolTable segs.flatten.length (programSymbols p)) image ist vst)
    (hic : vst.instructionCounter = offsetOf segs ist.pc)
    (hpc : ist.pc < (sortLines p.lines).length)
    (hend : ((sortLines p.lines).getD ist.pc (0, Stmt.rem)).2 = .endStmt)
    (vfuel : Nat) :
    vmRun vfuel vst = some (.ok ist.output) := by
  obtain ⟨hlen, hinp, hout, hcode, hvars, hconsts⟩ := hrel
  have hpcS : ist.pc < segs.length := by rw [hsegslen]; exact hpc
  have hgenpc := hgen ist.pc hpc
  rw [hend] at hgenpc
  have hseg : segs.getD ist.pc [] = [(HALT, SymOperand.num 0)] := by
    simp only [genStmt, Except.ok.injEq] at hgenpc
    exact hgenpc.symm
  have hoffnext : offsetOf segs (ist.pc + 1) = offsetOf segs ist.pc + 1 :=
    offsetOf_next segs ist.pc hpcS 1 (by rw [hseg]; rfl)
  have hofflt : offsetOf segs ist.pc < segs.flatten.length := by
    have h2 := offsetOf_le_flatten segs (ist.pc + 1)
    omega
  have hflat : segs.flatten.getD (offsetOf segs ist.pc) (0, SymOperand.num 0) =
      (HALT, SymOperand.num 0) := by
    have h1 := flatten_getD segs ist.pc 0 hpcS (by rw [hseg]; decide)
      (0, SymOperand.num 0)
    rw [Nat.add_zero, hseg] at h1
    exact h1
  have himg : image.getD (offsetOf segs ist.pc) 0 =
      ((HALT * 100 + 0 : Nat) : Int) := by
    have h1 := himgcode (offsetOf segs ist.pc) hofflt
    rw [hflat, resolveInstr_imm _ _ _ _ (by decide)] at h1
    injection h1 with h2
    exact h2.symm
  have hcell : vst.memory.getD vst.instructionCounter 0 =
      ((HALT * 100 + 0 : Nat) : Int) := by
    rw [hic, hcode _ hofflt, himg]
  have hiclt : vst.instructionCounter < vst.memory.length := by
    rw [hlen, hic]
    omega
  rw [vmRun_halt vst hiclt
    (by rw [hcell]; exact (decode_word HALT 0 (by omega)).1) vfuel, hout]

theorem lookup_mem {α β : Type} [BEq α] [LawfulBEq α] {l : List (α × β)}
    {k : α} {v : β} (h : l.lookup k = some v) : (k, v) ∈ l := by
  obtain ⟨l₁, l₂, rfl, -⟩ := List.lookup_eq_some_iff.mp h
  exact List.mem_append.mpr (Or.inr (List.mem_cons_self _ _))

/-- One machine step, packaged: a two-digit-operand word at the instruction
counter plus a successful execution advance the run by one unit of fuel. -/
theorem vmRun_step_word (vst : VMState)
    (hic : vst.instructionCounter < vst.memory.length)
    (opc operand : Nat) (hop99 : operand ≤ 99)
    (hcell : vst.memory.getD vst.instructionCounter 0 =
      ((opc * 100 + operand : Nat) : Int))
    (hne : opc ≠ HALT)
    (vst' : VMState) (hexec : vmExec vst ((opc : Nat) : Int) operand = .ok vst')
    (vf : Nat) :
    vmRun (vf + 1) vst = vmRun vf vst' :=
  vmRun_step vst hic _ operand
    (by rw [hcell]; exact (decode_word opc operand hop99).1)
    (by rw [hcell]; exact (decode_word opc operand hop99).2)
    (by intro hc; exact hne (by exact_mod_cast hc)) vst' hexec vf

/-- The memory cell under a symbolic-operand instruction of the image. -/
theorem cell_value (p : Program) (segs : List (List SymInstr))
    (locs : List (Nat × Nat)) (image : List Int)
    (himgcode : ∀ i, i < segs.flatten.length →
      resolveInstr (symbolTable segs.flatten.length (programSymbols p)) locs
        (segs.flatten.getD i (0, .num 0)) = .ok (image.getD i 0))
    (vst : VMState)
    (hcode : ∀ i, i < segs.flatten.length →
      vst.memory.getD i 0 = image.getD i 0)
    (i : Nat) (hi : i < segs.flatten.length)
    (opc : Nat) (s : String) (a : Nat)
    (hw : segs.flatten.getD i (0, SymOperand.num 0) = (opc, SymOperand.sym s))
    (hlk : (symbolTable segs.flatten.length (programSymbols p)).lookup s =
      some a) :
    vst.memory.getD i 0 = ((opc * 100 + a : Nat) : Int) := by
  rw [hcode i hi]
  have h1 := himgcode i hi
  rw [hw, resolveInstr_sym _ _ _ _ _ hlk] at h1
  injection h1 with h2
  exact h2.symm

/-- A resolved branch word: the emitter's line-number operand must be a key
of the location map, and the image holds the mapped address. -/
theorem branch_word (p : Program) (segs : List (List SymInstr))
    (locs : List (Nat × Nat)) (image : List Int)
    (himgcode : ∀ i, i < segs.flatten.length →
      resolveInstr (symbolTable segs.flatten.length (programSymbols p)) locs
        (segs.flatten.getD i (0, .num 0)) = .ok (image.getD i 0))
    (opc : Nat) (hopc3 : opc = BRANCH ∨ opc = BRANCHNEG ∨ opc = BRANCHZERO)
    (i : Nat) (hi : i < segs.flatten.length) (t : Nat)
    (hw : segs.flatten.getD i (0, SymOperand.num 0) = (opc, SymOperand.num t)) :
    ∃ tgt, locs.lookup t = some tgt ∧
      image.getD i 0 = ((opc * 100 + tgt : Nat) : Int) := by
  have h1 := himgcode i hi
  rw [hw] at h1
  simp only [resolveInstr] at h1
  rw [if_pos hopc3] at h1
  cases hltg : locs.lookup t with
  | none =>
    simp only [hltg] at h1
    exact Except.noConfusion h1
  | some tgt =>
    simp only [hltg] at h1
    injection h1 with h2
    exact ⟨tgt, rfl, h2.symm⟩

/-- The location map sends a jump target to the offset of the line found by
the interpreter's `index` call. -/
theorem locs_lookup_indexOf (p : Program) (segs : List (List SymInstr))
    (locs : List (Nat × Nat))
    (hlocs : ∀ i, i < (sortLines p.lines).length →
      locs.lookup (((sortLines p.lines).getD i (0, .rem)).1) =
        some (offsetOf segs i))
    (t : Nat) (ht : t ∈ lineNumbers p) :
    locs.lookup t = some (offsetOf segs ((lineNumbers p).indexOf t)) := by
  have hlenK : (lineNumbers p).length = (sortLines p.lines).length := by
    rw [lineNumbers_eq_keys_sortLines, List.length_map]
  have hidx : (lineNumbers p).indexOf t < (lineNumbers p).length :=
    List.indexOf_lt_length.mpr ht
  have h1 := hlocs ((lineNumbers p).indexOf t) (by omega)
  have h2 : ((sortLines p.lines).getD ((lineNumbers p).indexOf t)
      (0, Stmt.rem)).1 = t := by
    rw [← keys_getD p _ (by omega), ← lineNumbers_eq_keys_sortLines,
      List.getD_eq_getElem _ _ hidx]
    exact List.getElem_indexOf hidx
  rw [h2] at h1
  exact h1

/-- Writing a variable's cell preserves the simulation relation's memory
clauses against the interpreter's dict update. -/
theorem Rel_preserve_set (syms : List String) (cs : Nat) (image : List Int)
    (hnd : syms.Nodup) (mem : List Int) (vars : List (String × Int))
    (hlenm : mem.length = 100)
    (hcode : ∀ i, i < cs → mem.getD i 0 = image.getD i 0)
    (hvars : ∀ s a, (symbolTable cs syms).lookup s = some a →
      isConstStr s = false → mem.getD a 0 = getVar vars s)
    (hconsts : ∀ s a, (symbolTable cs syms).lookup s = some a →
      isConstStr s = true → mem.getD a 0 = image.getD a 0)
    (v : String) (av : Nat) (val : Int)
    (hlkv : (symbolTable cs syms).lookup v = some av)
    (hvnc : isConstStr v = false)
    (havge : cs ≤ av) (hav100 : av < 100) :
    (∀ i, i < cs → (mem.set av val).getD i 0 = image.getD i 0) ∧
    (∀ s a, (symbolTable cs syms).lookup s = some a → isConstStr s = false →
      (mem.set av val).getD a 0 = getVar (setVar vars v val) s) ∧
    (∀ s a, (symbolTable cs syms).lookup s = some a → isConstStr s = true →
      (mem.set av val).getD a 0 = image.getD a 0) := by
  refine ⟨?_, ?_, ?_⟩
  · intro i hi
    rw [getD_set_ne _ _ _ _ _ (by omega)]
    exact hcode i hi
  · intro s₁ a₁ hlk1 hnc1
    by_cases hsv : s₁ = v
    · subst hsv
      have ha : a₁ = av := by
        rw [hlkv] at hlk1
        injection hlk1 with h'
        exact h'.symm
      subst ha
      rw [getD_set_self _ _ _ _ (by omega), getVar_setVar_self]
    · have hne : av ≠ a₁ :=
        Ne.symm (symbolTable_inj syms cs hnd hlk1 hlkv hsv)
      rw [getD_set_ne _ _ _ _ _ hne, hvars s₁ a₁ hlk1 hnc1,
        getVar_setVar_ne vars v s₁ val hsv]
  · intro s₁ a₁ hlk1 hc1
    have hsv : s₁ ≠ v := by
      intro hcontra
      rw [hcontra, hvnc] at hc1
      exact Bool.noConfusion hc1
    have hne : av ≠ a₁ :=
      Ne.symm (symbolTable_inj syms cs hnd hlk1 hlkv hsv)
    rw [getD_set_ne _ _ _ _ _ hne]
    exact hconsts s₁ a₁ hlk1 hc1

/-- Execution of one arithmetic opcode, on the shape the compiler emits. -/
theorem vm_arith_step (vst : VMState) (opc : Nat) (operand : Nat) (res : Int)
    (hspec :
      (opc = ADD ∧ res = vst.accumulator + vst.memory.getD operand 0) ∨
      (opc = SUBTRACT ∧ res = vst.accumulator - vst.memory.getD operand 0) ∨
      (opc = MULTIPLY ∧ res = vst.accumulator * vst.memory.getD operand 0) ∨
      (opc = DIVIDE ∧ vst.memory.getD operand 0 ≠ 0 ∧
        res = Int.fdiv vst.accumulator (vst.memory.getD operand 0)))
    (hbound : ¬(res < -9999 ∨ 9999 < res) ∨ opc = DIVIDE) :
    vmExec vst ((opc : Nat) : Int) operand = .ok { vst with
      accumulator := res,
      instructionCounter := vst.instructionCounter + 1 } := by
  rcases hspec with ⟨h1, h2⟩ | ⟨h1, h2⟩ | ⟨h1, h2⟩ | ⟨h1, h2, h3⟩
  · subst h1
    subst h2
    rcases hbound with hb | hb
    · exact vmExec_add vst operand hb
    · exact absurd hb (by decide)
  · subst h1
    subst h2
    rcases hbound with hb | hb
    · exact vmExec_subtract vst operand hb
    · exact absurd hb (by decide)
  · subst h1
    subst h2
    rcases hbound with hb | hb
    · exact vmExec_multiply vst operand hb
    · exact absurd hb (by decide)
  · subst h1
    subst h3
    exact vmExec_divide vst operand h2

/-- Two machine steps `LOAD x; ⟨arith⟩ y` compute the interpreter's result
into the accumulator. -/
theorem sim_load_arith (p : Program) (segs : List (List SymInstr))
    (locs : List (Nat × Nat)) (image : List Int)
    (himgcode : ∀ i, i < segs.flatten.length →
      resolveInstr (symbolTable segs.flatten.length (programSymbols p)) locs
        (segs.flatten.getD i (0, .num 0)) = .ok (image.getD i 0))
    (htotal : segs.flatten.length ≤ 100)
    (vst : VMState) (hlen : vst.memory.length = 100)
    (hcode : ∀ i, i < segs.flatten.length →
      vst.memory.getD i 0 = image.getD i 0)
    (x y : String) (ax ay : Nat)
    (hlkx : (symbolTable segs.flatten.length (programSymbols p)).lookup x =
      some ax)
    (hlky : (symbolTable segs.flatten.length (programSymbols p)).lookup y =
      some ay)
    (hax99 : ax ≤ 99) (hay99 : ay ≤ 99) (opc : Nat)
    (hw0 : segs.flatten.getD vst.instructionCounter (0, SymOperand.num 0) =
      (LOAD, SymOperand.sym x))
    (hw1 : segs.flatten.getD (vst.instructionCounter + 1)
      (0, SymOperand.num 0) = (opc, SymOperand.sym y))
    (hlt : vst.instructionCounter + 1 < segs.flatten.length)
    (res : Int)
    (hspec :
      (opc = ADD ∧ res = vst.memory.getD ax 0 + vst.memory.getD ay 0) ∨
      (opc = SUBTRACT ∧ res = vst.memory.getD ax 0 - vst.memory.getD ay 0) ∨
      (opc = MULTIPLY ∧ res = vst.memory.getD ax 0 * vst.memory.getD ay 0) ∨
      (opc = DIVIDE ∧ vst.memory.getD ay 0 ≠ 0 ∧
        res = Int.fdiv (vst.memory.getD ax 0) (vst.memory.getD ay 0)))
    (hbound : ¬(res < -9999 ∨ 9999 < res) ∨ opc = DIVIDE) :
    ∀ vf, vmRun (vf + 2) vst = vmRun vf { vst with
      accumulator := res,
      instructionCounter := vst.instructionCounter + 2 } := by
  intro vf
  have hcell0 : vst.memory.getD vst.instructionCounter 0 =
      ((LOAD * 100 + ax : Nat) : Int) :=
    cell_value p segs locs image himgcode vst hcode _ (by omega) _ _ _ hw0 hlkx
  have h12 : vmRun (vf + 2) vst = vmRun (vf + 1) { vst with
      accumulator := vst.memory.getD ax 0,
      instructionCounter := vst.instructionCounter + 1 } :=
    vmRun_step_word vst (by omega) LOAD ax hax99 hcell0 (by decide) _
      (vmExec_load vst ax) (vf + 1)
  have hcell1 : ({ vst with
      accumulator := vst.memory.getD ax 0,
      instructionCounter := vst.instructionCounter + 1 } : VMState).memory.getD
      ({ vst with
        accumulator := vst.memory.getD ax 0,
        instructionCounter := vst.instructionCounter + 1 } :
        VMState).instructionCounter 0 = ((opc * 100 + ay : Nat) : Int) := by
    show vst.memory.getD (vst.instructionCounter + 1) 0 =
      ((opc * 100 + ay : Nat) : Int)
    rw [hcode _ hlt]
    have h1 := himgcode _ hlt
    rw [hw1, resolveInstr_sym _ _ _ _ _ hlky] at h1
    injection h1 with h2
    exact h2.symm
  have hne43 : opc ≠ HALT := by
    rcases hspec with ⟨h1, -⟩ | ⟨h1, -⟩ | ⟨h1, -⟩ | ⟨h1, -, -⟩ <;>
      rw [h1] <;> decide
  have h23 : vmRun (vf + 1) { vst with
      accumulator := vst.memory.getD ax 0,
      instructionCounter := vst.instructionCounter + 1 } = vmRun vf
      { vst with
        accumulator := res,
        instructionCounter := vst.instructionCounter + 2 } :=
    vmRun_step_word { vst with
        accumulator := vst.memory.getD ax 0,
        instructionCounter := vst.instructionCounter + 1 }
      (by
        show vst.instructionCounter + 1 < vst.memory.length
        omega)
      opc ay hay99 hcell1 hne43 _
      (vm_arith_step { vst with
        accumulator := vst.memory.getD ax 0,
        instructionCounter := vst.instructionCounter + 1 } opc ay res hspec
        hbound) vf
  exact h12.trans h23

/-- Decomposition of a successful binary-operation evaluation over leaf
operands, per arithmetic operator. -/
theorem evalExpr_binop_ok (vars : List (String × Int)) (l : Expr) (op : String)
    (r : Expr) (val : Int) (hl : leafVarOk l = true) (hr : leafVarOk r = true)
    (h : evalExpr vars (.binop l op r) = .ok val) :
    ∃ lv rv, evalExpr vars l = .ok lv ∧ evalExpr vars r = .ok rv ∧
      (op = "+" → val = lv + rv) ∧ (op = "-" → val = lv - rv) ∧
      (op = "*" → val = lv * rv) ∧
      (op = "/" → rv ≠ 0 ∧ val = Int.fdiv lv rv) := by
  obtain ⟨lv, hlv⟩ := evalExpr_leaf vars l hl
  obtain ⟨rv, hrv⟩ := evalExpr_leaf vars r hr
  simp only [evalExpr, hlv, hrv, bind, Except.bind] at h
  refine ⟨lv, rv, hlv, hrv, ?_, ?_, ?_, ?_⟩
  · intro hop
    have h' := h
    rw [hop, if_pos rfl] at h'
    injection h' with h2
    exact h2.symm
  · intro hop
    have h' := h
    rw [hop, if_neg (by decide), if_pos rfl] at h'
    injection h' with h2
    exact h2.symm
  · intro hop
    have h' := h
    rw [hop, if_neg (by decide), if_neg (by decide), if_pos rfl] at h'
    injection h' with h2
    exact h2.symm
  · intro hop
    have h' := h
    rw [hop, if_neg (by decide), if_neg (by decide), if_neg (by decide),
      if_pos rfl] at h'
    by_cases hrv0 : rv = 0
    · rw [if_pos hrv0] at h'
      exact Except.noConfusion h'
    · rw [if_neg hrv0] at h'
      injection h' with h2
      exact ⟨hrv0, h2.symm⟩

/-- Decomposition of a successful condition evaluation over leaf operands,
for the three comparison operators of the restricted fragment. -/
theorem evalCond_ok3 (vars : List (String × Int)) (l : Expr) (op : String)
    (r : Expr) (b : Bool) (hl : leafVarOk l = true) (hr : leafVarOk r = true)
    (h : evalCond vars l op r = .ok b) :
    ∃ lv rv, evalExpr vars l = .ok lv ∧ evalExpr vars r = .ok rv ∧
      (op = "==" → b = decide (lv = rv)) ∧
      (op = "<" → b = decide (lv < rv)) ∧
      (op = ">" → b = decide (lv > rv)) := by
  obtain ⟨lv, hlv⟩ := evalExpr_leaf vars l hl
  obtain ⟨rv, hrv⟩ := evalExpr_leaf vars r hr
  rw [evalCond] at h
  simp only [hlv, hrv, bind, Except.bind] at h
  refine ⟨lv, rv, hlv, hrv, ?_, ?_, ?_⟩
  · intro hop
    have h' := h
    rw [hop, if_pos rfl] at h'
    injection h' with h2
    exact h2.symm
  · intro hop
    have h' := h
    rw [hop, if_neg (by decide), if_neg (by decide), if_neg (by decide),
      if_neg (by decide), if_pos rfl] at h'
    injection h' with h2
    exact h2.symm
  · intro hop
    have h' := h
    rw [hop, if_neg (by decide), if_neg (by decide), if_pos rfl] at h'
    injection h' with h2
    exact h2.symm

theorem genStmt_let_leaf (base : Nat) (v : String) (e : Expr) (es : String)
    (hleaf : leafVarOk e = true) (hes : getOperandSymbol e = .ok es) :
    genStmt base (.letStmt v e) =
      .ok [(LOAD, .sym es), (STORE, .sym v)] := by
  cases e with
  | num k =>
    simp only [genStmt, bind, Except.bind, hes]
  | var n =>
    simp only [genStmt, bind, Except.bind, hes]
  | binop l op r => exact absurd hleaf (by simp [leafVarOk])

theorem genStmt_let_binop (base : Nat) (v : String) (l : Expr) (op : String)
    (r : Expr) (ls rs : String) (hls : getOperandSymbol l = .ok ls)
    (hrs : getOperandSymbol r = .ok rs) (opc : Nat)
    (hopc : opMap op = .ok opc) :
    genStmt base (.letStmt v (.binop l op r)) =
      .ok [(LOAD, .sym ls), (opc, .sym rs), (STORE, .sym v)] := by
  simp only [genStmt, bind, Except.bind, hls, hrs, hopc]

/-- The two machine steps `LOAD es; STORE v` of a leaf assignment, with the
relation re-established. -/
theorem sim_let_leaf (p : Program) (segs : List (List SymInstr))
    (locs : List (Nat × Nat)) (image : List Int)
    (himgcode : ∀ i, i < segs.flatten.length →
      resolveInstr (symbolTable segs.flatten.length (programSymbols p)) locs
        (segs.flatten.getD i (0, .num 0)) = .ok (image.getD i 0))
    (himgdata : ∀ j, j < (programSymbols p).length →
      dataCell ((programSymbols p).getD j "") =
        .ok (image.getD (segs.flatten.length + j) 0))
    (htotal : segs.flatten.length + (programSymbols p).length ≤ 100)
    (ist : IState) (vst : VMState)
    (hrel : Rel segs.flatten.length
      (symbolTable segs.flatten.length (programSymbols p)) image ist vst)
    (hic : vst.instructionCounter = offsetOf segs ist.pc)
    (hpcS : ist.pc < segs.length)
    (v es : String) (e : Expr)
    (hleaf : leafVarOk e = true)
    (hes : getOperandSymbol e = .ok es)
    (hseg : segs.getD ist.pc [] =
      [(LOAD, SymOperand.sym es), (STORE, SymOperand.sym v)])
    (hesmem : es ∈ programSymbols p) (hvmem : v ∈ programSymbols p)
    (hvnc : isConstStr v = false)
    (val : Int) (hev : evalExpr ist.vars e = .ok val) :
    ∃ vst', (∀ vf, vmRun (vf + 2) vst = vmRun vf vst') ∧
      Rel segs.flatten.length
        (symbolTable segs.flatten.length (programSymbols p)) image
        { ist with vars := setVar ist.vars v val, pc := ist.pc + 1 } vst' ∧
      vst'.instructionCounter = offsetOf segs (ist.pc + 1) := by
  have hrelkeep := hrel
  obtain ⟨hlen, hinp, hout, hcode, hvars, hconsts⟩ := hrel
  obtain ⟨aes, hlkes, haesge, haesup⟩ := symbolTable_lookup_of_mem
    (programSymbols p) segs.flatten.length (programSymbols_nodup p) hesmem
  obtain ⟨av, hlkv, havge, havup⟩ := symbolTable_lookup_of_mem
    (programSymbols p) segs.flatten.length (programSymbols_nodup p) hvmem
  have hoffnext : offsetOf segs (ist.pc + 1) = offsetOf segs ist.pc + 2 :=
    offsetOf_next segs ist.pc hpcS 2 (by rw [hseg]; rfl)
  have hlt1 : offsetOf segs ist.pc + 1 < segs.flatten.length := by
    have := offsetOf_le_flatten segs (ist.pc + 1)
    omega
  have hw0 : segs.flatten.getD (offsetOf segs ist.pc) (0, SymOperand.num 0) =
      (LOAD, SymOperand.sym es) := by
    have h1 := flatten_getD segs ist.pc 0 hpcS
      (by rw [hseg]; exact Nat.succ_pos _) (0, SymOperand.num 0)
    rw [Nat.add_zero, hseg] at h1
    exact h1
  have hw1 : segs.flatten.getD (offsetOf segs ist.pc + 1)
      (0, SymOperand.num 0) = (STORE, SymOperand.sym v) := by
    have h1 := flatten_getD segs ist.pc 1 hpcS
      (by rw [hseg]; exact Nat.one_lt_two) (0, SymOperand.num 0)
    rw [hseg] at h1
    exact h1
  have hval : vst.memory.getD aes 0 = val :=
    leaf_value (programSymbols p) segs.flatten.length image himgdata ist vst
      hrelkeep e hleaf es hes aes hlkes val hev
  have hcell0 : vst.memory.getD vst.instructionCounter 0 =
      ((LOAD * 100 + aes : Nat) : Int) := by
    rw [hic]
    exact cell_value p segs locs image himgcode vst hcode _ (by omega) _ _ _
      hw0 hlkes
  have hcell1 : vst.memory.getD (vst.instructionCounter + 1) 0 =
      ((STORE * 100 + av : Nat) : Int) := by
    rw [hic]
    exact cell_value p segs locs image himgcode vst hcode _ hlt1 _ _ _
      hw1 hlkv
  obtain ⟨hpcode, hpvars, hpconsts⟩ := Rel_preserve_set (programSymbols p)
    segs.flatten.length image (programSymbols_nodup p) vst.memory ist.vars
    hlen hcode hvars hconsts v av val hlkv hvnc havge (by omega)
  refine ⟨{ vst with
      memory := vst.memory.set av val,
      accumulator := val,
      instructionCounter := vst.instructionCounter + 2 }, ?_, ?_, ?_⟩
  · intro vf
    rw [← hval]
    have e1 : vmRun (vf + 2) vst = vmRun (vf + 1) { vst with
        accumulator := vst.memory.getD aes 0,
        instructionCounter := vst.instructionCounter + 1 } :=
      vmRun_step_word vst (by rw [hlen, hic]; omega) LOAD aes (by omega)
        hcell0 (by decide) _ (vmExec_load vst aes) (vf + 1)
    have e2 : vmRun (vf + 1) { vst with
        accumulator := vst.memory.getD aes 0,
        instructionCounter := vst.instructionCounter + 1 } = vmRun vf
        { vst with
          memory := vst.memory.set av (vst.memory.getD aes 0),
          accumulator := vst.memory.getD aes 0,
          instructionCounter := vst.instructionCounter + 2 } :=
      vmRun_step_word { vst with
          accumulator := vst.memory.getD aes 0,
          instructionCounter := vst.instructionCounter + 1 }
        (by
          show vst.instructionCounter + 1 < vst.memory.length
          rw [hlen, hic]
          omega)
        STORE av (by omega) hcell1 (by decide) _
        (vmExec_store { vst with
          accumulator := vst.memory.getD aes 0,
          instructionCounter := vst.instructionCounter + 1 } av) vf
    exact e1.trans e2
  · exact ⟨by rw [List.length_set]; exact hlen, hinp, hout, hpcode, hpvars,
      hpconsts⟩
  · show vst.instructionCounter + 2 = offsetOf segs (ist.pc + 1)
    rw [hic, hoffnext]

/-- The three machine steps `LOAD x; SUBTRACT y; ⟨branch⟩ t` of a compiled
comparison: the run reaches the mapped target when the branch fires and the
next instruction otherwise. -/
theorem sim_branch3 (p : Program) (segs : List (List SymInstr))
    (locs : List (Nat × Nat)) (image : List Int)
    (himgcode : ∀ i, i < segs.flatten.length →
      resolveInstr (symbolTable segs.flatten.length (programSymbols p)) locs
        (segs.flatten.getD i (0, .num 0)) = .ok (image.getD i 0))
    (hlocsrange : ∀ n a, locs.lookup n = some a → a ≤ segs.flatten.length)
    (hcs99 : segs.flatten.length ≤ 99)
    (vst : VMState) (hlen : vst.memory.length = 100)
    (hcode : ∀ i, i < segs.flatten.length →
      vst.memory.getD i 0 = image.getD i 0)
    (x y : String) (ax ay : Nat)
    (hlkx : (symbolTable segs.flatten.length (programSymbols p)).lookup x =
      some ax)
    (hlky : (symbolTable segs.flatten.length (programSymbols p)).lookup y =
      some ay)
    (hax99 : ax ≤ 99) (hay99 : ay ≤ 99)
    (bropc : Nat) (hbr : bropc = BRANCHNEG ∨ bropc = BRANCHZERO)
    (t : Nat)
    (hw0 : segs.flatten.getD vst.instructionCounter (0, SymOperand.num 0) =
      (LOAD, SymOperand.sym x))
    (hw1 : segs.flatten.getD (vst.instructionCounter + 1)
      (0, SymOperand.num 0) = (SUBTRACT, SymOperand.sym y))
    (hw2 : segs.flatten.getD (vst.instructionCounter + 2)
      (0, SymOperand.num 0) = (bropc, SymOperand.num t))
    (hlt2 : vst.instructionCounter + 2 < segs.flatten.length)
    (xv yv : Int) (hxv : vst.memory.getD ax 0 = xv)
    (hyv : vst.memory.getD ay 0 = yv)
    (hbound : ¬(xv - yv < -9999 ∨ 9999 < xv - yv)) :
    ∃ tgt, locs.lookup t = some tgt ∧ tgt ≤ segs.flatten.length ∧
      ∀ vf, vmRun (vf + 3) vst = vmRun vf
        (if (bropc = BRANCHZERO ∧ xv - yv = 0) ∨
            (bropc = BRANCHNEG ∧ xv - yv < 0)
         then { vst with
           accumulator := xv - yv,
           instructionCounter := tgt }
         else { vst with
           accumulator := xv - yv,
           instructionCounter := vst.instructionCounter + 3 }) := by
  have h2steps := sim_load_arith p segs locs image himgcode (by omega) vst
    hlen hcode x y ax ay hlkx hlky hax99 hay99 SUBTRACT hw0 hw1 (by omega)
    (xv - yv) (Or.inr (Or.inl ⟨rfl, by rw [hxv, hyv]⟩)) (Or.inl hbound)
  obtain ⟨tgt, hlkt2, himgw⟩ := branch_word p segs locs image himgcode bropc
    (by
      rcases hbr with h | h
      · exact Or.inr (Or.inl h)
      · exact Or.inr (Or.inr h))
    _ hlt2 t hw2
  have htgtle : tgt ≤ segs.flatten.length := hlocsrange t tgt hlkt2
  have hcell2 : vst.memory.getD (vst.instructionCounter + 2) 0 =
      ((bropc * 100 + tgt : Nat) : Int) := by
    rw [hcode _ hlt2, himgw]
  have hbrne : bropc ≠ HALT := by
    rcases hbr with h | h <;> rw [h] <;> decide
  refine ⟨tgt, hlkt2, htgtle, ?_⟩
  intro vf
  have e1 : vmRun (vf + 3) vst = vmRun (vf + 1) { vst with
      accumulator := xv - yv,
      instructionCounter := vst.instructionCounter + 2 } := h2steps (vf + 1)
  by_cases hc : (bropc = BRANCHZERO ∧ xv - yv = 0) ∨
      (bropc = BRANCHNEG ∧ xv - yv < 0)
  · rw [if_pos hc]
    have hexec2 : vmExec { vst with
        accumulator := xv - yv,
        instructionCounter := vst.instructionCounter + 2 }
        ((bropc : Nat) : Int) tgt = .ok { vst with
        accumulator := xv - yv,
        instructionCounter := tgt } := by
      rcases hc with ⟨hb0, hz⟩ | ⟨hb0, hneg⟩
      · subst hb0
        have h1 := vmExec_branchzero { vst with
          accumulator := xv - yv,
          instructionCounter := vst.instructionCounter + 2 } tgt
        rw [if_pos hz] at h1
        exact h1
      · subst hb0
        have h1 := vmExec_branchneg { vst with
          accumulator := xv - yv,
          instructionCounter := vst.instructionCounter + 2 } tgt
        rw [if_pos hneg] at h1
        exact h1
    have e2 : vmRun (vf + 1) { vst with
        accumulator := xv - yv,
        instructionCounter := vst.instructionCounter + 2 } = vmRun vf
        { vst with
          accumulator := xv - yv,
          instructionCounter := tgt } :=
      vmRun_step_word { vst with
          accumulator := xv - yv,
          instructionCounter := vst.instructionCounter + 2 }
        (by
          show vst.instructionCounter + 2 < vst.memory.length
          rw [hlen]
          omega)
        bropc tgt (by omega) hcell2 hbrne _ hexec2 vf
    exact e1.trans e2
  · rw [if_neg hc]
    have hexec2 : vmExec { vst with
        accumulator := xv - yv,
        instructionCounter := vst.instructionCounter + 2 }
        ((bropc : Nat) : Int) tgt = .ok { vst with
        accumulator := xv - yv,
        instructionCounter := vst.instructionCounter + 3 } := by
      rcases hbr with hb0 | hb0
      · subst hb0
        have hnn : ¬ (xv - yv : Int) < 0 := fun hcon =>
          hc (Or.inr ⟨rfl, hcon⟩)
        have h1 := vmExec_branchneg { vst with
          accumulator := xv - yv,
          instructionCounter := vst.instructionCounter + 2 } tgt
        rw [if_neg hnn] at h1
        exact h1
      · subst hb0
        have hnz : ¬ (xv - yv : Int) = 0 := fun hcon =>
          hc (Or.inl ⟨rfl, hcon⟩)
        have h1 := vmExec_branchzero { vst with
          accumulator := xv - yv,
          instructionCounter := vst.instructionCounter + 2 } tgt
        rw [if_neg hnz] at h1
        exact h1
    have e2 : vmRun (vf + 1) { vst with
        accumulator := xv - yv,
        instructionCounter := vst.instructionCounter + 2 } = vmRun vf
        { vst with
          accumulator := xv - yv,
          instructionCounter := vst.instructionCounter + 3 } :=
      vmRun_step_word { vst with
          accumulator := xv - yv,
          instructionCounter := vst.instructionCounter + 2 }
        (by
          show vst.instructionCounter + 2 < vst.memory.length
          rw [hlen]
          omega)
        bropc tgt (by omega) hcell2 hbrne _ hexec2 vf
    exact e1.trans e2

/-- Main simulation: from related states, a checked interpreter run and the
compiled machine produce the same output stream. -/
theorem sim_run (p : Program) (segs : List (List SymInstr))
    (locs : List (Nat × Nat)) (image : List Int)
    (hlinesnd : (p.lines.map Prod.fst).Nodup)
    (hres : programRestricted p = true)
    (hsegslen : segs.length = (sortLines p.lines).length)
    (hgen : ∀ i, i < (sortLines p.lines).length →
      genStmt (offsetOf segs i) ((sortLines p.lines).getD i (0, .rem)).2 =
        .ok (segs.getD i []))
    (hlocs : ∀ i, i < (sortLines p.lines).length →
      locs.lookup (((sortLines p.lines).getD i (0, .rem)).1) =
        some (offsetOf segs i))
    (hlocsrange : ∀ n a, locs.lookup n = some a → a ≤ segs.flatten.length)
    (htotal : segs.flatten.length + (programSymbols p).length ≤ 100)
    (himgcode : ∀ i, i < segs.flatten.length →
      resolveInstr (symbolTable segs.flatten.length (programSymbols p)) locs
        (segs.flatten.getD i (0, .num 0)) = .ok (image.getD i 0))
    (himgdata : ∀ j, j < (programSymbols p).length →
      dataCell ((programSymbols p).getD j "") =
        .ok (image.getD (segs.flatten.length + j) 0)) :
    ∀ (fuel : Nat) (ist : IState) (vst : VMState),
      Rel segs.flatten.length
        (symbolTable segs.flatten.length (programSymbols p)) image ist vst →
      vst.instructionCounter = offsetOf segs ist.pc →
      checkedRun p fuel ist = true →
      ∃ vfuel outF, vmRun vfuel vst = some (.ok outF) ∧
        interpRun p fuel ist = some (.ok outF) := by
  intro fuel
  induction fuel with
  | zero =>
    intro ist vst hrel hic hchk
    obtain ⟨s', hstep, hint⟩ := checkedRun_zero p ist hchk
    obtain ⟨hseq, hpc, hend⟩ := interpStep_halted_inv p hlinesnd ist s' hstep
    refine ⟨0, ist.output, ?_, ?_⟩
    · exact sim_halt p segs locs image hsegslen hgen (by omega) himgcode ist
        vst hrel hic hpc hend 0
    · rw [hint, hseq]
  | succ f ih =>
    intro ist vst hrel hic hchk
    rw [checkedRun] at hchk
    obtain ⟨hsb, hnext⟩ := Bool.and_eq_true_iff.mp hchk
    cases hln : (lineNumbers p)[ist.pc]? with
    | none =>
      have hstep : interpStep p ist = .offEnd ist := by rw [interpStep, hln]
      rw [hstep] at hnext
      exact Bool.noConfusion hnext
    | some ln =>
      have hpc : ist.pc < (sortLines p.lines).length := by
        by_contra hcon
        rw [List.getElem?_eq_none (by
          rw [lineNumbers_eq_keys_sortLines, List.length_map]; omega)] at hln
        exact Option.noConfusion hln
      obtain ⟨hlnK, hlook⟩ := stmt_at p hlinesnd ist.pc hpc
      have hlneq : ((sortLines p.lines).getD ist.pc (0, Stmt.rem)).1 = ln := by
        rw [hln] at hlnK
        injection hlnK with h'
        exact h'.symm
      rw [hlneq] at hlook
      have hmemL : (sortLines p.lines).getD ist.pc (0, Stmt.rem) ∈ p.lines := by
        rw [List.getD_eq_getElem _ _ hpc]
        exact (List.perm_insertionSort _ p.lines).subset (List.getElem_mem _)
      have hrest : stmtRestricted
          ((sortLines p.lines).getD ist.pc (0, Stmt.rem)).2 = true :=
        (List.all_eq_true.mp hres) _ hmemL
      have hpcS : ist.pc < segs.length := by rw [hsegslen]; exact hpc
      have hgenpc := hgen ist.pc hpc
      have hcs100 : segs.flatten.length ≤ 100 := by omega
      obtain ⟨hlen, hinp, hout, hcode, hvars, hconsts⟩ := hrel
      cases hst : ((sortLines p.lines).getD ist.pc (0, Stmt.rem)).2 with
      | rem =>
        rw [hst] at hlook hgenpc
        have hstep : interpStep p ist = .next { ist with pc := ist.pc + 1 } := by
          rw [interpStep]
          simp only [hln, hlook]
        rw [hstep] at hnext
        have hchk' : checkedRun p f { ist with pc := ist.pc + 1 } = true :=
          hnext
        have hseg : segs.getD ist.pc [] = [] := by
          simp only [genStmt, Except.ok.injEq] at hgenpc
          exact hgenpc.symm
        have hoffnext : offsetOf segs (ist.pc + 1) = offsetOf segs ist.pc + 0 :=
          offsetOf_next segs ist.pc hpcS 0 (by rw [hseg]; rfl)
        obtain ⟨vf, outF, hvm, hint⟩ := ih { ist with pc := ist.pc + 1 } vst
          ⟨hlen, hinp, hout, hcode, hvars, hconsts⟩
          (by
            show vst.instructionCounter = offsetOf segs (ist.pc + 1)
            rw [hic, hoffnext, Nat.add_zero])
          hchk'
        refine ⟨vf, outF, hvm, ?_⟩
        rw [interpRun]
        simp only [hstep]
        exact hint
      | endStmt =>
        rw [hst] at hlook
        have hstep : interpStep p ist = .halted ist := by
          rw [interpStep]
          simp only [hln, hlook]
        refine ⟨0, ist.output, ?_, ?_⟩
        · exact sim_halt p segs locs image hsegslen hgen hcs100 himgcode ist
            vst ⟨hlen, hinp, hout, hcode, hvars, hconsts⟩ hic hpc hst 0
        · rw [interpRun]
          simp only [hstep]
      | input v =>
        rw [hst] at hlook hgenpc hrest
        simp only [stmtRestricted] at hrest
        have hvnc : isConstStr v = false := by
          rw [varNameOk, Bool.not_eq_true'] at hrest
          exact hrest
        have hseg : segs.getD ist.pc [] = [(READ, SymOperand.sym v)] := by
          simp only [genStmt, Except.ok.injEq] at hgenpc
          exact hgenpc.symm
        have hoffnext : offsetOf segs (ist.pc + 1) = offsetOf segs ist.pc + 1 :=
          offsetOf_next segs ist.pc hpcS 1 (by rw [hseg]; rfl)
        have hofflt : offsetOf segs ist.pc < segs.flatten.length := by
          have := offsetOf_le_flatten segs (ist.pc + 1)
          omega
        have hvmem : v ∈ programSymbols p :=
          discover_mem_programSymbols p
            (show (ln, Stmt.input v) ∈ p.lines by
              rw [← hlneq, ← hst]; exact hmemL)
            (List.mem_singleton_self v)
        obtain ⟨a, hlk, hage, haup⟩ := symbolTable_lookup_of_mem
          (programSymbols p) segs.flatten.length (programSymbols_nodup p)
          hvmem
        have hw0 : segs.flatten.getD (offsetOf segs ist.pc)
            (0, SymOperand.num 0) = (READ, SymOperand.sym v) := by
          have h1 := flatten_getD segs ist.pc 0 hpcS
            (by rw [hseg]; exact Nat.succ_pos _) (0, SymOperand.num 0)
          rw [Nat.add_zero, hseg] at h1
          exact h1
        have hcell : vst.memory.getD vst.instructionCounter 0 =
            ((READ * 100 + a : Nat) : Int) := by
          rw [hic]
          exact cell_value p segs locs image himgcode vst hcode _ hofflt _ _ _
            hw0 hlk
        cases hinp2 : ist.inputs with
        | nil =>
          have hstep : interpStep p ist = .fail .badInput := by
            rw [interpStep]
            simp only [hln, hlook, hinp2]
          rw [hstep] at hnext
          exact Bool.noConfusion hnext
        | cons xx rest =>
          have hstep : interpStep p ist = .next { ist with
              vars := setVar ist.vars v xx,
              inputs := rest,
              pc := ist.pc + 1 } := by
            rw [interpStep]
            simp only [hln, hlook, hinp2]
          rw [hstep] at hnext
          have hchk' : checkedRun p f { ist with
              vars := setVar ist.vars v xx,
              inputs := rest,
              pc := ist.pc + 1 } = true := hnext
          have hsbv : stepBounded p ist = boundedVal xx := by
            rw [stepBounded]
            simp only [hln, hlook, hinp2]
          rw [hsbv] at hsb
          obtain ⟨hx1, hx2⟩ := boundedVal_spec xx hsb
          have hexec : vmExec vst ((READ : Nat) : Int) a = .ok { vst with
              memory := vst.memory.set a xx,
              inputs := rest,
              instructionCounter := vst.instructionCounter + 1 } :=
            vmExec_read vst a xx rest (by rw [hinp, hinp2]) ⟨hx1, hx2⟩
          have hvmstep : ∀ vf2, vmRun (vf2 + 1) vst = vmRun vf2 { vst with
              memory := vst.memory.set a xx,
              inputs := rest,
              instructionCounter := vst.instructionCounter + 1 } :=
            fun vf2 => vmRun_step_word vst (by rw [hlen, hic]; omega) READ a
              (by omega) hcell (by decide) _ hexec vf2
          obtain ⟨hpcode, hpvars, hpconsts⟩ := Rel_preserve_set
            (programSymbols p) segs.flatten.length image
            (programSymbols_nodup p) vst.memory ist.vars hlen hcode hvars
            hconsts v a xx hlk hvnc hage (by omega)
          obtain ⟨vf, outF, hvm, hint⟩ := ih
            { ist with
              vars := setVar ist.vars v xx,
              inputs := rest,
              pc := ist.pc + 1 }
            { vst with
              memory := vst.memory.set a xx,
              inputs := rest,
              instructionCounter := vst.instructionCounter + 1 }
            ⟨by rw [List.length_set]; exact hlen, rfl, hout, hpcode, hpvars,
              hpconsts⟩
            (by
              show vst.instructionCounter + 1 = offsetOf segs (ist.pc + 1)
              rw [hic, hoffnext])
            hchk'
          refine ⟨vf + 1, outF, ?_, ?_⟩
          · rw [hvmstep vf]
            exact hvm
          · rw [interpRun]
            simp only [hstep]
            exact hint
      | print v =>
        rw [hst] at hlook hgenpc hrest
        simp only [stmtRestricted] at hrest
        have hvnc : isConstStr v = false := by
          rw [varNameOk, Bool.not_eq_true'] at hrest
          exact hrest
        have hseg : segs.getD ist.pc [] = [(WRITE, SymOperand.sym v)] := by
          simp only [genStmt, Except.ok.injEq] at hgenpc
          exact hgenpc.symm
        have hoffnext : offsetOf segs (ist.pc + 1) = offsetOf segs ist.pc + 1 :=
          offsetOf_next segs ist.pc hpcS 1 (by rw [hseg]; rfl)
        have hofflt : offsetOf segs ist.pc < segs.flatten.length := by
          have := offsetOf_le_flatten segs (ist.pc + 1)
          omega
        have hvmem : v ∈ programSymbols p :=
          discover_mem_programSymbols p
            (show (ln, Stmt.print v) ∈ p.lines by
              rw [← hlneq, ← hst]; exact hmemL)
            (List.mem_singleton_self v)
        obtain ⟨a, hlk, hage, haup⟩ := symbolTable_lookup_of_mem
          (programSymbols p) segs.flatten.length (programSymbols_nodup p)
          hvmem
        have hw0 : segs.flatten.getD (offsetOf segs ist.pc)
            (0, SymOperand.num 0) = (WRITE, SymOperand.sym v) := by
          have h1 := flatten_getD segs ist.pc 0 hpcS
            (by rw [hseg]; exact Nat.succ_pos _) (0, SymOperand.num 0)
          rw [Nat.add_zero, hseg] at h1
          exact h1
        have hcell : vst.memory.getD vst.instructionCounter 0 =
            ((WRITE * 100 + a : Nat) : Int) := by
          rw [hic]
          exact cell_value p segs locs image himgcode vst hcode _ hofflt _ _ _
            hw0 hlk
        have hstep : interpStep p ist = .next { ist with
            output := ist.output ++ [getVar ist.vars v],
            pc := ist.pc + 1 } := by
          rw [interpStep]
          simp only [hln, hlook]
        rw [hstep] at hnext
        have hchk' : checkedRun p f { ist with
            output := ist.output ++ [getVar ist.vars v],
            pc := ist.pc + 1 } = true := hnext
        have hexec : vmExec vst ((WRITE : Nat) : Int) a = .ok { vst with
            output := vst.output ++ [vst.memory.getD a 0],
            instructionCounter := vst.instructionCounter + 1 } :=
          vmExec_write vst a
        have hvmstep : ∀ vf2, vmRun (vf2 + 1) vst = vmRun vf2 { vst with
            output := vst.output ++ [vst.memory.getD a 0],
            instructionCounter := vst.instructionCounter + 1 } :=
          fun vf2 => vmRun_step_word vst (by rw [hlen, hic]; omega) WRITE a
            (by omega) hcell (by decide) _ hexec vf2
        obtain ⟨vf, outF, hvm, hint⟩ := ih
          { ist with
            output := ist.output ++ [getVar ist.vars v],
            pc := ist.pc + 1 }
          { vst with
            output := vst.output ++ [vst.memory.getD a 0],
            instructionCounter := vst.instructionCounter + 1 }
          ⟨hlen, hinp, by
            show vst.output ++ [vst.memory.getD a 0] =
              ist.output ++ [getVar ist.vars v]
            rw [hout, hvars v a hlk hvnc], hcode, hvars, hconsts⟩
          (by
            show vst.instructionCounter + 1 = offsetOf segs (ist.pc + 1)
            rw [hic, hoffnext])
          hchk'
        refine ⟨vf + 1, outF, ?_, ?_⟩
        · rw [hvmstep vf]
          exact hvm
        · rw [interpRun]
          simp only [hstep]
          exact hint
      | letStmt v e =>
        rw [hst] at hlook hgenpc hrest
        simp only [stmtRestricted] at hrest
        obtain ⟨hvok, hertm⟩ := Bool.and_eq_true_iff.mp hrest
        have hvnc : isConstStr v = false := by
          rw [varNameOk, Bool.not_eq_true'] at hvok
          exact hvok
        have hvmem : v ∈ programSymbols p :=
          discover_mem_programSymbols p
            (show (ln, Stmt.letStmt v e) ∈ p.lines by
              rw [← hlneq, ← hst]; exact hmemL)
            (List.mem_cons_self v _)
        obtain ⟨av, hlkv, havge, havup⟩ := symbolTable_lookup_of_mem
          (programSymbols p) segs.flatten.length (programSymbols_nodup p)
          hvmem
        cases e with
        | num k =>
          have hleaf : leafVarOk (Expr.num k) = true := rfl
          have hes : getOperandSymbol (Expr.num k) = .ok (constSym k) := rfl
          have hesmem : constSym k ∈ programSymbols p :=
            discover_mem_programSymbols p
              (show (ln, Stmt.letStmt v (Expr.num k)) ∈ p.lines by
                rw [← hlneq, ← hst]; exact hmemL)
              (by
                show constSym k ∈ v :: discoverExpr (Expr.num k)
                exact List.mem_cons_of_mem _ (List.mem_singleton_self _))
          have hseg : segs.getD ist.pc [] =
              [(LOAD, SymOperand.sym (constSym k)), (STORE, SymOperand.sym v)] := by
            rw [genStmt_let_leaf _ _ _ _ hleaf hes] at hgenpc
            injection hgenpc with h'
            exact h'.symm
          have hev : evalExpr ist.vars (Expr.num k) = .ok k := rfl
          have hstep : interpStep p ist = .next { ist with
              vars := setVar ist.vars v k,
              pc := ist.pc + 1 } := by
            rw [interpStep]
            simp only [hln, hlook, hev]
          rw [hstep] at hnext
          have hchk' : checkedRun p f { ist with
              vars := setVar ist.vars v k,
              pc := ist.pc + 1 } = true := hnext
          obtain ⟨vst', hvsteps, hrel', hic'⟩ := sim_let_leaf p segs locs
            image himgcode himgdata htotal ist vst
            ⟨hlen, hinp, hout, hcode, hvars, hconsts⟩ hic hpcS v (constSym k)
            (Expr.num k) hleaf hes hseg hesmem hvmem hvnc k hev
          obtain ⟨vf, outF, hvm, hint⟩ := ih _ vst' hrel' hic' hchk'
          refine ⟨vf + 2, outF, ?_, ?_⟩
          · rw [hvsteps vf]
            exact hvm
          · rw [interpRun]
            simp only [hstep]
            exact hint
        | var n =>
          have hleaf : leafVarOk (Expr.var n) = true := hertm
          have hes : getOperandSymbol (Expr.var n) = .ok n := rfl
          have hesmem : n ∈ programSymbols p :=
            discover_mem_programSymbols p
              (show (ln, Stmt.letStmt v (Expr.var n)) ∈ p.lines by
                rw [← hlneq, ← hst]; exact hmemL)
              (by
                show n ∈ v :: discoverExpr (Expr.var n)
                exact List.mem_cons_of_mem _ (List.mem_singleton_self _))
          have hseg : segs.getD ist.pc [] =
              [(LOAD, SymOperand.sym n), (STORE, SymOperand.sym v)] := by
            rw [genStmt_let_leaf _ _ _ _ hleaf hes] at hgenpc
            injection hgenpc with h'
            exact h'.symm
          have hev : evalExpr ist.vars (Expr.var n) =
              .ok (getVar ist.vars n) := rfl
          have hstep : interpStep p ist = .next { ist with
              vars := setVar ist.vars v (getVar ist.vars n),
              pc := ist.pc + 1 } := by
            rw [interpStep]
            simp only [hln, hlook, hev]
          rw [hstep] at hnext
          have hchk' : checkedRun p f { ist with
              vars := setVar ist.vars v (getVar ist.vars n),
              pc := ist.pc + 1 } = true := hnext
          obtain ⟨vst', hvsteps, hrel', hic'⟩ := sim_let_leaf p segs locs
            image himgcode himgdata htotal ist vst
            ⟨hlen, hinp, hout, hcode, hvars, hconsts⟩ hic hpcS v n
            (Expr.var n) hleaf hes hseg hesmem hvmem hvnc
            (getVar ist.vars n) hev
          obtain ⟨vf, outF, hvm, hint⟩ := ih _ vst' hrel' hic' hchk'
          refine ⟨vf + 2, outF, ?_, ?_⟩
          · rw [hvsteps vf]
            exact hvm
          · rw [interpRun]
            simp only [hstep]
            exact hint
        | binop l op r =>
          obtain ⟨hlr, hops⟩ := Bool.and_eq_true_iff.mp hertm
          obtain ⟨hll, hrr⟩ := Bool.and_eq_true_iff.mp hlr
          have hop4 : op = "+" ∨ op = "-" ∨ op = "*" ∨ op = "/" := by
            simp only [Bool.or_eq_true, decide_eq_true_eq] at hops
            tauto
          obtain ⟨ls, hls, hlsmem0⟩ := getOperandSymbol_leaf l hll
          obtain ⟨rs, hrs, hrsmem0⟩ := getOperandSymbol_leaf r hrr
          have hlsmem : ls ∈ programSymbols p :=
            discover_mem_programSymbols p
              (show (ln, Stmt.letStmt v (Expr.binop l op r)) ∈ p.lines by
                rw [← hlneq, ← hst]; exact hmemL)
              (by
                show ls ∈ v :: discoverExpr (Expr.binop l op r)
                exact List.mem_cons_of_mem _
                  (List.mem_append.mpr (Or.inl hlsmem0)))
          have hrsmem : rs ∈ programSymbols p :=
            discover_mem_programSymbols p
              (show (ln, Stmt.letStmt v (Expr.binop l op r)) ∈ p.lines by
                rw [← hlneq, ← hst]; exact hmemL)
              (by
                show rs ∈ v :: discoverExpr (Expr.binop l op r)
                exact List.mem_cons_of_mem _
                  (List.mem_append.mpr (Or.inr hrsmem0)))
          obtain ⟨als, hlkls, halsge, halsup⟩ := symbolTable_lookup_of_mem
            (programSymbols p) segs.flatten.length (programSymbols_nodup p)
            hlsmem
          obtain ⟨ars, hlkrs, harsge, harsup⟩ := symbolTable_lookup_of_mem
            (programSymbols p) segs.flatten.length (programSymbols_nodup p)
            hrsmem
          cases hev : evalExpr ist.vars (Expr.binop l op r) with
          | error er =>
            have hstep : interpStep p ist = .fail er := by
              rw [interpStep]
              simp only [hln, hlook, hev]
            rw [hstep] at hnext
            exact Bool.noConfusion hnext
          | ok val =>
            obtain ⟨lv, rv, hlv, hrv, hplus, hminus, hmul, hdiv⟩ :=
              evalExpr_binop_ok ist.vars l op r val hll hrr hev
            have hkey : ∃ opc, opMap op = .ok opc ∧
                ((opc = ADD ∧ val = lv + rv) ∨
                 (opc = SUBTRACT ∧ val = lv - rv) ∨
                 (opc = MULTIPLY ∧ val = lv * rv) ∨
                 (opc = DIVIDE ∧ rv ≠ 0 ∧ val = Int.fdiv lv rv)) ∧
                (¬(val < -9999 ∨ 9999 < val) ∨ opc = DIVIDE) := by
              rcases hop4 with hop | hop | hop | hop
              · subst hop
                refine ⟨ADD, rfl, Or.inl ⟨rfl, hplus rfl⟩, Or.inl ?_⟩
                have hsbv : stepBounded p ist = boundedVal val := by
                  rw [stepBounded]
                  simp only [hln, hlook, hev]
                  rw [if_pos (Or.inl trivial)]
                have hb := boundedVal_spec val (by rw [← hsbv]; exact hsb)
                omega
              · subst hop
                refine ⟨SUBTRACT, rfl, Or.inr (Or.inl ⟨rfl, hminus rfl⟩),
                  Or.inl ?_⟩
                have hsbv : stepBounded p ist = boundedVal val := by
                  rw [stepBounded]
                  simp only [hln, hlook, hev]
                  rw [if_pos (Or.inr (Or.inl trivial))]
                have hb := boundedVal_spec val (by rw [← hsbv]; exact hsb)
                omega
              · subst hop
                refine ⟨MULTIPLY, rfl, Or.inr (Or.inr (Or.inl ⟨rfl, hmul rfl⟩)),
                  Or.inl ?_⟩
                have hsbv : stepBounded p ist = boundedVal val := by
                  rw [stepBounded]
                  simp only [hln, hlook, hev]
                  rw [if_pos (Or.inr (Or.inr trivial))]
                have hb := boundedVal_spec val (by rw [← hsbv]; exact hsb)
                omega
              · subst hop
                exact ⟨DIVIDE, rfl, Or.inr (Or.inr (Or.inr
                  ⟨rfl, (hdiv rfl).1, (hdiv rfl).2⟩)), Or.inr rfl⟩
            obtain ⟨opc, hopc, hspec0, hbound0⟩ := hkey
            have hseg : segs.getD ist.pc [] =
                [(LOAD, SymOperand.sym ls), (opc, SymOperand.sym rs),
                 (STORE, SymOperand.sym v)] := by
              rw [genStmt_let_binop _ _ _ _ _ _ _ hls hrs _ hopc] at hgenpc
              injection hgenpc with h'
              exact h'.symm
            have hoffnext : offsetOf segs (ist.pc + 1) =
                offsetOf segs ist.pc + 3 :=
              offsetOf_next segs ist.pc hpcS 3 (by rw [hseg]; rfl)
            have hlt2 : offsetOf segs ist.pc + 2 < segs.flatten.length := by
              have := offsetOf_le_flatten segs (ist.pc + 1)
              omega
            have hlsval : vst.memory.getD als 0 = lv :=
              leaf_value (programSymbols p) segs.flatten.length image himgdata
                ist vst ⟨hlen, hinp, hout, hcode, hvars, hconsts⟩ l hll ls hls
                als hlkls lv hlv
            have hrsval : vst.memory.getD ars 0 = rv :=
              leaf_value (programSymbols p) segs.flatten.length image himgdata
                ist vst ⟨hlen, hinp, hout, hcode, hvars, hconsts⟩ r hrr rs hrs
                ars hlkrs rv hrv
            have hw0 : segs.flatten.getD (offsetOf segs ist.pc)
                (0, SymOperand.num 0) = (LOAD, SymOperand.sym ls) := by
              have h1 := flatten_getD segs ist.pc 0 hpcS
                (by rw [hseg]; exact Nat.succ_pos _) (0, SymOperand.num 0)
              rw [Nat.add_zero, hseg] at h1
              exact h1
            have hw1 : segs.flatten.getD (offsetOf segs ist.pc + 1)
                (0, SymOperand.num 0) = (opc, SymOperand.sym rs) := by
              have h1 := flatten_getD segs ist.pc 1 hpcS
                (by rw [hseg]; simp) (0, SymOperand.num 0)
              rw [hseg] at h1
              exact h1
            have hw2 : segs.flatten.getD (offsetOf segs ist.pc + 2)
                (0, SymOperand.num 0) = (STORE, SymOperand.sym v) := by
              have h1 := flatten_getD segs ist.pc 2 hpcS
                (by rw [hseg]; simp) (0, SymOperand.num 0)
              rw [hseg] at h1
              exact h1
            have hspec1 :
                (opc = ADD ∧ val = vst.memory.getD als 0 +
                  vst.memory.getD ars 0) ∨
                (opc = SUBTRACT ∧ val = vst.memory.getD als 0 -
                  vst.memory.getD ars 0) ∨
                (opc = MULTIPLY ∧ val = vst.memory.getD als 0 *
                  vst.memory.getD ars 0) ∨
                (opc = DIVIDE ∧ vst.memory.getD ars 0 ≠ 0 ∧
                  val = Int.fdiv (vst.memory.getD als 0)
                    (vst.memory.getD ars 0)) := by
              rw [hlsval, hrsval]
              exact hspec0
            have h2steps := sim_load_arith p segs locs image himgcode hcs100
              vst hlen hcode ls rs als ars hlkls hlkrs (by omega) (by omega)
              opc (by rw [hic]; exact hw0) (by rw [hic]; exact hw1)
              (by rw [hic]; omega) val hspec1 hbound0
            have hcell2 : vst.memory.getD (vst.instructionCounter + 2) 0 =
                ((STORE * 100 + av : Nat) : Int) := by
              rw [hic]
              exact cell_value p segs locs image himgcode vst hcode _ hlt2
                _ _ _ hw2 hlkv
            have hstep3 : ∀ vf2, vmRun (vf2 + 1) { vst with
                accumulator := val,
                instructionCounter := vst.instructionCounter + 2 } =
                vmRun vf2 { vst with
                  memory := vst.memory.set av val,
                  accumulator := val,
                  instructionCounter := vst.instructionCounter + 3 } :=
              fun vf2 => vmRun_step_word { vst with
                  accumulator := val,
                  instructionCounter := vst.instructionCounter + 2 }
                (by
                  show vst.instructionCounter + 2 < vst.memory.length
                  rw [hlen, hic]
                  omega)
                STORE av (by omega) hcell2 (by decide) _
                (vmExec_store { vst with
                  accumulator := val,
                  instructionCounter := vst.instructionCounter + 2 } av) vf2
            have hstep : interpStep p ist = .next { ist with
                vars := setVar ist.vars v val,
                pc := ist.pc + 1 } := by
              rw [interpStep]
              simp only [hln, hlook, hev]
            rw [hstep] at hnext
            have hchk' : checkedRun p f { ist with
                vars := setVar ist.vars v val,
                pc := ist.pc + 1 } = true := hnext
            obtain ⟨hpcode, hpvars, hpconsts⟩ := Rel_preserve_set
              (programSymbols p) segs.flatten.length image
              (programSymbols_nodup p) vst.memory ist.vars hlen hcode hvars
              hconsts v av val hlkv hvnc havge (by omega)
            obtain ⟨vf, outF, hvm, hint⟩ := ih
              { ist with
                vars := setVar ist.vars v val,
                pc := ist.pc + 1 }
              { vst with
                memory := vst.memory.set av val,
                accumulator := val,
                instructionCounter := vst.instructionCounter + 3 }
              ⟨by rw [List.length_set]; exact hlen, hinp, hout, hpcode,
                hpvars, hpconsts⟩
              (by
                show vst.instructionCounter + 3 = offsetOf segs (ist.pc + 1)
                rw [hic, hoffnext])
              hchk'
            refine ⟨vf + 3, outF, ?_, ?_⟩
            · have e1 : vmRun (vf + 3) vst = vmRun (vf + 1) { vst with
                  accumulator := val,
                  instructionCounter := vst.instructionCounter + 2 } :=
                h2steps (vf + 1)
              rw [e1, hstep3 vf]
              exact hvm
            · rw [interpRun]
              simp only [hstep]
              exact hint
      | goto t =>
        rw [hst] at hlook hgenpc
        have hseg : segs.getD ist.pc [] = [(BRANCH, SymOperand.num t)] := by
          simp only [genStmt, Except.ok.injEq] at hgenpc
          exact hgenpc.symm
        have hoffnext : offsetOf segs (ist.pc + 1) = offsetOf segs ist.pc + 1 :=
          offsetOf_next segs ist.pc hpcS 1 (by rw [hseg]; rfl)
        have hofflt : offsetOf segs ist.pc < segs.flatten.length := by
          have := offsetOf_le_flatten segs (ist.pc + 1)
          omega
        have hw0 : segs.flatten.getD (offsetOf segs ist.pc)
            (0, SymOperand.num 0) = (BRANCH, SymOperand.num t) := by
          have h1 := flatten_getD segs ist.pc 0 hpcS
            (by rw [hseg]; exact Nat.succ_pos _) (0, SymOperand.num 0)
          rw [Nat.add_zero, hseg] at h1
          exact h1
        by_cases ht : t ∈ lineNumbers p
        · have hstep : interpStep p ist = .next { ist with
              pc := (lineNumbers p).indexOf t } := by
            rw [interpStep]
            simp only [hln, hlook]
            rw [if_pos ht]
          rw [hstep] at hnext
          have hchk' : checkedRun p f { ist with
              pc := (lineNumbers p).indexOf t } = true := hnext
          have hlkt : locs.lookup t =
              some (offsetOf segs ((lineNumbers p).indexOf t)) :=
            locs_lookup_indexOf p segs locs hlocs t ht
          by_cases htgt : offsetOf segs ((lineNumbers p).indexOf t) ≤ 99
          · have himg0 : image.getD (offsetOf segs ist.pc) 0 =
                ((BRANCH * 100 +
                  offsetOf segs ((lineNumbers p).indexOf t) : Nat) : Int) := by
              obtain ⟨tgt, hlkt2, himgw⟩ := branch_word p segs locs image
                himgcode BRANCH (Or.inl rfl) _ hofflt t hw0
              rw [hlkt] at hlkt2
              injection hlkt2 with htg
              rw [himgw, ← htg]
            have hcell : vst.memory.getD vst.instructionCounter 0 =
                ((BRANCH * 100 +
                  offsetOf segs ((lineNumbers p).indexOf t) : Nat) : Int) := by
              rw [hic, hcode _ hofflt, himg0]
            have hvmstep : ∀ vf2, vmRun (vf2 + 1) vst = vmRun vf2 { vst with
                instructionCounter :=
                  offsetOf segs ((lineNumbers p).indexOf t) } :=
              fun vf2 => vmRun_step_word vst (by rw [hlen, hic]; omega) BRANCH
                _ htgt hcell (by decide) _ (vmExec_branch vst _) vf2
            obtain ⟨vf, outF, hvm, hint⟩ := ih
              { ist with pc := (lineNumbers p).indexOf t }
              { vst with instructionCounter :=
                  offsetOf segs ((lineNumbers p).indexOf t) }
              ⟨hlen, hinp, hout, hcode, hvars, hconsts⟩
              rfl
              hchk'
            refine ⟨vf + 1, outF, ?_, ?_⟩
            · rw [hvmstep vf]
              exact hvm
            · rw [interpRun]
              simp only [hstep]
              exact hint
          · have hidxlt : (lineNumbers p).indexOf t <
                (sortLines p.lines).length := by
              have h1 := List.indexOf_lt_length.mpr ht
              have hlenK : (lineNumbers p).length =
                  (sortLines p.lines).length := by
                rw [lineNumbers_eq_keys_sortLines, List.length_map]
              rw [hlenK] at h1
              exact h1
            have htgtfl : offsetOf segs ((lineNumbers p).indexOf t) =
                segs.flatten.length := by
              have h1 := offsetOf_le_flatten segs ((lineNumbers p).indexOf t)
              omega
            have hremtail : ∀ j, (lineNumbers p).indexOf t ≤ j →
                j < (sortLines p.lines).length →
                ((sortLines p.lines).getD j (0, Stmt.rem)).2 = .rem := by
              intro j hj hjl
              have hjS : j < segs.length := by rw [hsegslen]; exact hjl
              have hmono1 := offsetOf_mono segs hj
              have hle1 := offsetOf_le_flatten segs j
              have hmono2 := offsetOf_mono segs (Nat.le_succ j)
              have hle2 := offsetOf_le_flatten segs (j + 1)
              have hsucc := offsetOf_succ segs j hjS
              have hlen0 : (segs.getD j []).length = 0 := by omega
              have hsegnil : segs.getD j [] = [] :=
                List.length_eq_zero.mp hlen0
              have h2 := hgen j hjl
              rw [hsegnil] at h2
              exact genStmt_nil _ _ h2
            have hfalse := remTail_not_checked p hlinesnd f
              { ist with pc := (lineNumbers p).indexOf t } hremtail
            rw [hchk'] at hfalse
            exact Bool.noConfusion hfalse
        · have hstep : interpStep p ist = .fail (.gotoMissing t ln) := by
            rw [interpStep]
            simp only [hln, hlook]
            rw [if_neg ht]
          rw [hstep] at hnext
          exact Bool.noConfusion hnext
      | ifGoto l op r t =>
        rw [hst] at hlook hgenpc hrest
        simp only [stmtRestricted] at hrest
        obtain ⟨hlr, hops⟩ := Bool.and_eq_true_iff.mp hrest
        obtain ⟨hll, hrr⟩ := Bool.and_eq_true_iff.mp hlr
        have hop3 : op = "==" ∨ op = "<" ∨ op = ">" := by
          simp only [Bool.or_eq_true, decide_eq_true_eq] at hops
          tauto
        obtain ⟨ls, hls, hlsmem0⟩ := getOperandSymbol_leaf l hll
        obtain ⟨rs, hrs, hrsmem0⟩ := getOperandSymbol_leaf r hrr
        have hlsmem : ls ∈ programSymbols p :=
          discover_mem_programSymbols p
            (show (ln, Stmt.ifGoto l op r t) ∈ p.lines by
              rw [← hlneq, ← hst]; exact hmemL)
            (by
              show ls ∈ discoverExpr l ++ discoverExpr r
              exact List.mem_append.mpr (Or.inl hlsmem0))
        have hrsmem : rs ∈ programSymbols p :=
          discover_mem_programSymbols p
            (show (ln, Stmt.ifGoto l op r t) ∈ p.lines by
              rw [← hlneq, ← hst]; exact hmemL)
            (by
              show rs ∈ discoverExpr l ++ discoverExpr r
              exact List.mem_append.mpr (Or.inr hrsmem0))
        obtain ⟨als, hlkls, halsge, halsup⟩ := symbolTable_lookup_of_mem
          (programSymbols p) segs.flatten.length (programSymbols_nodup p)
          hlsmem
        obtain ⟨ars, hlkrs, harsge, harsup⟩ := symbolTable_lookup_of_mem
          (programSymbols p) segs.flatten.length (programSymbols_nodup p)
          hrsmem
        have hnsym : 0 < (programSymbols p).length :=
          List.length_pos_of_mem hlsmem
        have hcs99 : segs.flatten.length ≤ 99 := by omega
        cases hcond : evalCond ist.vars l op r with
        | error er =>
          have hstep : interpStep p ist = .fail er := by
            rw [interpStep]
            simp only [hln, hlook, hcond]
          rw [hstep] at hnext
          exact Bool.noConfusion hnext
        | ok b =>
          obtain ⟨lv, rv, hlv, hrv, heqd, hltd, hgtd⟩ :=
            evalCond_ok3 ist.vars l op r b hll hrr hcond
          have hlsval : vst.memory.getD als 0 = lv :=
            leaf_value (programSymbols p) segs.flatten.length image himgdata
              ist vst ⟨hlen, hinp, hout, hcode, hvars, hconsts⟩ l hll ls hls
              als hlkls lv hlv
          have hrsval : vst.memory.getD ars 0 = rv :=
            leaf_value (programSymbols p) segs.flatten.length image himgdata
              ist vst ⟨hlen, hinp, hout, hcode, hvars, hconsts⟩ r hrr rs hrs
              ars hlkrs rv hrv
          rcases hop3 with hop | hop | hop
          · -- op = "=="
            subst hop
            have hseg : segs.getD ist.pc [] =
                [(LOAD, SymOperand.sym ls), (SUBTRACT, SymOperand.sym rs),
                 (BRANCHZERO, SymOperand.num t)] := by
              have hgs : genStmt (offsetOf segs ist.pc)
                  (Stmt.ifGoto l "==" r t) = .ok [(LOAD, .sym ls),
                    (SUBTRACT, .sym rs), (BRANCHZERO, .num t)] := by
                simp only [genStmt, bind, Except.bind, hls, hrs]
                rw [if_pos trivial]
              rw [hgs] at hgenpc
              injection hgenpc with h'
              exact h'.symm
            have hoffnext : offsetOf segs (ist.pc + 1) =
                offsetOf segs ist.pc + 3 :=
              offsetOf_next segs ist.pc hpcS 3 (by rw [hseg]; rfl)
            have hlt2 : offsetOf segs ist.pc + 2 < segs.flatten.length := by
              have := offsetOf_le_flatten segs (ist.pc + 1)
              omega
            have hw0 : segs.flatten.getD (offsetOf segs ist.pc)
                (0, SymOperand.num 0) = (LOAD, SymOperand.sym ls) := by
              have h1 := flatten_getD segs ist.pc 0 hpcS
                (by rw [hseg]; exact Nat.succ_pos _) (0, SymOperand.num 0)
              rw [Nat.add_zero, hseg] at h1
              exact h1
            have hw1 : segs.flatten.getD (offsetOf segs ist.pc + 1)
                (0, SymOperand.num 0) = (SUBTRACT, SymOperand.sym rs) := by
              have h1 := flatten_getD segs ist.pc 1 hpcS
                (by rw [hseg]; simp) (0, SymOperand.num 0)
              rw [hseg] at h1
              exact h1
            have hw2 : segs.flatten.getD (offsetOf segs ist.pc + 2)
                (0, SymOperand.num 0) = (BRANCHZERO, SymOperand.num t) := by
              have h1 := flatten_getD segs ist.pc 2 hpcS
                (by rw [hseg]; simp) (0, SymOperand.num 0)
              rw [hseg] at h1
              exact h1
            have hsbv : stepBounded p ist = boundedVal (lv - rv) := by
              rw [stepBounded]
              simp only [hln, hlook, hlv, hrv]
              rw [if_neg (by decide)]
            have hdb := boundedVal_spec _ (by rw [← hsbv]; exact hsb)
            obtain ⟨tgt, hlkt2, htgtle, h3steps⟩ := sim_branch3 p segs locs
              image himgcode hlocsrange hcs99 vst hlen hcode ls rs als ars
              hlkls hlkrs (by omega) (by omega) BRANCHZERO (Or.inr rfl) t
              (by rw [hic]; exact hw0) (by rw [hic]; exact hw1)
              (by rw [hic]; exact hw2) (by rw [hic]; omega) lv rv hlsval
              hrsval (by omega)
            by_cases hcmp : lv = rv
            · have hb : b = true := by
                rw [heqd rfl]
                exact decide_eq_true hcmp
              subst hb
              by_cases ht : t ∈ lineNumbers p
              · have hstep : interpStep p ist = .next { ist with
                    pc := (lineNumbers p).indexOf t } := by
                  rw [interpStep]
                  simp only [hln, hlook, hcond]
                  rw [if_pos trivial, if_pos ht]
                rw [hstep] at hnext
                have hchk' : checkedRun p f { ist with
                    pc := (lineNumbers p).indexOf t } = true := hnext
                have hlkt : locs.lookup t =
                    some (offsetOf segs ((lineNumbers p).indexOf t)) :=
                  locs_lookup_indexOf p segs locs hlocs t ht
                have htgteq : tgt =
                    offsetOf segs ((lineNumbers p).indexOf t) := by
                  rw [hlkt] at hlkt2
                  injection hlkt2 with h'
                  exact h'.symm
                obtain ⟨vf, outF, hvm, hint⟩ := ih
                  { ist with pc := (lineNumbers p).indexOf t }
                  { vst with
                    accumulator := lv - rv,
                    instructionCounter := tgt }
                  ⟨hlen, hinp, hout, hcode, hvars, hconsts⟩
                  (by
                    show tgt = offsetOf segs ((lineNumbers p).indexOf t)
                    exact htgteq)
                  hchk'
                refine ⟨vf + 3, outF, ?_, ?_⟩
                · rw [h3steps vf, if_pos (Or.inl ⟨rfl, by omega⟩)]
                  exact hvm
                · rw [interpRun]
                  simp only [hstep]
                  exact hint
              · have hstep : interpStep p ist =
                    .fail (.ifGotoMissing t ln) := by
                  rw [interpStep]
                  simp only [hln, hlook, hcond]
                  rw [if_pos trivial, if_neg ht]
                rw [hstep] at hnext
                exact Bool.noConfusion hnext
            · have hb : b = false := by
                rw [heqd rfl]
                exact decide_eq_false hcmp
              subst hb
              have hstep : interpStep p ist = .next { ist with
                  pc := ist.pc + 1 } := by
                rw [interpStep]
                simp only [hln, hlook, hcond]
                rw [if_neg (by decide)]
              rw [hstep] at hnext
              have hchk' : checkedRun p f { ist with pc := ist.pc + 1 } =
                  true := hnext
              obtain ⟨vf, outF, hvm, hint⟩ := ih
                { ist with pc := ist.pc + 1 }
                { vst with
                  accumulator := lv - rv,
                  instructionCounter := vst.instructionCounter + 3 }
                ⟨hlen, hinp, hout, hcode, hvars, hconsts⟩
                (by
                  show vst.instructionCounter + 3 = offsetOf segs (ist.pc + 1)
                  rw [hic, hoffnext])
                hchk'
              refine ⟨vf + 3, outF, ?_, ?_⟩
              · rw [h3steps vf, if_neg (by
                  intro hcon
                  rcases hcon with ⟨-, h0⟩ | ⟨habs, -⟩
                  · exact hcmp (by omega)
                  · exact absurd habs (by decide))]
                exact hvm
              · rw [interpRun]
                simp only [hstep]
                exact hint
          · -- op = "<"
            subst hop
            have hseg : segs.getD ist.pc [] =
                [(LOAD, SymOperand.sym ls), (SUBTRACT, SymOperand.sym rs),
                 (BRANCHNEG, SymOperand.num t)] := by
              have hgs : genStmt (offsetOf segs ist.pc)
                  (Stmt.ifGoto l "<" r t) = .ok [(LOAD, .sym ls),
                    (SUBTRACT, .sym rs), (BRANCHNEG, .num t)] := by
                simp only [genStmt, bind, Except.bind, hls, hrs]
                rw [if_neg (by decide), if_pos trivial]
              rw [hgs] at hgenpc
              injection hgenpc with h'
              exact h'.symm
            have hoffnext : offsetOf segs (ist.pc + 1) =
                offsetOf segs ist.pc + 3 :=
              offsetOf_next segs ist.pc hpcS 3 (by rw [hseg]; rfl)
            have hlt2 : offsetOf segs ist.pc + 2 < segs.flatten.length := by
              have := offsetOf_le_flatten segs (ist.pc + 1)
              omega
            have hw0 : segs.flatten.getD (offsetOf segs ist.pc)
                (0, SymOperand.num 0) = (LOAD, SymOperand.sym ls) := by
              have h1 := flatten_getD segs ist.pc 0 hpcS
                (by rw [hseg]; exact Nat.succ_pos _) (0, SymOperand.num 0)
              rw [Nat.add_zero, hseg] at h1
              exact h1
            have hw1 : segs.flatten.getD (offsetOf segs ist.pc + 1)
                (0, SymOperand.num 0) = (SUBTRACT, SymOperand.sym rs) := by
              have h1 := flatten_getD segs ist.pc 1 hpcS
                (by rw [hseg]; simp) (0, SymOperand.num 0)
              rw [hseg] at h1
              exact h1
            have hw2 : segs.flatten.getD (offsetOf segs ist.pc + 2)
                (0, SymOperand.num 0) = (BRANCHNEG, SymOperand.num t) := by
              have h1 := flatten_getD segs ist.pc 2 hpcS
                (by rw [hseg]; simp) (0, SymOperand.num 0)
              rw [hseg] at h1
              exact h1
            have hsbv : stepBounded p ist = boundedVal (lv - rv) := by
              rw [stepBounded]
              simp only [hln, hlook, hlv, hrv]
              rw [if_neg (by decide)]
            have hdb := boundedVal_spec _ (by rw [← hsbv]; exact hsb)
            obtain ⟨tgt, hlkt2, htgtle, h3steps⟩ := sim_branch3 p segs locs
              image himgcode hlocsrange hcs99 vst hlen hcode ls rs als ars
              hlkls hlkrs (by omega) (by omega) BRANCHNEG (Or.inl rfl) t
              (by rw [hic]; exact hw0) (by rw [hic]; exact hw1)
              (by rw [hic]; exact hw2) (by rw [hic]; omega) lv rv hlsval
              hrsval (by omega)
            by_cases hcmp : lv < rv
            · have hb : b = true := by
                rw [hltd rfl]
                exact decide_eq_true hcmp
              subst hb
              by_cases ht : t ∈ lineNumbers p
              · have hstep : interpStep p ist = .next { ist with
                    pc := (lineNumbers p).indexOf t } := by
                  rw [interpStep]
                  simp only [hln, hlook, hcond]
                  rw [if_pos trivial, if_pos ht]
                rw [hstep] at hnext
                have hchk' : checkedRun p f { ist with
                    pc := (lineNumbers p).indexOf t } = true := hnext
                have hlkt : locs.lookup t =
                    some (offsetOf segs ((lineNumbers p).indexOf t)) :=
                  locs_lookup_indexOf p segs locs hlocs t ht
                have htgteq : tgt =
                    offsetOf segs ((lineNumbers p).indexOf t) := by
                  rw [hlkt] at hlkt2
                  injection hlkt2 with h'
                  exact h'.symm
                obtain ⟨vf, outF, hvm, hint⟩ := ih
                  { ist with pc := (lineNumbers p).indexOf t }
                  { vst with
                    accumulator := lv - rv,
                    instructionCounter := tgt }
                  ⟨hlen, hinp, hout, hcode, hvars, hconsts⟩
                  (by
                    show tgt = offsetOf segs ((lineNumbers p).indexOf t)
                    exact htgteq)
                  hchk'
                refine ⟨vf + 3, outF, ?_, ?_⟩
                · rw [h3steps vf, if_pos (Or.inr ⟨rfl, by omega⟩)]
                  exact hvm
                · rw [interpRun]
                  simp only [hstep]
                  exact hint
              · have hstep : interpStep p ist =
                    .fail (.ifGotoMissing t ln) := by
                  rw [interpStep]
                  simp only [hln, hlook, hcond]
                  rw [if_pos trivial, if_neg ht]
                rw [hstep] at hnext
                exact Bool.noConfusion hnext
            · have hb : b = false := by
                rw [hltd rfl]
                exact decide_eq_false hcmp
              subst hb
              have hstep : interpStep p ist = .next { ist with
                  pc := ist.pc + 1 } := by
                rw [interpStep]
                simp only [hln, hlook, hcond]
                rw [if_neg (by decide)]
              rw [hstep] at hnext
              have hchk' : checkedRun p f { ist with pc := ist.pc + 1 } =
                  true := hnext
              obtain ⟨vf, outF, hvm, hint⟩ := ih
                { ist with pc := ist.pc + 1 }
                { vst with
                  accumulator := lv - rv,
                  instructionCounter := vst.instructionCounter + 3 }
                ⟨hlen, hinp, hout, hcode, hvars, hconsts⟩
                (by
                  show vst.instructionCounter + 3 = offsetOf segs (ist.pc + 1)
                  rw [hic, hoffnext])
                hchk'
              refine ⟨vf + 3, outF, ?_, ?_⟩
              · rw [h3steps vf, if_neg (by
                  intro hcon
                  rcases hcon with ⟨habs, -⟩ | ⟨-, hneg⟩
                  · exact absurd habs (by decide)
                  · exact hcmp (by omega))]
                exact hvm
              · rw [interpRun]
                simp only [hstep]
                exact hint
          · -- op = ">"
            subst hop
            have hseg : segs.getD ist.pc [] =
                [(LOAD, SymOperand.sym rs), (SUBTRACT, SymOperand.sym ls),
                 (BRANCHNEG, SymOperand.num t)] := by
              have hgs : genStmt (offsetOf segs ist.pc)
                  (Stmt.ifGoto l ">" r t) = .ok [(LOAD, .sym rs),
                    (SUBTRACT, .sym ls), (BRANCHNEG, .num t)] := by
                simp only [genStmt, bind, Except.bind, hls, hrs]
                rw [if_neg (by decide), if_neg (by decide), if_pos trivial]
              rw [hgs] at hgenpc
              injection hgenpc with h'
              exact h'.symm
            have hoffnext : offsetOf segs (ist.pc + 1) =
                offsetOf segs ist.pc + 3 :=
              offsetOf_next segs ist.pc hpcS 3 (by rw [hseg]; rfl)
            have hlt2 : offsetOf segs ist.pc + 2 < segs.flatten.length := by
              have := offsetOf_le_flatten segs (ist.pc + 1)
              omega
            have hw0 : segs.flatten.getD (offsetOf segs ist.pc)
                (0, SymOperand.num 0) = (LOAD, SymOperand.sym rs) := by
              have h1 := flatten_getD segs ist.pc 0 hpcS
                (by rw [hseg]; exact Nat.succ_pos _) (0, SymOperand.num 0)
              rw [Nat.add_zero, hseg] at h1
              exact h1
            have hw1 : segs.flatten.getD (offsetOf segs ist.pc + 1)
                (0, SymOperand.num 0) = (SUBTRACT, SymOperand.sym ls) := by
              have h1 := flatten_getD segs ist.pc 1 hpcS
                (by rw [hseg]; simp) (0, SymOperand.num 0)
              rw [hseg] at h1
              exact h1
            have hw2 : segs.flatten.getD (offsetOf segs ist.pc + 2)
                (0, SymOperand.num 0) = (BRANCHNEG, SymOperand.num t) := by
              have h1 := flatten_getD segs ist.pc 2 hpcS
                (by rw [hseg]; simp) (0, SymOperand.num 0)
              rw [hseg] at h1
              exact h1
            have hsbv : stepBounded p ist = boundedVal (rv - lv) := by
              rw [stepBounded]
              simp only [hln, hlook, hlv, hrv]
              rw [if_pos trivial]
            have hdb := boundedVal_spec _ (by rw [← hsbv]; exact hsb)
            obtain ⟨tgt, hlkt2, htgtle, h3steps⟩ := sim_branch3 p segs locs
              image himgcode hlocsrange hcs99 vst hlen hcode rs ls ars als
              hlkrs hlkls (by omega) (by omega) BRANCHNEG (Or.inl rfl) t
              (by rw [hic]; exact hw0) (by rw [hic]; exact hw1)
              (by rw [hic]; exact hw2) (by rw [hic]; omega) rv lv hrsval
              hlsval (by omega)
            by_cases hcmp : lv > rv
            · have hb : b = true := by
                rw [hgtd rfl]
                exact decide_eq_true hcmp
              subst hb
              by_cases ht : t ∈ lineNumbers p
              · have hstep : interpStep p ist = .next { ist with
                    pc := (lineNumbers p).indexOf t } := by
                  rw [interpStep]
                  simp only [hln, hlook, hcond]
                  rw [if_pos trivial, if_pos ht]
                rw [hstep] at hnext
                have hchk' : checkedRun p f { ist with
                    pc := (lineNumbers p).indexOf t } = true := hnext
                have hlkt : locs.lookup t =
                    some (offsetOf segs ((lineNumbers p).indexOf t)) :=
                  locs_lookup_indexOf p segs locs hlocs t ht
                have htgteq : tgt =
                    offsetOf segs ((lineNumbers p).indexOf t) := by
                  rw [hlkt] at hlkt2
                  injection hlkt2 with h'
                  exact h'.symm
                obtain ⟨vf, outF, hvm, hint⟩ := ih
                  { ist with pc := (lineNumbers p).indexOf t }
                  { vst with
                    accumulator := rv - lv,
                    instructionCounter := tgt }
                  ⟨hlen, hinp, hout, hcode, hvars, hconsts⟩
                  (by
                    show tgt = offsetOf segs ((lineNumbers p).indexOf t)
                    exact htgteq)
                  hchk'
                refine ⟨vf + 3, outF, ?_, ?_⟩
                · rw [h3steps vf, if_pos (Or.inr ⟨rfl, by omega⟩)]
                  exact hvm
                · rw [interpRun]
                  simp only [hstep]
                  exact hint
              · have hstep : interpStep p ist =
                    .fail (.ifGotoMissing t ln) := by
                  rw [interpStep]
                  simp only [hln, hlook, hcond]
                  rw [if_pos trivial, if_neg ht]
                rw [hstep] at hnext
                exact Bool.noConfusion hnext
            · have hb : b = false := by
                rw [hgtd rfl]
                exact decide_eq_false hcmp
              subst hb
              have hstep : interpStep p ist = .next { ist with
                  pc := ist.pc + 1 } := by
                rw [interpStep]
                simp only [hln, hlook, hcond]
                rw [if_neg (by decide)]
              rw [hstep] at hnext
              have hchk' : checkedRun p f { ist with pc := ist.pc + 1 } =
                  true := hnext
              obtain ⟨vf, outF, hvm, hint⟩ := ih
                { ist with pc := ist.pc + 1 }
                { vst with
                  accumulator := rv - lv,
                  instructionCounter := vst.instructionCounter + 3 }
                ⟨hlen, hinp, hout, hcode, hvars, hconsts⟩
                (by
                  show vst.instructionCounter + 3 = offsetOf segs (ist.pc + 1)
                  rw [hic, hoffnext])
                hchk'
              refine ⟨vf + 3, outF, ?_, ?_⟩
              · rw [h3steps vf, if_neg (by
                  intro hcon
                  rcases hcon with ⟨habs, -⟩ | ⟨-, hneg⟩
                  · exact absurd habs (by decide)
                  · exact hcmp (by omega))]
                exact hvm
              · rw [interpRun]
                simp only [hstep]
                exact hint

/-- C1 (amended): for a program of the restricted fragment (leaf operands,
arithmetic limited to `+ - * /`, comparisons limited to `== < >`,
spec-conforming variable names, no duplicate line numbers) whose interpreter
run reaches `End` within `fuel` steps while every read input, every
`+ - *` result and every compared difference stays within [-9999, 9999], a
successful compilation yields a machine image whose execution produces
exactly the interpreter's output stream for the same input stream. -/
theorem claim_C1_amended (p : Program) (inputs : List Int) (image : List Int)
    (fuel : Nat)
    (hnd : (p.lines.map Prod.fst).Nodup)
    (hres : programRestricted p = true)
    (hc : compile p = .ok image)
    (hchk : checkedRun p fuel (mkIState inputs) = true) :
    ∃ vfuel outF, vmRun vfuel (mkVM image inputs) = some (.ok outF) ∧
      interpRun p fuel (mkIState inputs) = some (.ok outF) := by
  obtain ⟨code, locs, instrs, dataCells, hemit, hdata, hinstr, himg, hmem⟩ :=
    compile_ok_parts p image hc
  obtain ⟨segs, hsegslen, hcodeeq, hlocseq, hgen0⟩ :=
    emitAll_ok (sortLines p.lines) [] [] code locs hemit
  have hcodeflat : code = segs.flatten := by
    rw [hcodeeq, List.nil_append]
  have hgen : ∀ i, i < (sortLines p.lines).length →
      genStmt (offsetOf segs i) ((sortLines p.lines).getD i (0, .rem)).2 =
        .ok (segs.getD i []) := by
    intro i hi
    have h1 := hgen0 i hi
    rw [List.length_nil, Nat.zero_add] at h1
    exact h1
  have hKnd : ((sortLines p.lines).map Prod.fst).Nodup :=
    ((List.perm_insertionSort _ p.lines).map Prod.fst).nodup_iff.mpr hnd
  have hlocs' : locs =
      (List.range (sortLines p.lines).length).map
        (fun j => (((sortLines p.lines).map Prod.fst).getD j 0,
          offsetOf segs j)) := by
    rw [hlocseq, List.nil_append]
    apply List.map_congr_left
    intro j hj
    have hj' : j < (sortLines p.lines).length := List.mem_range.mp hj
    rw [keys_getD p j hj', List.length_nil, Nat.zero_add]
  have hlocs : ∀ i, i < (sortLines p.lines).length →
      locs.lookup (((sortLines p.lines).getD i (0, .rem)).1) =
        some (offsetOf segs i) := by
    intro i hi
    have h1 := lookup_rangeMap ((sortLines p.lines).map Prod.fst)
      (fun j => offsetOf segs j) hKnd i (by simpa using hi)
    rw [List.length_map] at h1
    rw [← keys_getD p i hi, hlocs']
    exact h1
  have hlocsrange : ∀ n a, locs.lookup n = some a →
      a ≤ segs.flatten.length := by
    intro n a hla
    have hmem2 := lookup_mem hla
    rw [hlocs'] at hmem2
    obtain ⟨j, hjmem, hjeq⟩ := List.mem_map.mp hmem2
    injection hjeq with h1 h2
    rw [← h2]
    exact offsetOf_le_flatten segs j
  obtain ⟨hdlen, hdpt⟩ := exMapM_ok dataCell "" (0 : Int) (programSymbols p)
    dataCells hdata
  obtain ⟨hilen, hipt⟩ := exMapM_ok
    (resolveInstr (symbolTable code.length (programSymbols p)) locs)
    (0, SymOperand.num 0) (0 : Int) code instrs hinstr
  have htotal : segs.flatten.length + (programSymbols p).length ≤ 100 := by
    rw [← hcodeflat]
    exact hmem
  have hinstrlen : instrs.length = segs.flatten.length := by
    rw [hilen, hcodeflat]
  have himglen : image.length =
      segs.flatten.length + (programSymbols p).length := by
    rw [himg, List.length_append, hinstrlen, hdlen]
  have himgcode : ∀ i, i < segs.flatten.length →
      resolveInstr (symbolTable segs.flatten.length (programSymbols p)) locs
        (segs.flatten.getD i (0, .num 0)) = .ok (image.getD i 0) := by
    intro i hi
    have hi' : i < code.length := by rw [hcodeflat]; exact hi
    have h1 := hipt i hi'
    rw [hcodeflat] at h1
    rw [himg, List.getD_append _ _ _ _ (by rw [hinstrlen]; exact hi)]
    exact h1
  have himgdata : ∀ j, j < (programSymbols p).length →
      dataCell ((programSymbols p).getD j "") =
        .ok (image.getD (segs.flatten.length + j) 0) := by
    intro j hj
    have h1 := hdpt j hj
    rw [himg, List.getD_append_right _ _ _ _ (by rw [hinstrlen]; omega),
      hinstrlen, Nat.add_sub_cancel_left]
    exact h1
  have hrel0 : Rel segs.flatten.length
      (symbolTable segs.flatten.length (programSymbols p)) image
      (mkIState inputs) (mkVM image inputs) := by
    refine ⟨?_, rfl, rfl, ?_, ?_, ?_⟩
    · show (image ++ List.replicate (100 - image.length) 0).length = 100
      rw [List.length_append, List.length_replicate]
      omega
    · intro i hi
      show (image ++ List.replicate (100 - image.length) 0).getD i 0 =
        image.getD i 0
      exact List.getD_append _ _ _ _ (by omega)
    · intro s a hlk hnc
      obtain ⟨jj, hjj, hgd, ha⟩ := symbolTable_lookup_inv _ _ _ _ hlk
      have hvn : varNameOk s = true := by
        rw [varNameOk, hnc]
        rfl
      have hdc := himgdata jj hjj
      rw [hgd, dataCell_var s hvn] at hdc
      show (image ++ List.replicate (100 - image.length) 0).getD a 0 =
        getVar [] s
      rw [List.getD_append _ _ _ _ (by omega), ha]
      injection hdc with h2
      rw [← h2]
      rfl
    · intro s a hlk hcs
      obtain ⟨jj, hjj, hgd, ha⟩ := symbolTable_lookup_inv _ _ _ _ hlk
      show (image ++ List.replicate (100 - image.length) 0).getD a 0 =
        image.getD a 0
      exact List.getD_append _ _ _ _ (by omega)
  exact sim_run p segs locs image hnd hres hsegslen hgen hlocs hlocsrange
    htotal himgcode himgdata fuel (mkIState inputs) (mkVM image inputs) hrel0
    (by show (0 : Nat) = offsetOf segs 0; rw [offsetOf_zero]) hchk

/-- Witness for C1 (amended): the adder `10 input a / 20 input b /
30 let c = a + b / 40 print c / 50 end` on inputs `[3, 4]`; both the
interpreter and the compiled image output `[7]`. -/
theorem claim_C1_amended_witness :
    ∃ vfuel outF,
      vmRun vfuel (mkVM [1007, 1008, 2007, 3008, 2109, 1109, 4300, 0, 0, 0]
        [3, 4]) = some (.ok outF) ∧
      interpRun ⟨[(10, .input "a"), (20, .input "b"),
        (30, .letStmt "c" (.binop (.var "a") "+" (.var "b"))),
        (40, .print "c"), (50, .endStmt)]⟩ 10 (mkIState [3, 4]) =
        some (.ok outF) :=
  claim_C1_amended ⟨[(10, .input "a"), (20, .input "b"),
      (30, .letStmt "c" (.binop (.var "a") "+" (.var "b"))),
      (40, .print "c"), (50, .endStmt)]⟩ [3, 4]
    [1007, 1008, 2007, 3008, 2109, 1109, 4300, 0, 0, 0] 10 (by decide)
    (by decide) (by decide) (by decide)

/-! ### Parser acceptance (C7) -/

/-- Structure of a successful `parse_program` loop: the accepted lines
extend the accumulator, and every parsed line number strictly exceeds the
previous one. -/
theorem parseProgramGo_ok (fuel : Nat) : ∀ toks prev acc res,
    parseProgramGo fuel prev acc toks = .ok res →
    ∃ ext, res = acc ++ ext ∧ List.Chain' (· < ·) (prev :: ext.map Prod.fst) := by
  induction fuel with
  | zero =>
    intro toks prev acc res h
    match toks with
    | [] =>
      rw [parseProgramGo] at h
      injection h with h'
      exact ⟨[], by simp [← h'], List.chain'_singleton prev⟩
    | tok :: rest =>
      rw [parseProgramGo] at h
      split at h
      · injection h with h'
        exact ⟨[], by simp [← h'], List.chain'_singleton prev⟩
      · exact absurd h (by simp)
  | succ f ih =>
    intro toks prev acc res h
    match toks with
    | [] =>
      rw [parseProgramGo] at h
      injection h with h'
      exact ⟨[], by simp [← h'], List.chain'_singleton prev⟩
    | tok :: rest =>
      rw [parseProgramGo] at h
      split at h
      · injection h with h'
        exact ⟨[], by simp [← h'], List.chain'_singleton prev⟩
      · split at h
        · split at h
          · exact absurd h (by simp)
          · split at h
            · exact absurd h (by simp)
            · simp only [bind, Except.bind] at h
              cases hps : parseStatement rest with
              | error e => rw [hps] at h; exact absurd h (by simp)
              | ok pr =>
                rw [hps] at h
                obtain ⟨ext', hres, hchain⟩ := ih _ _ _ _ h
                refine ⟨(tok.nval, pr.1) :: ext', by simp [hres], ?_⟩
                rw [List.map_cons, List.chain'_cons]
                exact ⟨by omega, hchain⟩
        · exact absurd h (by simp)

/-- Claim C7: the parser accepts a token sequence only with strictly
increasing (hence unique) line numbers, and a LINE_NUMBER not exceeding the
previous one is rejected with the non-increasing syntax error. -/
theorem claim_C7 :
    (∀ tokens prog, parseProgram tokens = .ok prog →
      List.Chain' (· < ·) (prog.lines.map Prod.fst) ∧
      (prog.lines.map Prod.fst).Nodup) ∧
    (∀ fuel prev acc (tok : Token) rest, tok.type = .lineNumber →
      tok.nval ≤ prev →
      parseProgramGo (fuel + 1) prev acc (tok :: rest) =
        .error (.lineNotIncreasing tok.nval prev tok.line tok.column)) := by
  constructor
  · intro tokens prog h
    unfold parseProgram at h
    cases hgo : parseProgramGo tokens.length 0 [] tokens with
    | error e => rw [hgo] at h; exact absurd h (by simp [Except.map])
    | ok res =>
      rw [hgo] at h
      simp only [Except.map] at h
      injection h with h'
      obtain ⟨ext, hres, hchain⟩ := parseProgramGo_ok _ _ _ _ _ hgo
      rw [List.nil_append] at hres
      subst hres
      have hchain' : List.Chain' (· < ·) (res.map Prod.fst) := hchain.tail
      rw [← h']
      refine ⟨hchain', ?_⟩
      have hpw : List.Pairwise (· < ·) (res.map Prod.fst) :=
        List.chain'_iff_pairwise.mp hchain'
      exact hpw.imp Nat.ne_of_lt
  · intro fuel prev acc tok rest htype hle
    have hne : ¬ tok.type = TokenType.eof := by simp [htype]
    rw [parseProgramGo]
    simp [htype, hne, hle]

/-- Witness for C7: a concrete accepted program has strictly increasing
unique line numbers, and a concrete non-increasing LINE_NUMBER is rejected
with the corresponding error. -/
theorem claim_C7_witness :
    (List.Chain' (· < ·)
        ((⟨[(10, Stmt.endStmt)]⟩ : Program).lines.map Prod.fst) ∧
      ((⟨[(10, Stmt.endStmt)]⟩ : Program).lines.map Prod.fst).Nodup) ∧
    parseProgramGo 1 10 [] [⟨.lineNumber, 5, "", 2, 1⟩] =
      .error (.lineNotIncreasing 5 10 2 1) :=
  ⟨claim_C7.1 [⟨.lineNumber, 10, "", 1, 1⟩, ⟨.endKw, 0, "", 1, 4⟩]
      ⟨[(10, .endStmt)]⟩ (by decide),
    claim_C7.2 0 10 [] ⟨.lineNumber, 5, "", 2, 1⟩ [] rfl (by decide)⟩

/-! ### Semantic analyzer (C8) -/

/-- The analyzer's accumulator loop collects exactly the offending pairs, in
statement order. -/
theorem analyzeGo_eq (valid : List Nat) : ∀ (l : List (Nat × Stmt)) errs,
    analyzeGo valid l errs = errs ++ l.filterMap (fun x =>
      match stmtTarget x.2 with
      | some t => if t ∈ valid then none else some (x.1, t)
      | none => none) := by
  intro l
  induction l with
  | nil => intro errs; simp [analyzeGo]
  | cons hd tl ih =>
    intro errs
    obtain ⟨ln, st⟩ := hd
    cases st <;>
      simp only [analyzeGo, checkGotoTarget, stmtTarget, ih, List.filterMap_cons] <;>
      split <;>
      simp

/-- Claim C8: the analyzer errors exactly when some GOTO / IF-GOTO target is
not a defined line number, and the error carries every offending
(source line, target) pair, not only the first. -/
theorem claim_C8 (p : Program) :
    (analyze p = .ok () ↔ offendingTargets p = []) ∧
    ((∃ es, analyze p = .error es) ↔
      ∃ x ∈ p.lines, ∃ t, stmtTarget x.2 = some t ∧ t ∉ validLineNumbers p) ∧
    (∀ es, analyze p = .error es → es = offendingTargets p) := by
  have hgo : analyzeGo (validLineNumbers p) p.lines [] = offendingTargets p := by
    rw [analyzeGo_eq]
    rfl
  have hana : analyze p =
      if offendingTargets p = [] then .ok () else .error (offendingTargets p) := by
    unfold analyze
    rw [hgo]
  have hmem : (∃ x ∈ p.lines, ∃ t, stmtTarget x.2 = some t ∧
      t ∉ validLineNumbers p) ↔ offendingTargets p ≠ [] := by
    constructor
    · rintro ⟨x, hx, t, ht, hmemb⟩ hnil
      rw [offendingTargets, List.filterMap_eq_nil_iff] at hnil
      have hthis := hnil x hx
      simp only [ht] at hthis
      rw [if_neg hmemb] at hthis
      exact Option.noConfusion hthis
    · intro hne
      match hoff : offendingTargets p with
      | [] => exact absurd hoff hne
      | y :: ys =>
        have hy : y ∈ offendingTargets p := by rw [hoff]; exact List.mem_cons_self y ys
        rw [offendingTargets, List.mem_filterMap] at hy
        obtain ⟨x, hx, hfx⟩ := hy
        refine ⟨x, hx, ?_⟩
        match hst : stmtTarget x.2 with
        | none =>
          simp only [hst] at hfx
          exact Option.noConfusion hfx
        | some t =>
          simp only [hst] at hfx
          by_cases hv : t ∈ validLineNumbers p
          · rw [if_pos hv] at hfx; exact Option.noConfusion hfx
          · exact ⟨t, rfl, hv⟩
  by_cases hoff : offendingTargets p = []
  · rw [hana, if_pos hoff]
    refine ⟨by simp [hoff], ?_, by simp⟩
    simp only [hmem, hoff]
    simp
  · rw [hana, if_neg hoff]
    refine ⟨by simp [hoff], ?_, ?_⟩
    · simp only [hmem]
      simp [hoff]
    · intro es hes
      injection hes with h'
      exact h'.symm

/-! ### Interpreter target safety (C10) -/

/-- Membership in the sorted line-number list is membership in the key
list. -/
theorem mem_lineNumbers (p : Program) (t : Nat) :
    t ∈ lineNumbers p ↔ t ∈ validLineNumbers p :=
  (List.perm_insertionSort (fun a b => a ≤ b) (p.lines.map Prod.fst)).mem_iff

/-- Expression evaluation can only fail with a division-by-zero or an
unknown-operator error. -/
theorem evalExpr_error_shape : ∀ (e : Expr) (vars : List (String × Int)) er,
    evalExpr vars e = .error er →
    er = .divByZero ∨ ∃ op, er = .unknownOperator op := by
  intro e
  induction e with
  | num v => intro vars er h; exact absurd h (by simp [evalExpr])
  | var n => intro vars er h; exact absurd h (by simp [evalExpr])
  | binop l op r ihl ihr =>
    intro vars er h
    simp only [evalExpr] at h
    cases hl : evalExpr vars l with
    | error e1 =>
      simp only [hl, bind, Except.bind] at h
      injection h with h'
      exact h' ▸ ihl vars e1 hl
    | ok lv =>
      simp only [hl, bind, Except.bind] at h
      cases hr : evalExpr vars r with
      | error e2 =>
        simp only [hr] at h
        injection h with h'
        exact h' ▸ ihr vars e2 hr
      | ok rv =>
        simp only [hr] at h
        by_cases c1 : op = "+"
        · rw [if_pos c1] at h; exact absurd h (by simp)
        rw [if_neg c1] at h
        by_cases c2 : op = "-"
        · rw [if_pos c2] at h; exact absurd h (by simp)
        rw [if_neg c2] at h
        by_cases c3 : op = "*"
        · rw [if_pos c3] at h; exact absurd h (by simp)
        rw [if_neg c3] at h
        by_cases c4 : op = "/"
        · rw [if_pos c4] at h
          by_cases c5 : rv = 0
          · rw [if_pos c5] at h; injection h with h'; exact Or.inl h'.symm
          · rw [if_neg c5] at h; exact absurd h (by simp)
        rw [if_neg c4] at h
        by_cases c6 : op = "%"
        · rw [if_pos c6] at h
          by_cases c7 : rv = 0
          · rw [if_pos c7] at h; injection h with h'; exact Or.inl h'.symm
          · rw [if_neg c7] at h; exact absurd h (by simp)
        rw [if_neg c6] at h
        by_cases c8 : op = "="
        · rw [if_pos c8] at h; exact absurd h (by simp)
        · rw [if_neg c8] at h
          injection h with h'
          exact Or.inr ⟨op, h'.symm⟩

/-- Condition evaluation can only fail with a division-by-zero, an unknown
operator, or an unknown relational operator. -/
theorem evalCond_error_shape (vars : List (String × Int)) (l : Expr)
    (op : String) (r : Expr) (er : IErr)
    (h : evalCond vars l op r = .error er) :
    er = .divByZero ∨ (∃ o, er = .unknownOperator o) ∨
      ∃ o, er = .unknownRelOp o := by
  simp only [evalCond] at h
  cases hl : evalExpr vars l with
  | error e1 =>
    simp only [hl, bind, Except.bind] at h
    injection h with h'
    rcases h' ▸ evalExpr_error_shape l vars e1 hl with h1 | h1
    · exact Or.inl h1
    · exact Or.inr (Or.inl h1)
  | ok lv =>
    simp only [hl, bind, Except.bind] at h
    cases hr : evalExpr vars r with
    | error e2 =>
      simp only [hr] at h
      injection h with h'
      rcases h' ▸ evalExpr_error_shape r vars e2 hr with h1 | h1
      · exact Or.inl h1
      · exact Or.inr (Or.inl h1)
    | ok rv =>
      simp only [hr] at h
      by_cases c1 : op = "=="
      · rw [if_pos c1] at h; exact absurd h (by simp)
      rw [if_neg c1] at h
      by_cases c2 : op = "!="
      · rw [if_pos c2] at h; exact absurd h (by simp)
      rw [if_neg c2] at h
      by_cases c3 : op = ">"
      · rw [if_pos c3] at h; exact absurd h (by simp)
      rw [if_neg c3] at h
      by_cases c4 : op = ">="
      · rw [if_pos c4] at h; exact absurd h (by simp)
      rw [if_neg c4] at h
      by_cases c5 : op = "<"
      · rw [if_pos c5] at h; exact absurd h (by simp)
      rw [if_neg c5] at h
      by_cases c6 : op = "<="
      · rw [if_pos c6] at h; exact absurd h (by simp)
      · rw [if_neg c6] at h
        injection h with h'
        exact Or.inr (Or.inr ⟨op, h'.symm⟩)

/-- When every branch target of the program is a defined line, one
interpreter step never fails with an undefined-target error. -/
theorem interpStep_no_missing (p : Program)
    (hvalid : ∀ x ∈ p.lines, ∀ t, stmtTarget x.2 = some t →
      t ∈ validLineNumbers p) :
    ∀ s e, interpStep p s = .fail e →
      ∀ t ln, e ≠ .gotoMissing t ln ∧ e ≠ .ifGotoMissing t ln := by
  intro s e hs t ln
  unfold interpStep at hs
  cases hln : (lineNumbers p)[s.pc]? with
  | none =>
    simp only [hln] at hs
    exact absurd hs (by simp)
  | some ln' =>
    simp only [hln] at hs
    cases hlook : p.lines.lookup ln' with
    | none =>
      simp only [hlook] at hs
      injection hs with h'
      subst h'
      exact ⟨by simp, by simp⟩
    | some stmt =>
      simp only [hlook] at hs
      have hmem : (ln', stmt) ∈ p.lines := lookup_mem hlook
      cases stmt with
      | rem => exact absurd hs (by simp)
      | input v =>
        cases hinp : s.inputs with
        | nil =>
          simp only [hinp] at hs
          injection hs with h'
          subst h'
          exact ⟨by simp, by simp⟩
        | cons x rest =>
          simp only [hinp] at hs
          exact absurd hs (by simp)
      | print v => exact absurd hs (by simp)
      | letStmt v ex =>
        cases hev : evalExpr s.vars ex with
        | error er =>
          simp only [hev] at hs
          injection hs with h'
          subst h'
          rcases evalExpr_error_shape ex s.vars er hev with h1 | ⟨o, h1⟩ <;>
            subst h1 <;> exact ⟨by simp, by simp⟩
        | ok val =>
          simp only [hev] at hs
          exact absurd hs (by simp)
      | goto t' =>
        have ht' : t' ∈ lineNumbers p :=
          (mem_lineNumbers p t').mpr (hvalid _ hmem t' rfl)
        simp only [ht', if_true] at hs
        exact absurd hs (by simp)
      | ifGoto cl cop cr t' =>
        cases hev : evalCond s.vars cl cop cr with
        | error er =>
          simp only [hev] at hs
          injection hs with h'
          subst h'
          rcases evalCond_error_shape s.vars cl cop cr er hev with
            h1 | ⟨o, h1⟩ | ⟨o, h1⟩ <;> subst h1 <;> exact ⟨by simp, by simp⟩
        | ok b =>
          simp only [hev] at hs
          cases b with
          | true =>
            have ht' : t' ∈ lineNumbers p :=
              (mem_lineNumbers p t').mpr (hvalid _ hmem t' rfl)
            rw [if_pos rfl, if_pos ht'] at hs
            exact absurd hs (by simp)
          | false => exact absurd hs (by simp)
      | endStmt => exact absurd hs (by simp)

/-- A program accepted by the analyzer has every branch target defined. -/
theorem analyze_ok_targets (p : Program) (h : analyze p = .ok ()) :
    ∀ x ∈ p.lines, ∀ t, stmtTarget x.2 = some t →
      t ∈ validLineNumbers p := by
  intro x hx t ht
  by_contra hmemb
  have hgo : analyzeGo (validLineNumbers p) p.lines [] = offendingTargets p := by
    rw [analyzeGo_eq]; rfl
  unfold analyze at h
  rw [hgo] at h
  by_cases hoff : offendingTargets p = []
  · rw [offendingTargets, List.filterMap_eq_nil_iff] at hoff
    have hthis := hoff x hx
    simp only [ht] at hthis
    rw [if_neg hmemb] at hthis
    exact Option.noConfusion hthis
  · rw [if_neg hoff] at h
    exact Except.noConfusion h

/-- Claim C10: for a program that passed semantic analysis, the
interpreter's undefined-GOTO and undefined-IF-target runtime errors are
unreachable: no run, from any state, produces them. -/
theorem claim_C10 (p : Program) (h : analyze p = .ok ()) :
    ∀ fuel s t ln,
      interpRun p fuel s ≠ some (.error (.gotoMissing t ln)) ∧
      interpRun p fuel s ≠ some (.error (.ifGotoMissing t ln)) := by
  have hstep := interpStep_no_missing p (analyze_ok_targets p h)
  intro fuel
  induction fuel with
  | zero =>
    intro s t ln
    rw [interpRun]
    cases hs : interpStep p s with
    | halted s' => exact ⟨by simp, by simp⟩
    | offEnd s' => exact ⟨by simp, by simp⟩
    | next s' => exact ⟨by simp, by simp⟩
    | fail e =>
      obtain ⟨h1, h2⟩ := hstep s e hs t ln
      constructor <;> intro hc <;> injection hc with hc' <;>
        injection hc' with hc''
      · exact h1 hc''
      · exact h2 hc''
  | succ f ih =>
    intro s t ln
    rw [interpRun]
    cases hs : interpStep p s with
    | halted s' => exact ⟨by simp, by simp⟩
    | offEnd s' => exact ⟨by simp, by simp⟩
    | next s' => exact ih s' t ln
    | fail e =>
      obtain ⟨h1, h2⟩ := hstep s e hs t ln
      constructor <;> intro hc <;> injection hc with hc' <;>
        injection hc' with hc''
      · exact h1 hc''
      · exact h2 hc''

/-- Witness for C10 at a concrete analyzed program, run and error
instance. -/
theorem claim_C10_witness :
    interpRun ⟨[(10, Stmt.goto 20), (20, Stmt.endStmt)]⟩ 5 (mkIState []) ≠
      some (.error (.gotoMissing 1 1)) :=
  (claim_C10 ⟨[(10, Stmt.goto 20), (20, Stmt.endStmt)]⟩ (by decide)
      5 (mkIState []) 1 1).1

/-- Witness for C8 at a concrete program whose single GOTO targets an
undefined line. -/
theorem claim_C8_witness :
    (analyze ⟨[(10, Stmt.goto 99), (20, Stmt.endStmt)]⟩ = .ok () ↔
      offendingTargets ⟨[(10, Stmt.goto 99), (20, Stmt.endStmt)]⟩ = []) ∧
    ([(10, 99)] : List (Nat × Nat)) =
      offendingTargets ⟨[(10, Stmt.goto 99), (20, Stmt.endStmt)]⟩ :=
  ⟨(claim_C8 ⟨[(10, Stmt.goto 99), (20, Stmt.endStmt)]⟩).1,
    (claim_C8 ⟨[(10, Stmt.goto 99), (20, Stmt.endStmt)]⟩).2.2 [(10, 99)]
      (by decide)⟩

end Simple
